import Mathlib

/-!
Verification of the NodeModal editing pipeline
(`src/features/modals/NodeModal/index.tsx`).

The file embeds the JSON value model, the behavior of the JavaScript
builtins the component relies on (`JSON.parse`, `JSON.stringify`,
property indexing), and the component's own functions
(`normalizeNodeData`, the save handler with its edit parser, merge
resolver and selection reconciliation).  JSON numbers are represented
by their literal text: no numeric computation is performed on them by
the code under study, and the literal keeps parsing and serialization
exact.
-/

/-- A path segment: an object key (string) or an array index (number),
mirroring the `(string | number)[]` path type of the source. -/
inductive JSeg where
  | str (s : String)
  | num (n : Int)
deriving DecidableEq, Repr

/-- A JSON value.  Objects are ordered association lists, reflecting
JavaScript property insertion order; numbers carry their literal text. -/
inductive JValue where
  | null
  | bool (b : Bool)
  | num (lit : String)
  | str (s : String)
  | arr (elems : List JValue)
  | obj (fields : List (String × JValue))
deriving Repr

/-- JavaScript property assignment `o[k] = v` on an ordered object:
an existing key keeps its position and gets the new value, a new key is
appended at the end. -/
def objInsert (fields : List (String × JValue)) (k : String) (v : JValue) :
    List (String × JValue) :=
  match fields with
  | [] => [(k, v)]
  | (k0, v0) :: rest =>
    if k0 = k then (k0, v) :: rest else (k0, v0) :: objInsert rest k v

/-- JavaScript property read `o[k]` on an ordered object (first match;
parsed objects never hold duplicate keys). -/
def objLookup (fields : List (String × JValue)) (k : String) : Option JValue :=
  match fields with
  | [] => none
  | (k0, v0) :: rest => if k0 = k then some v0 else objLookup rest k

/-! ### Serialization (`JSON.stringify`) -/

/-- Lower-case hexadecimal digit, as emitted by `JSON.stringify` for
control-character escapes. -/
def hexDigitChar (n : Nat) : Char :=
  if n < 10 then Char.ofNat ('0'.toNat + n) else Char.ofNat ('a'.toNat + (n - 10))

/-- The escape `JSON.stringify` applies to one character of a string. -/
def escapeChar (c : Char) : List Char :=
  if c = '"' then ['\\', '"']
  else if c = '\\' then ['\\', '\\']
  else if c = '\x08' then ['\\', 'b']
  else if c = '\x0c' then ['\\', 'f']
  else if c = '\n' then ['\\', 'n']
  else if c = '\r' then ['\\', 'r']
  else if c = '\t' then ['\\', 't']
  else if c.toNat < 0x20 then
    ['\\', 'u', '0', '0', hexDigitChar (c.toNat / 16), hexDigitChar (c.toNat % 16)]
  else [c]

/-- A JSON string literal: quote, escaped characters, quote. -/
def escString (s : String) : List Char :=
  '"' :: (s.data.map escapeChar).flatten ++ ['"']

mutual

/-- Compact `JSON.stringify` (no spacing argument), as character list. -/
def serialize : JValue → List Char
  | .null => "null".data
  | .bool true => "true".data
  | .bool false => "false".data
  | .num lit => lit.data
  | .str s => escString s
  | .arr es => '[' :: serArr es ++ [']']
  | .obj fs => '{' :: serObj fs ++ ['}']

/-- Array elements, comma-separated. -/
def serArr : List JValue → List Char
  | [] => []
  | [e] => serialize e
  | e :: rest => serialize e ++ ',' :: serArr rest

/-- Object members `"key":value`, comma-separated. -/
def serObj : List (String × JValue) → List Char
  | [] => []
  | [(k, v)] => escString k ++ ':' :: serialize v
  | (k, v) :: rest => escString k ++ ':' :: serialize v ++ ',' :: serObj rest

end

/-- `JSON.stringify` as a string-valued function. -/
def jsonStringify (v : JValue) : String := String.mk (serialize v)

/-! ### Parsing (`JSON.parse`) -/

/-- JSON insignificant whitespace (exactly space, tab, line feed,
carriage return). -/
def isWsChar (c : Char) : Bool :=
  c = ' ' || c = '\t' || c = '\n' || c = '\r'

/-- Skip insignificant whitespace. -/
def skipWs (cs : List Char) : List Char := cs.dropWhile isWsChar

/-- ASCII decimal digit. -/
def isDigitChar (c : Char) : Bool := '0' ≤ c && c ≤ '9'

/-- Any character that can occur in a JSON number token. -/
def isNumChar (c : Char) : Bool :=
  isDigitChar c || c = '-' || c = '+' || c = '.' || c = 'e' || c = 'E'

/-- Optional exponent part of a JSON number, which must use the whole
remaining token. -/
def validExp : List Char → Bool
  | [] => true
  | c :: r =>
    if c = 'e' || c = 'E' then
      match r with
      | [] => false
      | c2 :: r2 =>
        if c2 = '+' || c2 = '-' then !r2.isEmpty && r2.all isDigitChar
        else (c2 :: r2).all isDigitChar
    else false

/-- Optional fraction then optional exponent of a JSON number. -/
def validFracExp : List Char → Bool
  | [] => true
  | c :: r =>
    if c = '.' then
      let ds := r.takeWhile isDigitChar
      !ds.isEmpty && validExp (r.dropWhile isDigitChar)
    else validExp (c :: r)

/-- JSON number grammar after the optional minus sign: `0` or a
nonzero-led digit run, then fraction and exponent. -/
def validNumBody : List Char → Bool
  | [] => false
  | c :: r =>
    if c = '0' then validFracExp r
    else ('1' ≤ c && c ≤ '9') && validFracExp (r.dropWhile isDigitChar)

/-- Whole JSON number token grammar. -/
def validNumLit : List Char → Bool
  | [] => false
  | c :: r => if c = '-' then validNumBody r else validNumBody (c :: r)

/-- Value of one hexadecimal digit. -/
def hexVal (c : Char) : Option Nat :=
  let n := c.toNat
  if 48 ≤ n && n ≤ 57 then some (n - 48)
  else if 97 ≤ n && n ≤ 102 then some (n - 87)
  else if 65 ≤ n && n ≤ 70 then some (n - 55)
  else none

/-- Four-hex-digit scalar of a `\u` escape. -/
def parseHex4 (a b c d : Char) : Option Nat :=
  match hexVal a, hexVal b, hexVal c, hexVal d with
  | some x, some y, some z, some w => some (((x * 16 + y) * 16 + z) * 16 + w)
  | _, _, _, _ => none

/-- The low-surrogate continuation of a `\u` escape: expects a second
`\uXXXX` escape holding a low surrogate and combines the pair. -/
def parseStrLow (recur : List Char → Option (List Char × List Char))
    (n : Nat) : List Char → Option (List Char × List Char)
  | e2 :: u2 :: a2 :: b2 :: c3 :: d2 :: r3 =>
    if e2 = '\\' && u2 = 'u' then
      match parseHex4 a2 b2 c3 d2 with
      | some m =>
        if 0xDC00 ≤ m && m < 0xE000 then
          (recur r3).map (fun p =>
            (Char.ofNat (0x10000 + (n - 0xD800) * 0x400 + (m - 0xDC00)) ::
              p.1, p.2))
        else none
      | none => none
    else none
  | _ => none

/-- A `\u` escape: four hex digits, then possibly a surrogate pair. -/
def parseStrU (recur : List Char → Option (List Char × List Char)) :
    List Char → Option (List Char × List Char)
  | a :: b :: c2 :: d :: r2 =>
    match parseHex4 a b c2 d with
    | none => none
    | some n =>
      if n < 0xD800 || 0xE000 ≤ n then
        (recur r2).map (fun p => (Char.ofNat n :: p.1, p.2))
      else if n < 0xDC00 then parseStrLow recur n r2
      else none
  | _ => none

/-- One escape sequence after a backslash in a JSON string body;
`recur` continues the body after the unescaped character. -/
def parseStrEsc (recur : List Char → Option (List Char × List Char))
    (e : Char) (r : List Char) : Option (List Char × List Char) :=
  if e = '"' then (recur r).map (fun p => ('"' :: p.1, p.2))
  else if e = '\\' then (recur r).map (fun p => ('\\' :: p.1, p.2))
  else if e = '/' then (recur r).map (fun p => ('/' :: p.1, p.2))
  else if e = 'b' then (recur r).map (fun p => ('\x08' :: p.1, p.2))
  else if e = 'f' then (recur r).map (fun p => ('\x0c' :: p.1, p.2))
  else if e = 'n' then (recur r).map (fun p => ('\n' :: p.1, p.2))
  else if e = 'r' then (recur r).map (fun p => ('\r' :: p.1, p.2))
  else if e = 't' then (recur r).map (fun p => ('\t' :: p.1, p.2))
  else if e = 'u' then parseStrU recur r
  else none

/-- JSON string body after the opening quote: unescape until the
closing quote, rejecting raw control characters and lone surrogates
(which JavaScript would accept but a Unicode scalar string cannot
hold).  Returns the decoded characters and the unconsumed suffix; the
fuel is at least the input length at every call site, so it never runs
out. -/
def parseStrBody : Nat → List Char → Option (List Char × List Char)
  | 0, _ => none
  | _ + 1, [] => none
  | fuel + 1, c :: rest =>
    if c = '"' then some ([], rest)
    else if c = '\\' then
      match rest with
      | [] => none
      | e :: r => parseStrEsc (parseStrBody fuel) e r
    else if c.toNat < 0x20 then none
    else (parseStrBody fuel rest).map (fun p => (c :: p.1, p.2))

mutual

/-- Recursive-descent JSON value parser (leading whitespace already
skipped); returns the value and the unconsumed suffix. -/
def parseVal : Nat → List Char → Option (JValue × List Char)
  | 0, _ => none
  | _ + 1, [] => none
  | fuel + 1, c :: cs =>
    if c = 'n' then
      match cs with
      | 'u' :: 'l' :: 'l' :: r => some (.null, r)
      | _ => none
    else if c = 't' then
      match cs with
      | 'r' :: 'u' :: 'e' :: r => some (.bool true, r)
      | _ => none
    else if c = 'f' then
      match cs with
      | 'a' :: 'l' :: 's' :: 'e' :: r => some (.bool false, r)
      | _ => none
    else if c = '"' then
      match parseStrBody (cs.length + 1) cs with
      | some (s, r) => some (.str (String.mk s), r)
      | none => none
    else if c = '[' then
      match skipWs cs with
      | [] => none
      | c1 :: cs1 =>
        if c1 = ']' then some (.arr [], cs1)
        else parseElems fuel (c1 :: cs1) []
    else if c = '{' then
      match skipWs cs with
      | [] => none
      | c1 :: cs1 =>
        if c1 = '}' then some (.obj [], cs1)
        else parseFields fuel (c1 :: cs1) []
    else if isDigitChar c || c = '-' then
      let tok := (c :: cs).takeWhile isNumChar
      let r := (c :: cs).dropWhile isNumChar
      if validNumLit tok then some (.num (String.mk tok), r) else none
    else none

/-- Array element loop: value, then `,` and the next element or `]`. -/
def parseElems : Nat → List Char → List JValue → Option (JValue × List Char)
  | 0, _, _ => none
  | fuel + 1, cs, acc =>
    match parseVal fuel cs with
    | none => none
    | some (v, r) =>
      match skipWs r with
      | [] => none
      | c1 :: r2 =>
        if c1 = ',' then parseElems fuel (skipWs r2) (v :: acc)
        else if c1 = ']' then some (.arr (v :: acc).reverse, r2)
        else none

/-- Object member loop: `"key" : value`, then `,` and the next member or
`}`; duplicate keys resolve by assignment, last one wins. -/
def parseFields : Nat → List Char → List (String × JValue) →
    Option (JValue × List Char)
  | 0, _, _ => none
  | fuel + 1, cs, acc =>
    match cs with
    | [] => none
    | c0 :: cs1 =>
      if c0 = '"' then
        match parseStrBody (cs1.length + 1) cs1 with
        | none => none
        | some (ks, r) =>
          match skipWs r with
          | [] => none
          | c1 :: r2 =>
            if c1 = ':' then
              match parseVal fuel (skipWs r2) with
              | none => none
              | some (v, r3) =>
                match skipWs r3 with
                | [] => none
                | c2 :: r4 =>
                  if c2 = ',' then
                    parseFields fuel (skipWs r4) (objInsert acc (String.mk ks) v)
                  else if c2 = '}' then
                    some (.obj (objInsert acc (String.mk ks) v), r4)
                  else none
            else none
      else none

end

/-- `JSON.parse`: parse one value surrounded by optional whitespace,
requiring the whole input to be consumed. -/
def parseJson (s : String) : Option JValue :=
  match parseVal (2 * s.data.length + 2) (skipWs s.data) with
  | some (v, r) => if (skipWs r).isEmpty then some v else none
  | none => none

/-! ### Pretty serialization (`JSON.stringify(v, null, 2)`) -/

/-- Indentation of `2 * d` spaces at nesting depth `d`. -/
def ind (d : Nat) : List Char := List.replicate (2 * d) ' '

mutual

/-- `JSON.stringify` with a 2-space indent, at nesting depth `d`. -/
def ser2 (d : Nat) : JValue → List Char
  | .null => "null".data
  | .bool true => "true".data
  | .bool false => "false".data
  | .num lit => lit.data
  | .str s => escString s
  | .arr [] => ['[', ']']
  | .arr (e :: es) =>
    '[' :: '\n' :: ind (d + 1) ++ ser2 (d + 1) e ++ ser2ArrRest d es ++
      '\n' :: ind d ++ [']']
  | .obj [] => ['{', '}']
  | .obj ((k, v) :: fs) =>
    '{' :: '\n' :: ind (d + 1) ++ escString k ++ ':' :: ' ' :: ser2 (d + 1) v ++
      ser2ObjRest d fs ++ '\n' :: ind d ++ ['}']

/-- Remaining indented array elements, each preceded by `,\n` plus
indentation. -/
def ser2ArrRest (d : Nat) : List JValue → List Char
  | [] => []
  | e :: rest => ',' :: '\n' :: ind (d + 1) ++ ser2 (d + 1) e ++ ser2ArrRest d rest

/-- Remaining indented object members, each preceded by `,\n` plus
indentation. -/
def ser2ObjRest (d : Nat) : List (String × JValue) → List Char
  | [] => []
  | (k, v) :: rest =>
    ',' :: '\n' :: ind (d + 1) ++ escString k ++ ':' :: ' ' :: ser2 (d + 1) v ++
      ser2ObjRest d rest

end

/-- `JSON.stringify(v, null, 2)` as a string. -/
def jsonStringify2 (v : JValue) : String := String.mk (ser2 0 v)

/-! ### JavaScript coercion helpers -/

/-- Whitespace trimmed by `String.prototype.trim`. -/
def isJsWsChar (c : Char) : Bool :=
  c = ' ' || c = '\t' || c = '\n' || c = '\r' || c = '\x0b' || c = '\x0c' ||
  c = ' ' || c = '﻿' || c = ' ' || c = ' '

/-- JavaScript `text.trim()`. -/
def jsTrim (s : String) : String :=
  String.mk (((s.data.dropWhile isJsWsChar).reverse.dropWhile isJsWsChar).reverse)

mutual

/-- JavaScript string coercion of a value, as used by the template
literal rendering a row's value. -/
def jsTemplate : JValue → String
  | .null => "null"
  | .bool true => "true"
  | .bool false => "false"
  | .num lit => lit
  | .str s => s
  | .arr xs => jsTemplateList xs
  | .obj _ => "[object Object]"

/-- `Array.prototype.toString`: elements joined with commas. -/
def jsTemplateList : List JValue → String
  | [] => ""
  | [x] => jsTemplateElem x
  | x :: rest => jsTemplateElem x ++ "," ++ jsTemplateList rest

/-- One array element under string coercion (`null` renders empty). -/
def jsTemplateElem : JValue → String
  | .null => ""
  | v => jsTemplate v

end

/-! ### Rows and nodes (`NodeData` from `src/types/graph`) -/

/-- One displayable row of a node: optional key, value, and a type tag
(the source compares the tag against the strings `"array"` and
`"object"`). -/
structure NodeRow where
  key : Option String
  value : JValue
  type : String
deriving Repr

/-- JavaScript truthiness of a row key (`undefined` and the empty
string are falsy). -/
def keyTruthy : Option String → Bool
  | none => false
  | some s => !(s = "")

/-- A node of the rebuilt graph: identity, structural path, rows. -/
structure GraphNode where
  id : String
  path : Option (List JSeg)
  text : Option (List NodeRow)
deriving Repr

/-! ### `normalizeNodeData` (lines 13-24 of the source) -/

/-- The key-to-value object accumulated by `normalizeNodeData`: rows
typed `array` or `object` are skipped, as are rows whose key is falsy;
remaining rows are assigned in order. -/
def buildRowObj (rows : List NodeRow) : List (String × JValue) :=
  rows.foldl
    (fun acc row =>
      if row.type != "array" && row.type != "object" then
        match row.key with
        | some k => if k = "" then acc else objInsert acc k row.value
        | none => acc
      else acc)
    []

/-- `normalizeNodeData`: flatten a node's rows to editable text. -/
def normalizeNodeData (nodeRows : Option (List NodeRow)) : String :=
  match nodeRows with
  | none => "\x7b\x7d"
  | some rows =>
    match rows with
    | [] => "\x7b\x7d"
    | [row] =>
      if !keyTruthy row.key then jsTemplate row.value
      else jsonStringify2 (.obj (buildRowObj rows))
    | _ => jsonStringify2 (.obj (buildRowObj rows))

/-! ### The edit parser (lines 60-76 of the source) -/

/-- The regular expression `^[-]?[0-9]+(\.[0-9]+)?$` of the source:
an optional minus sign, digits, optionally a dot and digits. -/
def isIntDecLit (cs : List Char) : Bool :=
  let cs1 := match cs with
    | '-' :: r => r
    | _ => cs
  let ds := cs1.takeWhile isDigitChar
  let rest := cs1.dropWhile isDigitChar
  !ds.isEmpty &&
    (match rest with
     | [] => true
     | c :: fr => c = '.' && !fr.isEmpty && fr.all isDigitChar)

/-- Strip leading `'0'` characters. -/
def stripZeros (cs : List Char) : List Char := cs.dropWhile (fun c => c = '0')

/-- JavaScript `Number(trimmed)` on a string matching the regular
expression above, rendered back to its canonical literal (what the
number prints as): leading zeros of the integer part and trailing zeros
of the fraction disappear, `-0` prints as `0`. -/
def canonNum (cs : List Char) : String :=
  let neg := match cs with
    | '-' :: _ => true
    | _ => false
  let body := match cs with
    | '-' :: r => r
    | _ => cs
  let intPart := body.takeWhile isDigitChar
  let fracPart := (body.dropWhile isDigitChar).drop 1
  let i := match stripZeros intPart with
    | [] => ['0']
    | ds => ds
  let f := (stripZeros fracPart.reverse).reverse
  if f.isEmpty then
    if i = ['0'] then "0" else String.mk (if neg then '-' :: i else i)
  else String.mk ((if neg then '-' :: i else i) ++ '.' :: f)

/-- The edit parser: strict `JSON.parse`, then on failure the fallback
coercion chain of the `catch` block (number literal, `true`/`false`,
`null`, otherwise the trimmed text as a string). -/
def editParse (editedText : String) : JValue :=
  match parseJson editedText with
  | some v => v
  | none =>
    let trimmed := jsTrim editedText
    if isIntDecLit trimmed.data then .num (canonNum trimmed.data)
    else if trimmed = "true" || trimmed = "false" then .bool (trimmed = "true")
    else if trimmed = "null" then .null
    else .str trimmed

/-! ### The merge resolver (lines 84-105 of the source) -/

/-- The decimal digit character for `n < 10`. -/
def decDigit (n : Nat) : Char := Char.ofNat ('0'.toNat + n)

/-- Big-endian decimal digits of a natural number, fuel-driven. -/
def natDecAux : Nat → Nat → List Char
  | 0, _ => []
  | fuel + 1, n =>
    if n < 10 then [decDigit n]
    else natDecAux fuel (n / 10) ++ [decDigit (n % 10)]

/-- Canonical decimal digits of a natural number. -/
def natToDec (n : Nat) : List Char := natDecAux (n + 1) n

/-- JavaScript `String(n)` for an integer: canonical decimal with an
optional leading minus sign. -/
def intToDec : Int → List Char
  | .ofNat n => natToDec n
  | .negSucc m => '-' :: natToDec (m + 1)

/-- The key a segment reads as under JavaScript property access
(`o[1]` reads the property named `"1"`). -/
def segKey : JSeg → String
  | .str s => s
  | .num n => String.mk (intToDec n)

/-- A segment as a canonical array index, mirroring JavaScript indexed
access on arrays and strings: a non-negative number, or a string that
is the canonical decimal form of a non-negative number. -/
def natIndexOf : JSeg → Option Nat
  | .num n => if 0 ≤ n then some n.toNat else none
  | .str s =>
    match s.toNat? with
    | some n => if String.mk (natToDec n) = s then some n else none
    | none => none

/-- JavaScript `cur[seg]` on a JSON value (`undefined` is `none`):
object member, array element, string character; properties of other
primitives read as `undefined`. -/
def jsIndex (v : JValue) (seg : JSeg) : Option JValue :=
  match v with
  | .obj fs => objLookup fs (segKey seg)
  | .arr xs =>
    match natIndexOf seg with
    | some n => xs.get? n
    | none => none
  | .str s =>
    match natIndexOf seg with
    | some n => (s.data.get? n).map (fun c => .str (String.mk [c]))
    | none => none
  | _ => none

/-- The `getAtPath` helper of `handleSave`: walk the parsed document
segment by segment, returning `undefined` (`none`) as soon as the
cursor is `null`/`undefined` or a read misses. -/
def getAtPath (t : JValue) : List JSeg → Option JValue
  | [] => some t
  | seg :: rest =>
    match t with
    | .null => none
    | _ =>
      match jsIndex t seg with
      | none => none
      | some v => getAtPath v rest

/-- The `isObject` helper: truthy, of object type, and not an array. -/
def isObjectJS : JValue → Bool
  | .obj _ => true
  | _ => false

/-- JavaScript object spread `{...e, ...c}` on ordered objects. -/
def mergeSpread (e c : List (String × JValue)) : List (String × JValue) :=
  c.foldl (fun acc kv => objInsert acc kv.1 kv.2) e

/-- The merge resolution of `handleSave`: if the original document
parses and holds a non-array non-null object at the path, and the
parsed edit is such an object too, merge shallowly; otherwise (or on
a parse failure) keep the parsed edit verbatim. -/
def resolveValueToWrite (originalJson : String) (path : List JSeg)
    (parsed : JValue) : JValue :=
  match parseJson originalJson with
  | none => parsed
  | some originalParsed =>
    match getAtPath originalParsed path, parsed with
    | some (.obj e), .obj c => .obj (mergeSpread e c)
    | _, _ => parsed

/-! ### Selection reconciliation (lines 117-126 of the source) -/

/-- `JSON.stringify` of a path value (segments keep their JavaScript
types: strings quoted, numbers bare). -/
def segToJValue : JSeg → JValue
  | .str s => .str s
  | .num n => .num (String.mk (intToDec n))

/-- The comparison key `JSON.stringify(path)` used by the reselection
step. -/
def pathKey (p : List JSeg) : String := jsonStringify (.arr (p.map segToJValue))

/-- `JSON.stringify(n.path)` when the path may be `undefined`
(`JSON.stringify(undefined)` is `undefined`). -/
def pathKeyOpt : Option (List JSeg) → Option String
  | none => none
  | some p => some (pathKey p)

/-- The reselection lookup: the first node of the rebuilt set whose
stringified path equals the stringified captured path. -/
def findMatchingNode (nodes : List GraphNode) (path : List JSeg) :
    Option GraphNode :=
  nodes.find? (fun n => pathKeyOpt n.path = some (pathKey path))

/-! ### The modal session state machine -/

/-- The observable state the modal reads and writes: the two document
stores (`useJson` text, `useFile` contents with its dirty flag), the
graph selection and node set, and the local editing flag and buffer. -/
structure ModalState where
  opened : Bool
  selectedNode : Option GraphNode
  jsonText : String
  fileContents : String
  hasChanges : Bool
  editing : Bool
  editedText : String
  nodes : List GraphNode
deriving Repr

/-- The only diagnostic the save path emits: the `console.warn` of the
outer `catch`. -/
inductive Diagnostic where
  | warnFailedApply
deriving DecidableEq, Repr

/-- The `useEffect` of lines 41-45: reset the editor (leave viewing
mode, clear the buffer). -/
def resetEditor (s : ModalState) : ModalState :=
  { s with editing := false, editedText := "" }

/-- The `handleEdit` callback: seed the buffer from the normalized rows
of the selected node (`nodeData?.text ?? []`) and enter editing. -/
def handleEdit (s : ModalState) : ModalState :=
  { s with
    editedText := normalizeNodeData (some (((s.selectedNode).bind
      (fun n => n.text)).getD [])),
    editing := true }

/-- The `handleCancel` callback. -/
def handleCancel (s : ModalState) : ModalState :=
  { s with editing := false, editedText := "" }

/-- `handleSave` (lines 56-135).  The document patcher
(`modify`/`applyEdits` of the jsonc-parser dependency) is passed as a
function returning `none` when it throws, and the external graph
rebuild triggered by `setJson` is passed as a function from the new
text to the new node set.  Returns the new state and the diagnostics
emitted. -/
def handleSave (patchFn : String → List JSeg → JValue → Option String)
    (rebuildNodes : String → List GraphNode) (s : ModalState) :
    ModalState × List Diagnostic :=
  match s.selectedNode with
  | none => (s, [])
  | some nodeData =>
    let parsed := editParse s.editedText
    let originalJson := s.jsonText
    let path := nodeData.path.getD []
    let valueToWrite := resolveValueToWrite originalJson path parsed
    match patchFn originalJson path valueToWrite with
    | none => (s, [.warnFailedApply])
    | some newJson =>
      let nodes := rebuildNodes newJson
      let s1 := { s with jsonText := newJson, nodes := nodes,
                         fileContents := newJson, hasChanges := false }
      let s2 := match findMatchingNode nodes path with
        | some m => { s1 with selectedNode := some m }
        | none => s1
      ({ s2 with editing := false, editedText := "" }, [])

/-- The user-triggered events of one modal session. -/
inductive ModalEvent where
  | openModal
  | closeModal
  | selectNode (n : Option GraphNode)
  | startEdit
  | cancelEdit
  | changeText (t : String)
deriving Repr

/-- One step of the session state machine for the non-save events.
Opening or closing the modal changes `opened`, and selecting a node
changes `nodeData?.id`; each firing of the reset effect of lines 41-45.
Selecting a node with the identity of the current one leaves the
effect's dependencies unchanged, so no reset occurs. -/
def stepEvent (s : ModalState) : ModalEvent → ModalState
  | .openModal => resetEditor { s with opened := true }
  | .closeModal => resetEditor { s with opened := false }
  | .selectNode n =>
    if (n.map GraphNode.id) = (s.selectedNode.map GraphNode.id) then
      { s with selectedNode := n }
    else resetEditor { s with selectedNode := n }
  | .startEdit => handleEdit s
  | .cancelEdit => handleCancel s
  | .changeText t => { s with editedText := t }

/-! ### Claim theorems -/

/-- C10: if no node is selected when save is triggered, the save is a
complete no-op: the state (document text, editing flag, edit buffer and
everything else) is returned unchanged and no diagnostic is emitted,
whatever the patcher and rebuild functions would do. -/
theorem save_without_selection_is_noop
    (patchFn : String → List JSeg → JValue → Option String)
    (rebuildNodes : String → List GraphNode) (s : ModalState)
    (h : s.selectedNode = none) :
    handleSave patchFn rebuildNodes s = (s, []) := by
  unfold handleSave
  rw [h]

theorem save_without_selection_is_noop_witness :
    handleSave (fun _ _ _ => none) (fun _ => [])
      { opened := true, selectedNode := none, jsonText := "[1]",
        fileContents := "[1]", hasChanges := false, editing := true,
        editedText := "2", nodes := [] } =
      ({ opened := true, selectedNode := none, jsonText := "[1]",
         fileContents := "[1]", hasChanges := false, editing := true,
         editedText := "2", nodes := [] }, []) :=
  save_without_selection_is_noop _ _ _ rfl

/-- C8: opening the modal, or switching the externally selected node
(a node with a different identity) while open, forces the session into
the viewing state with an empty edit buffer, regardless of the prior
state. -/
theorem open_or_switch_resets_editor (s : ModalState) (n : Option GraphNode)
    (h : n.map GraphNode.id ≠ s.selectedNode.map GraphNode.id) :
    (stepEvent s .openModal).editing = false ∧
    (stepEvent s .openModal).editedText = "" ∧
    (stepEvent s (.selectNode n)).editing = false ∧
    (stepEvent s (.selectNode n)).editedText = "" := by
  refine ⟨rfl, rfl, ?_, ?_⟩ <;> simp [stepEvent, resetEditor, h]

theorem open_or_switch_resets_editor_witness :
    (some (GraphNode.mk "n2" none none)).map GraphNode.id ≠
      (({ opened := true, selectedNode := some (GraphNode.mk "n1" none none),
          jsonText := "1", fileContents := "1", hasChanges := false,
          editing := true, editedText := "x", nodes := [] } :
        ModalState).selectedNode).map GraphNode.id ∧
    (stepEvent
      { opened := true, selectedNode := some (GraphNode.mk "n1" none none),
        jsonText := "1", fileContents := "1", hasChanges := false,
        editing := true, editedText := "x", nodes := [] }
      (.selectNode (some (GraphNode.mk "n2" none none)))).editing = false :=
  ⟨by decide,
   (open_or_switch_resets_editor _ (some (GraphNode.mk "n2" none none))
     (by decide)).2.2.1⟩

/-- C3: when the patch step of a save fails (the patcher throws instead
of producing a new text), the save aborts atomically: the whole state —
document text, file mirror, editing flag, edit buffer, selection — is
exactly the input state, and the diagnostic of the catch block is
emitted. -/
theorem patch_failure_aborts_save
    (patchFn : String → List JSeg → JValue → Option String)
    (rebuildNodes : String → List GraphNode) (s : ModalState)
    (nd : GraphNode) (hsel : s.selectedNode = some nd)
    (hfail : patchFn s.jsonText (nd.path.getD [])
      (resolveValueToWrite s.jsonText (nd.path.getD [])
        (editParse s.editedText)) = none) :
    handleSave patchFn rebuildNodes s = (s, [.warnFailedApply]) := by
  unfold handleSave
  rw [hsel]
  simp only [hfail]

theorem patch_failure_aborts_save_witness :
    handleSave (fun _ _ _ => none) (fun _ => [])
      { opened := true, selectedNode := some (GraphNode.mk "n1" (some []) none),
        jsonText := "[1]", fileContents := "[1]", hasChanges := false,
        editing := true, editedText := "2", nodes := [] } =
      ({ opened := true, selectedNode := some (GraphNode.mk "n1" (some []) none),
         jsonText := "[1]", fileContents := "[1]", hasChanges := false,
         editing := true, editedText := "2", nodes := [] },
       [.warnFailedApply]) :=
  patch_failure_aborts_save _ _ _ (GraphNode.mk "n1" (some []) none) rfl rfl

/-- C7 counterexample: a single keyless row holding the string value
`"abc"` is rendered as the raw text `abc`, not as its JSON
serialization `"abc"`. -/
theorem single_row_not_json_serialized :
    normalizeNodeData (some [⟨none, JValue.str "abc", "string"⟩]) ≠
      jsonStringify (JValue.str "abc") := by
  have h1 : normalizeNodeData (some [⟨none, JValue.str "abc", "string"⟩]) = "abc" := by
    simp [normalizeNodeData, keyTruthy, jsTemplate]
  have h2 : jsonStringify (JValue.str "abc") = "\"abc\"" := rfl
  rw [h1, h2]
  decide

/-- C7 amended: a single keyless row is rendered by JavaScript string
coercion of its value (raw text, not JSON-quoted). -/
theorem single_row_renders_raw (v : JValue) (ty : String) :
    normalizeNodeData (some [⟨none, v, ty⟩]) = jsTemplate v := by
  simp [normalizeNodeData, keyTruthy]

/-! ### Well-formedness of JavaScript-representable values -/

/-- Decimal read-back of a digit list. -/
def decValue (l : List Char) : Nat :=
  l.foldl (fun a c => a * 10 + (c.toNat - '0'.toNat)) 0

/-- Distinctness of the keys of an ordered object, as a JavaScript
object guarantees. -/
def keysNodup : List (String × JValue) → Bool
  | [] => true
  | (k, _) :: rest => !(rest.any (fun kv => kv.1 = k)) && keysNodup rest

mutual

/-- A value representable as a JavaScript JSON value: number literals
follow the JSON number grammar and object keys are distinct. -/
def wfJ : JValue → Bool
  | .null => true
  | .bool _ => true
  | .num lit => validNumLit lit.data
  | .str _ => true
  | .arr es => wfL es
  | .obj fs => keysNodup fs && wfF fs

/-- Well-formedness of all elements of an array. -/
def wfL : List JValue → Bool
  | [] => true
  | e :: r => wfJ e && wfL r

/-- Well-formedness of all member values of an object. -/
def wfF : List (String × JValue) → Bool
  | [] => true
  | (_, v) :: r => wfJ v && wfF r

end

mutual

/-- Parser fuel sufficient to reparse the serialization of a value. -/
def serFuel : JValue → Nat
  | .null => 1
  | .bool _ => 1
  | .num _ => 1
  | .str _ => 1
  | .arr es => serFuelL es + 2
  | .obj fs => serFuelF fs + 2

/-- Fuel for an array element list. -/
def serFuelL : List JValue → Nat
  | [] => 1
  | e :: r => serFuel e + serFuelL r + 1

/-- Fuel for an object member list. -/
def serFuelF : List (String × JValue) → Nat
  | [] => 1
  | (_, v) :: r => serFuel v + serFuelF r + 1

end

/-- A suffix before which a serialized value re-parses exactly: empty,
or starting with a character that cannot extend a number token (numbers
are the only tokens without a terminating delimiter). -/
def boundaryOk : List Char → Bool
  | [] => true
  | c :: _ => !isNumChar c

/-! ### Modelled from the spec: the DocumentPatcher (external jsonc-parser
`modify`/`applyEdits`) as a span-splicing text edit -/

/-- Modelled from the spec: replace the value of an existing key in
place, leaving every other member unchanged. -/
def setKey : List (String × JValue) → String → JValue → List (String × JValue)
  | [], _, _ => []
  | (k0, v0) :: rest, k, v =>
    if k0 = k then (k0, v) :: rest else (k0, v0) :: setKey rest k v

/-- Modelled from the spec: the tree-level effect of replacing the value
at a path — string segments address object members, integer segments
address array elements. -/
def setAt : JValue → List JSeg → JValue → Option JValue
  | _, [], v => some v
  | .obj m, .str k :: p, v =>
    match objLookup m k with
    | none => none
    | some u =>
      match setAt u p v with
      | none => none
      | some u2 => some (.obj (setKey m k u2))
  | .arr xs, .num i :: p, v =>
    if 0 ≤ i then
      match xs.get? i.toNat with
      | none => none
      | some u =>
        match setAt u p v with
        | none => none
        | some u2 => some (.arr (xs.set i.toNat u2))
    else none
  | _, _, _ => none

/-- The span of `cs` before its suffix `rest`. -/
def chop (cs rest : List Char) : List Char := cs.take (cs.length - rest.length)

/-- Modelled from the spec: walk an array element list to the suffix at
which the `i`-th element starts. -/
def descendE (F : Nat) : Nat → List Char → Nat → Option (List Char)
  | 0, _, _ => none
  | f + 1, cs, i =>
    match parseVal F cs with
    | none => none
    | some (_, r) =>
      if i = 0 then some cs
      else
        match skipWs r with
        | [] => none
        | c1 :: r2 => if c1 = ',' then descendE F f (skipWs r2) (i - 1) else none

/-- Modelled from the spec: walk an object member list to the suffix at
which the value of the last member named `k` starts (the parse resolves
duplicate keys by assignment, so the last occurrence holds the value the
path denotes). -/
def descendF (F : Nat) : Nat → List Char → String → Option (List Char)
  | 0, _, _ => none
  | f + 1, cs, k =>
    match cs with
    | [] => none
    | c0 :: cs1 =>
      if c0 = '"' then
        match parseStrBody (cs1.length + 1) cs1 with
        | none => none
        | some (ks, r) =>
          match skipWs r with
          | [] => none
          | c1 :: r2 =>
            if c1 = ':' then
              match parseVal F (skipWs r2) with
              | none => none
              | some (_, r3) =>
                match skipWs r3 with
                | [] => none
                | c2 :: r4 =>
                  if c2 = ',' then
                    match descendF F f (skipWs r4) k with
                    | some sub => some sub
                    | none =>
                      if String.mk ks = k then some (skipWs r2) else none
                  else if c2 = '}' then
                    if String.mk ks = k then some (skipWs r2) else none
                  else none
            else none
      else none

/-- Modelled from the spec: locate the suffix of the document at which
the value addressed by the path starts (the patched region runs from
there to the end of that value's span). -/
def descendVal (F : Nat) : List Char → List JSeg → Option (List Char)
  | cs, [] => if (parseVal F cs).isSome then some cs else none
  | cs, seg :: p =>
    match cs with
    | [] => none
    | c :: cs0 =>
      if c = '[' then
        match seg with
        | .num i =>
          if 0 ≤ i then
            match skipWs cs0 with
            | [] => none
            | c1 :: cs1 =>
              if c1 = ']' then none
              else
                match descendE F F (c1 :: cs1) i.toNat with
                | none => none
                | some sub0 => descendVal F sub0 p
          else none
        | .str _ => none
      else if c = '{' then
        match seg with
        | .str k =>
          match skipWs cs0 with
          | [] => none
          | c1 :: cs1 =>
            if c1 = '}' then none
            else
              match descendF F F (c1 :: cs1) k with
              | none => none
              | some sub0 => descendVal F sub0 p
        | .num _ => none
      else none

/-- Modelled from the spec: the whole patch — parse the document, locate
the span of the value at the path, and splice the serialized new value
over exactly that span, leaving every other byte unchanged. -/
def jsoncPatch (doc : String) (path : List JSeg) (v : JValue) : Option String :=
  match parseJson doc with
  | none => none
  | some _ =>
    match descendVal (2 * doc.data.length + 2) (skipWs doc.data) path with
    | none => none
    | some sub =>
      match parseVal (2 * doc.data.length + 2) sub with
      | none => none
      | some (_, post) =>
        some (String.mk (chop doc.data sub ++ serialize v ++ post))

/-- The inductive invariant of the substitution proof: at a given path,
a successful descent splits the input into a prefix, the located span
and a suffix, and splicing a serialized well-formed value over the span
re-parses to the updated tree. -/
def SubstGood (V : JValue) (P : List JSeg) : Prop :=
  ∀ F f cs t rest sub,
    2 * cs.length ≤ F →
    parseVal f cs = some (t, rest) →
    boundaryOk rest = true →
    descendVal F cs P = some sub →
    ∃ preA postD u t2,
      cs = preA ++ sub ∧
      (∃ mid, sub = mid ++ postD) ∧
      (∃ midp, postD = midp ++ rest) ∧
      (∃ fu, parseVal fu sub = some (u, postD)) ∧
      getAtPath t P = some u ∧
      setAt t P V = some t2 ∧
      ∀ g, 2 * (preA.length + (serialize V).length +
          (postD.length - rest.length)) ≤ g →
        parseVal g (preA ++ (serialize V ++ postD)) = some (t2, rest)

/-! ### Association-list lemmas for the object operations -/

theorem objLookup_objInsert_self (l : List (String × JValue)) (k : String)
    (v : JValue) : objLookup (objInsert l k v) k = some v := by
  induction l with
  | nil => simp [objInsert, objLookup]
  | cons hd tl ih =>
    obtain ⟨k0, v0⟩ := hd
    by_cases hk : k0 = k
    · subst hk
      simp [objInsert, objLookup]
    · simp [objInsert, objLookup, hk, ih]

theorem objLookup_objInsert_other (l : List (String × JValue)) (k k1 : String)
    (v : JValue) (h : k1 ≠ k) :
    objLookup (objInsert l k v) k1 = objLookup l k1 := by
  have hk1 : ¬(k = k1) := fun hh => h hh.symm
  induction l with
  | nil => simp [objInsert, objLookup, hk1]
  | cons hd tl ih =>
    obtain ⟨k0, v0⟩ := hd
    by_cases hk : k0 = k
    · subst hk
      have : ¬(k0 = k1) := hk1
      simp [objInsert, objLookup, this]
    · simp only [objInsert, if_neg hk]
      by_cases h01 : k0 = k1
      · simp [objLookup, h01]
      · simp [objLookup, h01, ih]

theorem objLookup_objInsert_source {l : List (String × JValue)}
    {k k1 : String} {v : JValue}
    (h : objLookup (objInsert l k v) k1 ≠ none) :
    objLookup l k1 ≠ none ∨ k1 = k := by
  by_cases hk : k1 = k
  · exact Or.inr hk
  · rw [objLookup_objInsert_other l k k1 v hk] at h
    exact Or.inl h

theorem objLookup_eq_none_of_not_mem {l : List (String × JValue)} {k : String}
    (h : ∀ v, (k, v) ∉ l) : objLookup l k = none := by
  induction l with
  | nil => rfl
  | cons hd tl ih =>
    obtain ⟨k0, v0⟩ := hd
    have hne : ¬(k0 = k) := by
      intro hh
      exact h v0 (by simp [hh])
    simp only [objLookup, if_neg hne]
    exact ih fun v hv => h v (List.mem_cons_of_mem _ hv)

theorem objLookup_keys_nodup_none {l : List (String × JValue)} {k : String}
    (h : k ∉ l.map Prod.fst) :
    objLookup l k = none := by
  apply objLookup_eq_none_of_not_mem
  intro v hv
  exact h (List.mem_map_of_mem Prod.fst hv)

theorem mergeSpread_lookup_none (c : List (String × JValue)) (k : String)
    (h : objLookup c k = none) (e : List (String × JValue)) :
    objLookup (mergeSpread e c) k = objLookup e k := by
  induction c generalizing e with
  | nil => rfl
  | cons hd tl ih =>
    obtain ⟨k0, v0⟩ := hd
    have hk : ¬(k0 = k) := by
      intro hh
      simp [objLookup, hh] at h
    have htl : objLookup tl k = none := by
      simpa [objLookup, hk] using h
    have step := ih htl (objInsert e k0 v0)
    calc objLookup (mergeSpread e ((k0, v0) :: tl)) k
        = objLookup (mergeSpread (objInsert e k0 v0) tl) k := rfl
      _ = objLookup (objInsert e k0 v0) k := step
      _ = objLookup e k := objLookup_objInsert_other e k0 k v0 (fun hh => hk hh.symm)

theorem mergeSpread_lookup_some (c : List (String × JValue)) (k : String)
    (v : JValue) (hnd : (c.map Prod.fst).Nodup) (h : objLookup c k = some v)
    (e : List (String × JValue)) :
    objLookup (mergeSpread e c) k = some v := by
  induction c generalizing e with
  | nil => simp [objLookup] at h
  | cons hd tl ih =>
    obtain ⟨k0, v0⟩ := hd
    simp only [List.map_cons, List.nodup_cons] at hnd
    by_cases hk : k0 = k
    · subst hk
      have hv : v0 = v := by simpa [objLookup] using h
      subst hv
      have htl : objLookup tl k0 = none :=
        objLookup_keys_nodup_none hnd.1
      calc objLookup (mergeSpread e ((k0, v0) :: tl)) k0
          = objLookup (mergeSpread (objInsert e k0 v0) tl) k0 := rfl
        _ = objLookup (objInsert e k0 v0) k0 :=
            mergeSpread_lookup_none tl k0 htl (objInsert e k0 v0)
        _ = some v0 := objLookup_objInsert_self e k0 v0
    · have htl : objLookup tl k = some v := by
        simpa [objLookup, hk] using h
      exact ih hnd.2 htl (objInsert e k0 v0)

theorem buildRowObj_key_source_aux (rows : List NodeRow)
    (acc : List (String × JValue)) (k : String)
    (h : objLookup
      (rows.foldl
        (fun acc row =>
          if row.type != "array" && row.type != "object" then
            match row.key with
            | some k => if k = "" then acc else objInsert acc k row.value
            | none => acc
          else acc)
        acc) k ≠ none) :
    objLookup acc k ≠ none ∨
      ∃ r ∈ rows, r.key = some k ∧ r.type ≠ "array" ∧ r.type ≠ "object" := by
  induction rows generalizing acc with
  | nil => exact Or.inl h
  | cons r tl ih =>
    simp only [List.foldl_cons] at h
    rcases ih _ h with hstep | ⟨r1, hr1, hk1, ht1⟩
    · by_cases hty : (r.type != "array" && r.type != "object") = true
      · simp only [hty, if_pos] at hstep
        match hkey : r.key with
        | none =>
          rw [hkey] at hstep
          exact Or.inl hstep
        | some k2 =>
          rw [hkey] at hstep
          have hstep2 : objLookup
              (if k2 = "" then acc else objInsert acc k2 r.value) k ≠ none :=
            hstep
          by_cases hk2 : k2 = ""
          · rw [if_pos hk2] at hstep2
            exact Or.inl hstep2
          · rw [if_neg hk2] at hstep2
            rcases objLookup_objInsert_source hstep2 with hacc | hkk
            · exact Or.inl hacc
            · refine Or.inr ⟨r, List.mem_cons_self r tl, ?_, ?_, ?_⟩
              · rw [hkey, hkk]
              · intro hcon
                simp [hcon] at hty
              · intro hcon
                simp [hcon] at hty
      · simp only [if_neg hty] at hstep
        exact Or.inl hstep
    · exact Or.inr ⟨r1, List.mem_cons_of_mem r hr1, hk1, ht1⟩

/-- C6: `normalizeNodeData` is a pure function whose rules apply first
match first: an absent or empty row list yields `{}`; a multi-row list
is rendered as the 2-space pretty-printed serialization of the
key-to-value object accumulated by `buildRowObj`; and every key present
in that object comes from a row that has that key and whose type is
neither `array` nor `object`. -/
theorem normalize_skips_structured_rows :
    normalizeNodeData none = "\x7b\x7d" ∧
    normalizeNodeData (some []) = "\x7b\x7d" ∧
    (∀ rows : List NodeRow, 2 ≤ rows.length →
      normalizeNodeData (some rows) = jsonStringify2 (.obj (buildRowObj rows))) ∧
    (∀ rows : List NodeRow, ∀ k : String,
      objLookup (buildRowObj rows) k ≠ none →
      ∃ r ∈ rows, r.key = some k ∧ r.type ≠ "array" ∧ r.type ≠ "object") := by
  refine ⟨rfl, rfl, ?_, ?_⟩
  · intro rows h
    match rows with
    | [] => simp at h
    | [r] => simp at h
    | r1 :: r2 :: tl => rfl
  · intro rows k h
    rcases buildRowObj_key_source_aux rows [] k h with hnil | hsrc
    · exact absurd rfl hnil
    · exact hsrc

theorem normalize_skips_structured_rows_witness :
    2 ≤ ([⟨some "a", JValue.num "1", "number"⟩,
          ⟨some "b", JValue.arr [], "array"⟩] : List NodeRow).length ∧
    normalizeNodeData (some [⟨some "a", JValue.num "1", "number"⟩,
          ⟨some "b", JValue.arr [], "array"⟩]) =
      jsonStringify2 (.obj (buildRowObj
        [⟨some "a", JValue.num "1", "number"⟩,
         ⟨some "b", JValue.arr [], "array"⟩])) :=
  ⟨by decide,
   normalize_skips_structured_rows.2.2.1 _ (by decide)⟩

/-- C5: the merge resolver never raises (it is a total function) and in
every case other than object-into-object — the document fails to parse,
the path resolves to nothing, the existing value is not a non-array
non-null object, or the candidate is not one — the candidate is
returned verbatim. -/
theorem merge_resolver_defaults_to_candidate (D : String) (P : List JSeg)
    (cand : JValue) :
    (parseJson D = none → resolveValueToWrite D P cand = cand) ∧
    (∀ t, parseJson D = some t → getAtPath t P = none →
      resolveValueToWrite D P cand = cand) ∧
    (∀ t v, parseJson D = some t → getAtPath t P = some v →
      isObjectJS v = false → resolveValueToWrite D P cand = cand) ∧
    (isObjectJS cand = false → resolveValueToWrite D P cand = cand) := by
  refine ⟨?_, ?_, ?_, ?_⟩
  · intro h
    simp [resolveValueToWrite, h]
  · intro t h1 h2
    simp [resolveValueToWrite, h1, h2]
  · intro t v h1 h2 h3
    cases v <;> simp_all [resolveValueToWrite, isObjectJS]
  · intro h4
    unfold resolveValueToWrite
    cases h1 : parseJson D with
    | none => rfl
    | some t =>
      cases h2 : getAtPath t P with
      | none => cases cand <;> simp [h2]
      | some v => cases v <;> cases cand <;> simp_all [isObjectJS, h2]

theorem merge_resolver_defaults_to_candidate_witness :
    resolveValueToWrite "[1,2,3]" [] (.obj [("x", JValue.num "1")]) =
      .obj [("x", JValue.num "1")] :=
  (merge_resolver_defaults_to_candidate "[1,2,3]" []
      (.obj [("x", JValue.num "1")])).2.2.1
    (.arr [.num "1", .num "2", .num "3"])
    (.arr [.num "1", .num "2", .num "3"]) rfl rfl rfl

/-- C1: when the strict parse of the document succeeds and yields a
non-array non-null object at the path, and the candidate is such an
object too (with the distinct keys a JavaScript object has), the merge
resolver produces the shallow merge: every key of the candidate maps to
its candidate value, and every other key of the existing object keeps
its existing value. -/
theorem merge_resolver_shallow_merge (D : String) (P : List JSeg) (t : JValue)
    (e c : List (String × JValue)) (hD : parseJson D = some t)
    (hP : getAtPath t P = some (.obj e)) (hnd : (c.map Prod.fst).Nodup) :
    resolveValueToWrite D P (.obj c) = .obj (mergeSpread e c) ∧
    (∀ k v, objLookup c k = some v →
      objLookup (mergeSpread e c) k = some v) ∧
    (∀ k, objLookup c k = none →
      objLookup (mergeSpread e c) k = objLookup e k) := by
  refine ⟨?_, ?_, ?_⟩
  · simp [resolveValueToWrite, hD, hP]
  · intro k v h
    exact mergeSpread_lookup_some c k v hnd h e
  · intro k h
    exact mergeSpread_lookup_none c k h e

theorem merge_resolver_shallow_merge_witness :
    resolveValueToWrite "\x7b\"a\":1,\"b\":2\x7d" []
        (.obj [("b", JValue.num "3"), ("c", JValue.num "4")]) =
      .obj [("a", JValue.num "1"), ("b", JValue.num "3"),
            ("c", JValue.num "4")] :=
  (merge_resolver_shallow_merge "\x7b\"a\":1,\"b\":2\x7d" []
      (.obj [("a", JValue.num "1"), ("b", JValue.num "2")])
      [("a", JValue.num "1"), ("b", JValue.num "2")]
      [("b", JValue.num "3"), ("c", JValue.num "4")]
      rfl rfl (by decide)).1

/-- C4: the edit parser is a total Lean function (it never fails); its
result is the strict parse whenever that parse succeeds, and otherwise
it is the classification of the trimmed text in the order of the
fallback chain: integer/decimal literal, `true`/`false`, `null`, and
finally the trimmed text itself as a string. -/
theorem edit_parser_total_and_classifies :
    editParse "42" = JValue.num "42" ∧
    editParse "true" = JValue.bool true ∧
    editParse "null" = JValue.null ∧
    editParse "abc" = JValue.str "abc" ∧
    (∀ s v, parseJson s = some v → editParse s = v) ∧
    (∀ s, parseJson s = none →
      editParse s =
        (if isIntDecLit (jsTrim s).data then JValue.num (canonNum (jsTrim s).data)
         else if jsTrim s = "true" || jsTrim s = "false" then
           JValue.bool (jsTrim s = "true")
         else if jsTrim s = "null" then JValue.null
         else JValue.str (jsTrim s))) := by
  refine ⟨rfl, rfl, rfl, rfl, ?_, ?_⟩
  · intro s v h
    simp [editParse, h]
  · intro s h
    simp [editParse, h]

theorem edit_parser_total_and_classifies_witness :
    editParse "[false]" = JValue.arr [JValue.bool false] :=
  edit_parser_total_and_classifies.2.2.2.2.1 "[false]"
    (JValue.arr [JValue.bool false]) rfl

/-! ### Decimal rendering lemmas -/

theorem decDigit_val (n : Nat) (h : n < 10) :
    (decDigit n).toNat - '0'.toNat = n := by
  interval_cases n <;> decide

theorem isDigitChar_decDigit (n : Nat) (h : n < 10) :
    isDigitChar (decDigit n) = true := by
  interval_cases n <;> decide

theorem natDecAux_irrel (n : Nat) : ∀ f1 f2, n < f1 → n < f2 →
    natDecAux f1 n = natDecAux f2 n := by
  induction n using Nat.strong_induction_on with
  | _ n ih =>
    intro f1 f2 h1 h2
    match f1, f2 with
    | g1 + 1, g2 + 1 =>
      simp only [natDecAux]
      by_cases h10 : n < 10
      · simp [h10]
      · simp only [if_neg h10]
        rw [ih (n / 10) (by omega) g1 g2 (by omega) (by omega)]

theorem natToDec_readback (n : Nat) : decValue (natToDec n) = n := by
  induction n using Nat.strong_induction_on with
  | _ n ih =>
    unfold natToDec
    simp only [natDecAux]
    by_cases h10 : n < 10
    · simp only [if_pos h10]
      have hv : (decDigit n).toNat - 48 = n := decDigit_val n h10
      simp [decValue]
      omega
    · simp only [if_neg h10]
      rw [natDecAux_irrel (n / 10) n (n / 10 + 1) (by omega) (by omega)]
      unfold decValue
      rw [List.foldl_append]
      have hrw := ih (n / 10) (by omega)
      unfold natToDec decValue at hrw
      rw [hrw]
      have hv2 : (decDigit (n % 10)).toNat - 48 = n % 10 :=
        decDigit_val (n % 10) (Nat.mod_lt n (by omega))
      simp [List.foldl]
      omega

theorem natToDec_inj {a b : Nat} (h : natToDec a = natToDec b) : a = b := by
  have ha := natToDec_readback a
  rw [h, natToDec_readback b] at ha
  omega

theorem natToDec_digits (n : Nat) : ∀ c ∈ natToDec n, isDigitChar c = true := by
  induction n using Nat.strong_induction_on with
  | _ n ih =>
    unfold natToDec
    simp only [natDecAux]
    by_cases h10 : n < 10
    · simp only [if_pos h10]
      intro c hc
      rw [List.mem_singleton] at hc
      subst hc
      exact isDigitChar_decDigit n h10
    · simp only [if_neg h10]
      rw [natDecAux_irrel (n / 10) n (n / 10 + 1) (by omega) (by omega)]
      intro c hc
      rcases List.mem_append.mp hc with hl | hr
      · exact ih (n / 10) (by omega) c hl
      · rw [List.mem_singleton] at hr
        subst hr
        exact isDigitChar_decDigit (n % 10) (Nat.mod_lt n (by omega))

theorem natToDec_head (n : Nat) (h : n ≠ 0) :
    ∃ c r, natToDec n = c :: r ∧ ('1' ≤ c && c ≤ '9') = true := by
  induction n using Nat.strong_induction_on with
  | _ n ih =>
    unfold natToDec
    simp only [natDecAux]
    by_cases h10 : n < 10
    · simp only [if_pos h10]
      refine ⟨decDigit n, [], rfl, ?_⟩
      interval_cases n <;> simp_all <;> decide
    · simp only [if_neg h10]
      rw [natDecAux_irrel (n / 10) n (n / 10 + 1) (by omega) (by omega)]
      obtain ⟨c, r, hcr, hc⟩ := ih (n / 10) (by omega) (by omega)
      unfold natToDec at hcr
      rw [hcr]
      exact ⟨c, r ++ [decDigit (n % 10)], rfl, hc⟩

theorem isNumChar_of_digit {c : Char} (h : isDigitChar c = true) :
    isNumChar c = true := by
  simp [isNumChar, h]

theorem validExp_chars {cs : List Char} (h : validExp cs = true) :
    ∀ c ∈ cs, isNumChar c = true := by
  match cs with
  | [] => intro c hc; simp at hc
  | c :: r =>
    simp only [validExp] at h
    by_cases he : (c = 'e' || c = 'E') = true
    · rw [if_pos he] at h
      intro x hx
      rcases List.mem_cons.mp hx with hx | hx
      · subst hx
        rcases Bool.or_eq_true_iff.mp he with h1 | h1 <;>
          simp only [decide_eq_true_eq] at h1 <;> subst h1 <;> decide
      · match r with
        | [] => simp at h
        | c2 :: r2 =>
          have h : (if c2 = '+' || c2 = '-' then !r2.isEmpty && r2.all isDigitChar
              else (c2 :: r2).all isDigitChar) = true := h
          by_cases hs : (c2 = '+' || c2 = '-') = true
          · rw [if_pos hs] at h
            rcases List.mem_cons.mp hx with hx2 | hx2
            · subst hx2
              rcases Bool.or_eq_true_iff.mp hs with h1 | h1 <;>
                simp only [decide_eq_true_eq] at h1 <;> subst h1 <;> decide
            · exact isNumChar_of_digit
                ((List.all_eq_true.mp (Bool.and_elim_right h)) x hx2)
          · rw [if_neg hs] at h
            exact isNumChar_of_digit ((List.all_eq_true.mp h) x hx)
    · rw [if_neg he] at h
      exact absurd h (by simp)

theorem validFracExp_chars {cs : List Char} (h : validFracExp cs = true) :
    ∀ c ∈ cs, isNumChar c = true := by
  match cs with
  | [] => intro c hc; simp at hc
  | c :: r =>
    simp only [validFracExp] at h
    by_cases hd : c = '.'
    · rw [if_pos hd] at h
      intro x hx
      rcases List.mem_cons.mp hx with hx | hx
      · subst hx; subst hd; decide
      · rw [← List.takeWhile_append_dropWhile (p := isDigitChar) (l := r)] at hx
        rcases List.mem_append.mp hx with hx2 | hx2
        · exact isNumChar_of_digit (List.mem_takeWhile_imp hx2)
        · exact validExp_chars (Bool.and_elim_right h) x hx2
    · rw [if_neg hd] at h
      exact validExp_chars h

theorem validNumBody_chars {cs : List Char} (h : validNumBody cs = true) :
    ∀ c ∈ cs, isNumChar c = true := by
  match cs with
  | [] => intro c hc; simp at hc
  | c :: r =>
    simp only [validNumBody] at h
    by_cases h0 : c = '0'
    · rw [if_pos h0] at h
      intro x hx
      rcases List.mem_cons.mp hx with hx | hx
      · subst hx; subst h0; decide
      · exact validFracExp_chars h x hx
    · rw [if_neg h0] at h
      intro x hx
      rcases List.mem_cons.mp hx with hx | hx
      · subst hx
        have h1 := Bool.and_elim_left h
        apply isNumChar_of_digit
        simp only [isDigitChar]
        have h19 : ('1' ≤ x && x ≤ '9') = true := h1
        simp only [Bool.and_eq_true, decide_eq_true_eq] at h19 ⊢
        exact ⟨le_trans (by decide) h19.1, h19.2⟩
      · rw [← List.takeWhile_append_dropWhile (p := isDigitChar) (l := r)] at hx
        rcases List.mem_append.mp hx with hx2 | hx2
        · exact isNumChar_of_digit (List.mem_takeWhile_imp hx2)
        · exact validFracExp_chars (Bool.and_elim_right h) x hx2

theorem validNumLit_chars {cs : List Char} (h : validNumLit cs = true) :
    ∀ c ∈ cs, isNumChar c = true := by
  match cs with
  | [] => intro c hc; simp at hc
  | c :: r =>
    simp only [validNumLit] at h
    by_cases hm : c = '-'
    · rw [if_pos hm] at h
      intro x hx
      rcases List.mem_cons.mp hx with hx | hx
      · subst hx; subst hm; decide
      · exact validNumBody_chars h x hx
    · rw [if_neg hm] at h
      exact validNumBody_chars h

theorem validNumBody_natToDec (n : Nat) : validNumBody (natToDec n) = true := by
  by_cases h0 : n = 0
  · subst h0; decide
  · obtain ⟨c, r, hcr, hc⟩ := natToDec_head n h0
    rw [hcr]
    simp only [validNumBody]
    have hcne : ¬(c = '0') := by
      intro hh
      subst hh
      simp at hc
    rw [if_neg hcne]
    have hdig : r.dropWhile isDigitChar = [] := by
      rw [List.dropWhile_eq_nil_iff]
      intro x hx
      exact natToDec_digits n x (by rw [hcr]; exact List.mem_cons_of_mem _ hx)
    rw [hdig]
    simp [hc, validFracExp]

theorem validNumLit_natToDec (n : Nat) : validNumLit (natToDec n) = true := by
  by_cases h0 : n = 0
  · subst h0; decide
  · obtain ⟨c, r, hcr, hc⟩ := natToDec_head n h0
    rw [hcr]
    simp only [validNumLit]
    have hcne : ¬(c = '-') := by
      intro hh
      subst hh
      simp at hc
    rw [if_neg hcne, ← hcr]
    exact validNumBody_natToDec n

theorem validNumLit_intToDec (n : Int) : validNumLit (intToDec n) = true := by
  cases n with
  | ofNat m => exact validNumLit_natToDec m
  | negSucc m =>
    simp only [intToDec, validNumLit, if_pos]
    exact validNumBody_natToDec (m + 1)

/-! ### String escape round-trip -/

theorem hexVal_hexDigitChar (m : Nat) (h : m < 16) :
    hexVal (hexDigitChar m) = some m := by
  interval_cases m <;> decide

theorem parseStrBody_ctrl (c : Char) (hc : c.toNat < 0x20) (fuel : Nat)
    (tail : List Char) :
    parseStrBody (fuel + 1) ('\\' :: 'u' :: '0' :: '0' ::
        hexDigitChar (c.toNat / 16) :: hexDigitChar (c.toNat % 16) :: tail) =
      (parseStrBody fuel tail).map (fun p => (c :: p.1, p.2)) := by
  have hp4 : parseHex4 '0' '0' (hexDigitChar (c.toNat / 16))
      (hexDigitChar (c.toNat % 16)) = some c.toNat := by
    have hex1 : hexVal (hexDigitChar (c.toNat / 16)) = some (c.toNat / 16) :=
      hexVal_hexDigitChar _ (by omega)
    have hex2 : hexVal (hexDigitChar (c.toNat % 16)) = some (c.toNat % 16) :=
      hexVal_hexDigitChar _ (by omega)
    have h0 : hexVal '0' = some 0 := by decide
    simp only [parseHex4, hex1, hex2, h0]
    have harith : ((0 * 16 + 0) * 16 + c.toNat / 16) * 16 + c.toNat % 16 =
        c.toNat := by omega
    rw [harith]
  have hcond : (decide (c.toNat < 0xD800) || decide (0xE000 ≤ c.toNat)) =
      true := by
    simp only [Bool.or_eq_true, decide_eq_true_eq]
    left
    omega
  simp only [parseStrBody, parseStrEsc, parseStrU]
  simp [hp4, hcond, Char.ofNat_toNat]

theorem parseStrBody_escape (content : List Char) : ∀ fuel rest,
    ((content.map escapeChar).flatten).length + 1 ≤ fuel →
    parseStrBody fuel ((content.map escapeChar).flatten ++ '"' :: rest) =
      some (content, rest) := by
  induction content with
  | nil =>
    intro fuel rest hfuel
    match fuel, hfuel with
    | f + 1, _ => rfl
  | cons c cs ih =>
    intro fuel rest hfuel
    simp only [List.map_cons, List.flatten_cons, List.length_append] at hfuel ⊢
    by_cases h1 : c = '"'
    · subst h1
      rw [show escapeChar '"' = ['\\', '"'] by decide] at hfuel ⊢
      match fuel, hfuel with
      | f + 1, hfuel =>
        show (parseStrBody f _).map _ = _
        simp only [List.append_eq, List.nil_append]
        rw [ih f rest (by simp at hfuel ⊢; omega)]
        rfl
    · by_cases h2 : c = '\\'
      · subst h2
        rw [show escapeChar '\\' = ['\\', '\\'] by decide] at hfuel ⊢
        match fuel, hfuel with
        | f + 1, hfuel =>
          show (parseStrBody f _).map _ = _
          simp only [List.append_eq, List.nil_append]
          rw [ih f rest (by simp at hfuel ⊢; omega)]
          rfl
      · by_cases h3 : c = '\x08'
        · subst h3
          rw [show escapeChar '\x08' = ['\\', 'b'] by decide] at hfuel ⊢
          match fuel, hfuel with
          | f + 1, hfuel =>
            show (parseStrBody f _).map _ = _
            simp only [List.append_eq, List.nil_append]
            rw [ih f rest (by simp at hfuel ⊢; omega)]
            rfl
        · by_cases h4 : c = '\x0c'
          · subst h4
            rw [show escapeChar '\x0c' = ['\\', 'f'] by decide] at hfuel ⊢
            match fuel, hfuel with
            | f + 1, hfuel =>
              show (parseStrBody f _).map _ = _
              simp only [List.append_eq, List.nil_append]
              rw [ih f rest (by simp at hfuel ⊢; omega)]
              rfl
          · by_cases h5 : c = '\n'
            · subst h5
              rw [show escapeChar '\n' = ['\\', 'n'] by decide] at hfuel ⊢
              match fuel, hfuel with
              | f + 1, hfuel =>
                show (parseStrBody f _).map _ = _
                simp only [List.append_eq, List.nil_append]
                rw [ih f rest (by simp at hfuel ⊢; omega)]
                rfl
            · by_cases h6 : c = '\r'
              · subst h6
                rw [show escapeChar '\r' = ['\\', 'r'] by decide] at hfuel ⊢
                match fuel, hfuel with
                | f + 1, hfuel =>
                  show (parseStrBody f _).map _ = _
                  simp only [List.append_eq, List.nil_append]
                  rw [ih f rest (by simp at hfuel ⊢; omega)]
                  rfl
              · by_cases h7 : c = '\t'
                · subst h7
                  rw [show escapeChar '\t' = ['\\', 't'] by decide] at hfuel ⊢
                  match fuel, hfuel with
                  | f + 1, hfuel =>
                    show (parseStrBody f _).map _ = _
                    simp only [List.append_eq, List.nil_append]
                    rw [ih f rest (by simp at hfuel ⊢; omega)]
                    rfl
                · by_cases h8 : c.toNat < 0x20
                  · have hesc : escapeChar c =
                        ['\\', 'u', '0', '0', hexDigitChar (c.toNat / 16),
                         hexDigitChar (c.toNat % 16)] := by
                      rw [escapeChar, if_neg h1, if_neg h2, if_neg h3,
                        if_neg h4, if_neg h5, if_neg h6, if_neg h7, if_pos h8]
                    rw [hesc] at hfuel ⊢
                    match fuel, hfuel with
                    | f + 1, hfuel =>
                      simp only [List.cons_append, List.nil_append]
                      rw [parseStrBody_ctrl c h8 f]
                      rw [ih f rest (by simp at hfuel ⊢; omega)]
                      rfl
                  · have hesc : escapeChar c = [c] := by
                      rw [escapeChar, if_neg h1, if_neg h2, if_neg h3,
                        if_neg h4, if_neg h5, if_neg h6, if_neg h7, if_neg h8]
                    rw [hesc] at hfuel ⊢
                    match fuel, hfuel with
                    | f + 1, hfuel =>
                      simp only [List.cons_append, List.nil_append]
                      simp only [parseStrBody]
                      rw [if_neg h1, if_neg h2, if_neg h8]
                      rw [ih f rest (by simp at hfuel ⊢; omega)]
                      rfl

/-! ### Serialization re-parses to the same value -/

theorem skipWs_cons_not_ws {c : Char} (h : isWsChar c = false) (r : List Char) :
    skipWs (c :: r) = c :: r := by
  simp [skipWs, List.dropWhile_cons, h]

theorem digit_toNat_bounds {c : Char} (h : isDigitChar c = true) :
    48 ≤ c.toNat ∧ c.toNat ≤ 57 := by
  simp only [isDigitChar, Bool.and_eq_true, decide_eq_true_eq] at h
  obtain ⟨h1, h2⟩ := h
  rw [Char.le_def] at h1 h2
  exact ⟨h1, h2⟩

theorem char_ne_of_toNat_ne {a b : Char} (h : a.toNat ≠ b.toNat) : a ≠ b :=
  fun hh => h (congrArg Char.toNat hh)

theorem validNumLit_head {c : Char} {r : List Char}
    (h : validNumLit (c :: r) = true) : c = '-' ∨ isDigitChar c = true := by
  simp only [validNumLit] at h
  by_cases hm : c = '-'
  · exact Or.inl hm
  · rw [if_neg hm] at h
    simp only [validNumBody] at h
    by_cases h0 : c = '0'
    · subst h0
      exact Or.inr (by decide)
    · rw [if_neg h0] at h
      have h19 := Bool.and_elim_left h
      simp only [Bool.and_eq_true, decide_eq_true_eq] at h19
      right
      simp only [isDigitChar, Bool.and_eq_true, decide_eq_true_eq]
      exact ⟨le_trans (by decide) h19.1, h19.2⟩

theorem numStart_facts {c : Char} (h : c = '-' ∨ isDigitChar c = true) :
    isWsChar c = false ∧ ¬c = ']' ∧ ¬c = 'n' ∧ ¬c = 't' ∧ ¬c = 'f' ∧
    ¬c = '"' ∧ ¬c = '[' ∧ ¬c = '{' ∧ (isDigitChar c || c = '-') = true := by
  rcases h with h | h
  · subst h
    refine ⟨by decide, by decide, by decide, by decide, by decide, by decide,
      by decide, by decide, by decide⟩
  · obtain ⟨h1, h2⟩ := digit_toNat_bounds h
    refine ⟨?_, ?_, ?_, ?_, ?_, ?_, ?_, ?_, by simp [h]⟩
    · have hsp : ¬c = ' ' := by
        apply char_ne_of_toNat_ne
        intro hc
        rw [hc] at h1 h2
        simp_all
      have hta : ¬c = '\t' := by
        apply char_ne_of_toNat_ne
        intro hc
        rw [hc] at h1 h2
        simp_all
      have hnl : ¬c = '\n' := by
        apply char_ne_of_toNat_ne
        intro hc
        rw [hc] at h1 h2
        simp_all
      have hcr : ¬c = '\x0d' := by
        apply char_ne_of_toNat_ne
        intro hc
        rw [hc] at h1 h2
        simp_all
      simp [isWsChar, hsp, hta, hnl, hcr]
    · apply char_ne_of_toNat_ne
      intro hc
      rw [hc] at h1 h2
      simp_all
    · apply char_ne_of_toNat_ne
      intro hc
      rw [hc] at h1 h2
      simp_all
    · apply char_ne_of_toNat_ne
      intro hc
      rw [hc] at h1 h2
      simp_all
    · apply char_ne_of_toNat_ne
      intro hc
      rw [hc] at h1 h2
      simp_all
    · apply char_ne_of_toNat_ne
      intro hc
      rw [hc] at h1 h2
      simp_all
    · apply char_ne_of_toNat_ne
      intro hc
      rw [hc] at h1 h2
      simp_all
    · apply char_ne_of_toNat_ne
      intro hc
      rw [hc] at h1 h2
      simp_all

theorem takeWhile_append_all {p : Char → Bool} {l rest : List Char}
    (hall : ∀ c ∈ l, p c = true) (hb : boundaryOk rest = true)
    (hnum : p = isNumChar) :
    (l ++ rest).takeWhile p = l ∧ (l ++ rest).dropWhile p = rest := by
  subst hnum
  induction l with
  | nil =>
    simp only [List.nil_append]
    match rest with
    | [] => exact ⟨rfl, rfl⟩
    | c :: r =>
      simp only [boundaryOk, Bool.not_eq_true'] at hb
      simp [List.takeWhile_cons, List.dropWhile_cons, hb]
  | cons c l ih =>
    have hc : isNumChar c = true := hall c (List.mem_cons_self c l)
    have ihr := ih (fun x hx => hall x (List.mem_cons_of_mem c hx))
    simp [List.takeWhile_cons, List.dropWhile_cons, hc, ihr.1, ihr.2]

theorem objLookup_append (l1 l2 : List (String × JValue)) (k : String) :
    objLookup (l1 ++ l2) k =
      (match objLookup l1 k with
       | some v => some v
       | none => objLookup l2 k) := by
  induction l1 with
  | nil => rfl
  | cons hd tl ih =>
    obtain ⟨k0, v0⟩ := hd
    by_cases hk : k0 = k
    · simp [objLookup, hk]
    · simp [objLookup, hk, ih]

theorem objInsert_append_not_mem {acc : List (String × JValue)} {k : String}
    (v : JValue) (h : objLookup acc k = none) :
    objInsert acc k v = acc ++ [(k, v)] := by
  induction acc with
  | nil => rfl
  | cons hd tl ih =>
    obtain ⟨k0, v0⟩ := hd
    simp only [objLookup] at h
    by_cases hk : k0 = k
    · simp [hk] at h
    · simp only [objInsert, if_neg hk, List.cons_append, List.cons.injEq,
        true_and]
      exact ih (by simpa [hk] using h)

theorem foldl_objInsert_of_nodup :
    ∀ (fs acc : List (String × JValue)), keysNodup fs = true →
    (∀ kv ∈ fs, objLookup acc kv.1 = none) →
    fs.foldl (fun a kv => objInsert a kv.1 kv.2) acc = acc ++ fs := by
  intro fs
  induction fs with
  | nil => intro acc _ _; simp
  | cons hd tl ih =>
    obtain ⟨k, v⟩ := hd
    intro acc hnd hdisj
    simp only [keysNodup, Bool.and_eq_true, Bool.not_eq_true'] at hnd
    simp only [List.foldl_cons]
    rw [objInsert_append_not_mem v (hdisj (k, v) (List.mem_cons_self _ _))]
    rw [ih (acc ++ [(k, v)]) hnd.2 ?_]
    · simp
    · intro kv hkv
      rw [objLookup_append]
      rw [hdisj kv (List.mem_cons_of_mem _ hkv)]
      have hne : ¬(k = kv.1) := by
        intro hh
        have := List.any_eq_false.mp hnd.1 kv hkv
        simp [hh] at this
      simp [objLookup, hne]

theorem serialize_head (v : JValue) (hwf : wfJ v = true) :
    ∃ c cs, serialize v = c :: cs ∧ isWsChar c = false ∧ ¬c = ']' := by
  cases v with
  | null => exact ⟨'n', ['u', 'l', 'l'], rfl, by decide, by decide⟩
  | bool b =>
    cases b with
    | true => exact ⟨'t', ['r', 'u', 'e'], rfl, by decide, by decide⟩
    | false => exact ⟨'f', ['a', 'l', 's', 'e'], rfl, by decide, by decide⟩
  | num lit =>
    simp only [wfJ] at hwf
    match hlit : lit.data with
    | [] => rw [hlit] at hwf; simp [validNumLit] at hwf
    | c :: r =>
      rw [hlit] at hwf
      have hfacts := numStart_facts (validNumLit_head hwf)
      refine ⟨c, r, ?_, hfacts.1, hfacts.2.1⟩
      show lit.data = c :: r
      exact hlit
  | str s =>
    exact ⟨'"', (s.data.map escapeChar).flatten ++ ['"'], rfl, by decide,
      by decide⟩
  | arr es =>
    exact ⟨'[', serArr es ++ [']'], rfl, by decide, by decide⟩
  | obj fs =>
    exact ⟨'{', serObj fs ++ ['}'], rfl, by decide, by decide⟩

theorem serArr_single (e : JValue) : serArr [e] = serialize e := rfl

theorem serArr_cons2 (e e2 : JValue) (es : List JValue) :
    serArr (e :: e2 :: es) = serialize e ++ ',' :: serArr (e2 :: es) := rfl

theorem serObj_single (k : String) (v : JValue) :
    serObj [(k, v)] = escString k ++ ':' :: serialize v := rfl

theorem serObj_cons2 (k : String) (v : JValue) (f2 : String × JValue)
    (fs : List (String × JValue)) :
    serObj ((k, v) :: f2 :: fs) =
      escString k ++ ':' :: serialize v ++ ',' :: serObj (f2 :: fs) := rfl

theorem parseVal_arr_step (f : Nat) (c0 : Char) (tl : List Char)
    (hws : isWsChar c0 = false) (hne : ¬c0 = ']') :
    parseVal (f + 1) ('[' :: c0 :: tl) = parseElems f (c0 :: tl) [] := by
  show (match skipWs (c0 :: tl) with
    | [] => none
    | c1 :: cs1 =>
      if c1 = ']' then some (JValue.arr [], cs1)
      else parseElems f (c1 :: cs1) []) = _
  rw [skipWs_cons_not_ws hws]
  simp [hne]

theorem parseVal_obj_step (f : Nat) (tl : List Char) :
    parseVal (f + 1) ('{' :: '"' :: tl) = parseFields f ('"' :: tl) [] := by
  show (match skipWs ('"' :: tl) with
    | [] => none
    | c1 :: cs1 =>
      if c1 = '}' then some (JValue.obj [], cs1)
      else parseFields f (c1 :: cs1) []) = _
  rfl

theorem serArr_cons_exists (e : JValue) (es : List JValue) :
    ∃ t, serArr (e :: es) = serialize e ++ t ∧
      ∀ rest, boundaryOk (t ++ ']' :: rest) = true := by
  cases es with
  | nil => exact ⟨[], by simp [serArr_single], fun rest => rfl⟩
  | cons e2 es2 =>
    exact ⟨',' :: serArr (e2 :: es2), serArr_cons2 e e2 es2, fun rest => rfl⟩

theorem serObj_cons_exists (k : String) (v : JValue)
    (fs : List (String × JValue)) :
    ∃ t, serObj ((k, v) :: fs) = escString k ++ ':' :: serialize v ++ t ∧
      (∀ rest, boundaryOk (t ++ '}' :: rest) = true) ∧
      ((fs = [] ∧ t = []) ∨
        ∃ f2 fs2, fs = f2 :: fs2 ∧ t = ',' :: serObj (f2 :: fs2)) := by
  cases fs with
  | nil =>
    exact ⟨[], by simp [serObj_single], fun rest => rfl, Or.inl ⟨rfl, rfl⟩⟩
  | cons f2 fs2 =>
    refine ⟨',' :: serObj (f2 :: fs2), ?_, fun rest => rfl,
      Or.inr ⟨f2, fs2, rfl, rfl⟩⟩
    rw [serObj_cons2]

theorem skipWs_serialize (v : JValue) (hwf : wfJ v = true) (z : List Char) :
    skipWs (serialize v ++ z) = serialize v ++ z := by
  obtain ⟨c0, cs0, hc0, hws0, _⟩ := serialize_head v hwf
  rw [hc0, List.cons_append]
  exact skipWs_cons_not_ws hws0 _

theorem skipWs_serArr (e : JValue) (es : List JValue) (hwf : wfJ e = true)
    (z : List Char) :
    skipWs (serArr (e :: es) ++ z) = serArr (e :: es) ++ z := by
  obtain ⟨t, ht, _⟩ := serArr_cons_exists e es
  obtain ⟨c0, cs0, hc0, hws0, _⟩ := serialize_head e hwf
  rw [ht, hc0]
  simp only [List.cons_append, List.append_assoc]
  exact skipWs_cons_not_ws hws0 _

theorem skipWs_serObj (f2 : String × JValue) (fs2 : List (String × JValue))
    (z : List Char) :
    skipWs (serObj (f2 :: fs2) ++ z) = serObj (f2 :: fs2) ++ z := by
  obtain ⟨k, v⟩ := f2
  obtain ⟨t, ht, _, _⟩ := serObj_cons_exists k v fs2
  rw [ht]
  simp only [escString, List.cons_append, List.append_assoc]
  exact skipWs_cons_not_ws (by decide) _

mutual

theorem serializeParse (v : JValue) (fuel : Nat) (rest : List Char)
    (hwf : wfJ v = true) (hb : boundaryOk rest = true)
    (hf : serFuel v ≤ fuel) :
    parseVal fuel (serialize v ++ rest) = some (v, rest) := by
  match v with
  | .null =>
    match fuel, hf with
    | f + 1, _ => rfl
  | .bool true =>
    match fuel, hf with
    | f + 1, _ => rfl
  | .bool false =>
    match fuel, hf with
    | f + 1, _ => rfl
  | .num lit =>
    match fuel, hf with
    | f + 1, _ =>
      simp only [wfJ] at hwf
      match hlit : lit.data with
      | [] => rw [hlit] at hwf; simp [validNumLit] at hwf
      | c :: r =>
        rw [hlit] at hwf
        have hfacts := numStart_facts (validNumLit_head hwf)
        have htd := @takeWhile_append_all isNumChar (c :: r) rest
          (validNumLit_chars hwf) hb rfl
        show parseVal (f + 1) (lit.data ++ rest) = some (.num lit, rest)
        rw [hlit]
        simp only [List.cons_append]
        simp only [parseVal]
        rw [if_neg hfacts.2.2.1, if_neg hfacts.2.2.2.1,
          if_neg hfacts.2.2.2.2.1, if_neg hfacts.2.2.2.2.2.1,
          if_neg hfacts.2.2.2.2.2.2.1, if_neg hfacts.2.2.2.2.2.2.2.1,
          if_pos hfacts.2.2.2.2.2.2.2.2]
        have ht : (c :: (r ++ rest)).takeWhile isNumChar = c :: r := by
          simpa [List.cons_append] using htd.1
        have hd : (c :: (r ++ rest)).dropWhile isNumChar = rest := by
          simpa [List.cons_append] using htd.2
        simp only [ht, hd, hwf, if_pos]
        rw [← hlit]
  | .str s =>
    match fuel, hf with
    | f + 1, _ =>
      have hsb := parseStrBody_escape s.data
        (((s.data.map escapeChar).flatten ++ '"' :: rest).length + 1) rest
        (by simp [List.length_append])
      show parseVal (f + 1)
        (('"' :: (s.data.map escapeChar).flatten ++ ['"']) ++ rest) =
          some (.str s, rest)
      simp only [List.cons_append, List.append_assoc, List.singleton_append]
      show (match parseStrBody
          (((s.data.map escapeChar).flatten ++ '"' :: rest).length + 1)
          ((s.data.map escapeChar).flatten ++ '"' :: rest) with
        | some (s2, r) => some (JValue.str (String.mk s2), r)
        | none => none) = some (JValue.str s, rest)
      rw [hsb]
  | .arr [] =>
    match fuel, hf with
    | f + 1, _ => rfl
  | .arr (e :: es) =>
    match fuel, hf with
    | f + 1, hf =>
      have hwfe : wfJ e = true ∧ wfL es = true := by
        simpa only [wfJ, wfL, Bool.and_eq_true] using hwf
      show parseVal (f + 1) (('[' :: serArr (e :: es) ++ [']']) ++ rest) =
        some (.arr (e :: es), rest)
      rw [show ('[' :: serArr (e :: es) ++ [']']) ++ rest =
        '[' :: (serArr (e :: es) ++ ']' :: rest) by simp]
      obtain ⟨c0, cs0, hc0, hws0, hne0⟩ := serialize_head e hwfe.1
      obtain ⟨t, ht, _⟩ := serArr_cons_exists e es
      have htl : serArr (e :: es) ++ ']' :: rest =
          c0 :: (cs0 ++ (t ++ ']' :: rest)) := by
        rw [ht, hc0]
        simp
      rw [htl, parseVal_arr_step f c0 _ hws0 hne0, ← htl]
      rw [serElemsParse (e :: es) f [] rest (by simp)
        (by simp only [wfL, Bool.and_eq_true]; exact hwfe)
        (by simp only [serFuel] at hf; omega)]
      simp
  | .obj [] =>
    match fuel, hf with
    | f + 1, _ => rfl
  | .obj ((k, v0) :: fs) =>
    match fuel, hf with
    | f + 1, hf =>
      have hwfo : keysNodup ((k, v0) :: fs) = true ∧
          wfF ((k, v0) :: fs) = true := by
        simpa only [wfJ, Bool.and_eq_true] using hwf
      show parseVal (f + 1) (('{' :: serObj ((k, v0) :: fs) ++ ['}']) ++ rest) =
        some (.obj ((k, v0) :: fs), rest)
      rw [show ('{' :: serObj ((k, v0) :: fs) ++ ['}']) ++ rest =
        '{' :: (serObj ((k, v0) :: fs) ++ '}' :: rest) by simp]
      obtain ⟨t, ht, _, _⟩ := serObj_cons_exists k v0 fs
      obtain ⟨tl, htl⟩ : ∃ tl, serObj ((k, v0) :: fs) ++ '}' :: rest =
          '"' :: tl := by
        rw [ht]
        simp only [escString, List.cons_append, List.append_assoc]
        exact ⟨_, rfl⟩
      rw [htl, parseVal_obj_step, ← htl]
      rw [serFieldsParse ((k, v0) :: fs) f [] rest (by simp) hwfo.2
        (by simp only [serFuel] at hf; omega)]
      rw [foldl_objInsert_of_nodup ((k, v0) :: fs) [] hwfo.1
        (fun kv _ => rfl)]
      rw [List.nil_append]

theorem serElemsParse (es : List JValue) (fuel : Nat) (acc : List JValue)
    (rest : List Char) (hne : es ≠ []) (hwf : wfL es = true)
    (hf : serFuelL es ≤ fuel) :
    parseElems fuel (serArr es ++ ']' :: rest) acc =
      some (.arr (acc.reverse ++ es), rest) := by
  match es, hne with
  | e :: es, _ =>
    match fuel, hf with
    | f + 1, hf =>
      have hwfe : wfJ e = true ∧ wfL es = true := by
        simpa only [wfL, Bool.and_eq_true] using hwf
      simp only [parseElems]
      match es, hwfe, hf with
      | [], hwfe, hf =>
        rw [show serArr [e] ++ ']' :: rest = serialize e ++ ']' :: rest from
          by rw [serArr_single]]
        rw [serializeParse e f (']' :: rest) hwfe.1 rfl
          (by simp only [serFuelL] at hf; omega)]
        show (match skipWs (']' :: rest) with
          | [] => none
          | c1 :: r2 =>
            if c1 = ',' then parseElems f (skipWs r2) (e :: acc)
            else if c1 = ']' then some (JValue.arr (e :: acc).reverse, r2)
            else none) = some (JValue.arr (acc.reverse ++ [e]), rest)
        rw [skipWs_cons_not_ws (by decide)]
        simp
      | e2 :: es2, hwfe, hf =>
        have hwfe2 : wfJ e2 = true ∧ wfL es2 = true := by
          simpa only [wfL, Bool.and_eq_true] using hwfe.2
        have harg : serArr (e :: e2 :: es2) ++ ']' :: rest =
            serialize e ++ ',' :: (serArr (e2 :: es2) ++ ']' :: rest) := by
          rw [serArr_cons2]
          simp
        rw [harg]
        rw [serializeParse e f (',' :: (serArr (e2 :: es2) ++ ']' :: rest))
          hwfe.1 rfl (by simp only [serFuelL] at hf ⊢; omega)]
        show (match skipWs (',' :: (serArr (e2 :: es2) ++ ']' :: rest)) with
          | [] => none
          | c1 :: r2 =>
            if c1 = ',' then parseElems f (skipWs r2) (e :: acc)
            else if c1 = ']' then some (JValue.arr (e :: acc).reverse, r2)
            else none) = some (JValue.arr (acc.reverse ++ e :: e2 :: es2), rest)
        rw [skipWs_cons_not_ws (by decide)]
        show parseElems f (skipWs (serArr (e2 :: es2) ++ ']' :: rest))
          (e :: acc) = some (JValue.arr (acc.reverse ++ e :: e2 :: es2), rest)
        rw [skipWs_serArr e2 es2 hwfe2.1 (']' :: rest)]
        rw [serElemsParse (e2 :: es2) f (e :: acc) rest (by simp) hwfe.2
          (by simp only [serFuelL] at hf ⊢; omega)]
        simp

theorem serFieldsParse (fs : List (String × JValue)) (fuel : Nat)
    (acc : List (String × JValue)) (rest : List Char) (hne : fs ≠ [])
    (hwf : wfF fs = true) (hf : serFuelF fs ≤ fuel) :
    parseFields fuel (serObj fs ++ '}' :: rest) acc =
      some (.obj (fs.foldl (fun a kv => objInsert a kv.1 kv.2) acc), rest) := by
  match fs, hne with
  | (k, v0) :: fs, _ =>
    match fuel, hf with
    | f + 1, hf =>
      have hwfv : wfJ v0 = true ∧ wfF fs = true := by
        simpa only [wfF, Bool.and_eq_true] using hwf
      obtain ⟨t, ht, hbt, hcase⟩ := serObj_cons_exists k v0 fs
      have harg : serObj ((k, v0) :: fs) ++ '}' :: rest =
          '"' :: ((k.data.map escapeChar).flatten ++
            '"' :: (':' :: (serialize v0 ++ (t ++ '}' :: rest)))) := by
        rw [ht]
        simp [escString]
      rw [harg]
      have hsb := parseStrBody_escape k.data
        (((k.data.map escapeChar).flatten ++
          '"' :: (':' :: (serialize v0 ++ (t ++ '}' :: rest)))).length + 1)
        (':' :: (serialize v0 ++ (t ++ '}' :: rest)))
        (by simp [List.length_append])
      show (match parseStrBody
          (((k.data.map escapeChar).flatten ++
            '"' :: (':' :: (serialize v0 ++ (t ++ '}' :: rest)))).length + 1)
          ((k.data.map escapeChar).flatten ++
            '"' :: (':' :: (serialize v0 ++ (t ++ '}' :: rest)))) with
        | none => none
        | some (ks, r) =>
          match skipWs r with
          | [] => none
          | c1 :: r2 =>
            if c1 = ':' then
              match parseVal f (skipWs r2) with
              | none => none
              | some (v, r3) =>
                match skipWs r3 with
                | [] => none
                | c2 :: r4 =>
                  if c2 = ',' then
                    parseFields f (skipWs r4) (objInsert acc (String.mk ks) v)
                  else if c2 = '}' then
                    some (JValue.obj (objInsert acc (String.mk ks) v), r4)
                  else none
            else none) =
        some (JValue.obj (((k, v0) :: fs).foldl
          (fun a kv => objInsert a kv.1 kv.2) acc), rest)
      rw [hsb]
      show (match skipWs (':' :: (serialize v0 ++ (t ++ '}' :: rest))) with
        | [] => none
        | c1 :: r2 =>
          if c1 = ':' then
            match parseVal f (skipWs r2) with
            | none => none
            | some (v, r3) =>
              match skipWs r3 with
              | [] => none
              | c2 :: r4 =>
                if c2 = ',' then
                  parseFields f (skipWs r4) (objInsert acc (String.mk k.data) v)
                else if c2 = '}' then
                  some (JValue.obj (objInsert acc (String.mk k.data) v), r4)
                else none
          else none) =
        some (JValue.obj (((k, v0) :: fs).foldl
          (fun a kv => objInsert a kv.1 kv.2) acc), rest)
      rw [skipWs_cons_not_ws (by decide)]
      show (match parseVal f (skipWs (serialize v0 ++ (t ++ '}' :: rest))) with
        | none => none
        | some (v, r3) =>
          match skipWs r3 with
          | [] => none
          | c2 :: r4 =>
            if c2 = ',' then
              parseFields f (skipWs r4) (objInsert acc (String.mk k.data) v)
            else if c2 = '}' then
              some (JValue.obj (objInsert acc (String.mk k.data) v), r4)
            else none) =
        some (JValue.obj (((k, v0) :: fs).foldl
          (fun a kv => objInsert a kv.1 kv.2) acc), rest)
      rw [skipWs_serialize v0 hwfv.1 (t ++ '}' :: rest)]
      rw [serializeParse v0 f (t ++ '}' :: rest) hwfv.1 (hbt rest)
        (by simp only [serFuelF] at hf; omega)]
      rcases hcase with ⟨hfs, ht0⟩ | ⟨f2, fs2, hfs, ht2⟩
      · subst hfs
        subst ht0
        show (match skipWs ('}' :: rest) with
          | [] => none
          | c2 :: r4 =>
            if c2 = ',' then
              parseFields f (skipWs r4) (objInsert acc (String.mk k.data) v0)
            else if c2 = '}' then
              some (JValue.obj (objInsert acc (String.mk k.data) v0), r4)
            else none) =
          some (JValue.obj ([(k, v0)].foldl
            (fun a kv => objInsert a kv.1 kv.2) acc), rest)
        rw [skipWs_cons_not_ws (by decide)]
        simp
      · subst hfs
        subst ht2
        show (match skipWs (',' :: (serObj (f2 :: fs2) ++ '}' :: rest)) with
          | [] => none
          | c2 :: r4 =>
            if c2 = ',' then
              parseFields f (skipWs r4) (objInsert acc (String.mk k.data) v0)
            else if c2 = '}' then
              some (JValue.obj (objInsert acc (String.mk k.data) v0), r4)
            else none) =
          some (JValue.obj (((k, v0) :: f2 :: fs2).foldl
            (fun a kv => objInsert a kv.1 kv.2) acc), rest)
        rw [skipWs_cons_not_ws (by decide)]
        show parseFields f (skipWs (serObj (f2 :: fs2) ++ '}' :: rest))
            (objInsert acc (String.mk k.data) v0) =
          some (JValue.obj (((k, v0) :: f2 :: fs2).foldl
            (fun a kv => objInsert a kv.1 kv.2) acc), rest)
        rw [skipWs_serObj f2 fs2 ('}' :: rest)]
        rw [serFieldsParse (f2 :: fs2) f (objInsert acc (String.mk k.data) v0)
          rest (by simp) hwfv.2 (by simp only [serFuelF] at hf ⊢; omega)]
        rfl

end

mutual

theorem serFuel_bound (v : JValue) (hwf : wfJ v = true) :
    serFuel v + 1 ≤ 2 * (serialize v).length := by
  match v with
  | .null => decide
  | .bool true => decide
  | .bool false => decide
  | .num lit =>
    simp only [wfJ] at hwf
    match hlit : lit.data with
    | [] => rw [hlit] at hwf; simp [validNumLit] at hwf
    | c :: r =>
      show serFuel (.num lit) + 1 ≤ 2 * lit.data.length
      rw [hlit]
      simp only [serFuel, List.length_cons]
      omega
  | .str s =>
    show serFuel (.str s) + 1 ≤ 2 * (escString s).length
    simp only [serFuel, escString, List.length_cons, List.length_append]
    omega
  | .arr [] => decide
  | .arr (e :: es) =>
    have hwfe : wfL (e :: es) = true := by simpa only [wfJ] using hwf
    have hL := serFuelL_bound (e :: es) hwfe
    show serFuelL (e :: es) + 2 + 1 ≤
      2 * (('[' :: serArr (e :: es) ++ [']']).length)
    simp only [List.length_append, List.length_cons, List.length_singleton]
    omega
  | .obj [] => decide
  | .obj (f0 :: fs) =>
    have hwff : wfF (f0 :: fs) = true := by
      simp only [wfJ, Bool.and_eq_true] at hwf
      exact hwf.2
    have hF := serFuelF_bound (f0 :: fs) hwff
    show serFuelF (f0 :: fs) + 2 + 1 ≤
      2 * (('{' :: serObj (f0 :: fs) ++ ['}']).length)
    simp only [List.length_append, List.length_cons, List.length_singleton]
    omega

theorem serFuelL_bound (es : List JValue) (hwf : wfL es = true) :
    serFuelL es ≤ 2 * (serArr es).length + 1 := by
  match es with
  | [] => decide
  | [e] =>
    have hwfe : wfJ e = true := by
      simp only [wfL, Bool.and_eq_true] at hwf
      exact hwf.1
    have h1 := serFuel_bound e hwfe
    show serFuel e + serFuelL [] + 1 ≤ 2 * (serialize e).length + 1
    simp only [serFuelL]
    omega
  | e :: e2 :: es =>
    have hwfe : wfJ e = true ∧ wfL (e2 :: es) = true := by
      simpa only [wfL, Bool.and_eq_true] using hwf
    have h1 := serFuel_bound e hwfe.1
    have h2 := serFuelL_bound (e2 :: es) hwfe.2
    show serFuel e + serFuelL (e2 :: es) + 1 ≤
      2 * ((serialize e ++ ',' :: serArr (e2 :: es)).length) + 1
    simp only [List.length_append, List.length_cons]
    omega

theorem serFuelF_bound (fs : List (String × JValue)) (hwf : wfF fs = true) :
    serFuelF fs ≤ 2 * (serObj fs).length + 1 := by
  match fs with
  | [] => decide
  | [(k, v)] =>
    have hwfv : wfJ v = true := by
      simp only [wfF, Bool.and_eq_true] at hwf
      exact hwf.1
    have h1 := serFuel_bound v hwfv
    show serFuel v + serFuelF [] + 1 ≤
      2 * ((escString k ++ ':' :: serialize v).length) + 1
    simp only [serFuelF, List.length_append, List.length_cons]
    omega
  | (k, v) :: f2 :: fs =>
    have hwfv : wfJ v = true ∧ wfF (f2 :: fs) = true := by
      simpa only [wfF, Bool.and_eq_true] using hwf
    have h1 := serFuel_bound v hwfv.1
    have h2 := serFuelF_bound (f2 :: fs) hwfv.2
    show serFuel v + serFuelF (f2 :: fs) + 1 ≤
      2 * ((escString k ++ ':' :: serialize v ++ ',' :: serObj (f2 :: fs)).length) + 1
    simp only [List.length_append, List.length_cons]
    omega

end

/-- Serializing any JavaScript-representable value and strictly parsing
it back yields the value itself. -/
theorem parseJson_stringify (v : JValue) (hwf : wfJ v = true) :
    parseJson (jsonStringify v) = some v := by
  have hsp := serializeParse v (2 * (serialize v).length + 2) [] hwf rfl
    (by have := serFuel_bound v hwf; omega)
  rw [List.append_nil] at hsp
  unfold parseJson jsonStringify
  obtain ⟨c0, cs0, hc0, hws0, _⟩ := serialize_head v hwf
  rw [show (String.mk (serialize v)).data = serialize v from rfl]
  rw [hc0, skipWs_cons_not_ws hws0, ← hc0, hsp]
  rfl

theorem jsonStringify_inj {v w : JValue} (hv : wfJ v = true)
    (hw : wfJ w = true) (h : jsonStringify v = jsonStringify w) : v = w := by
  have h1 := parseJson_stringify v hv
  rw [h, parseJson_stringify w hw] at h1
  exact (Option.some_inj.mp h1).symm

theorem wf_pathValue (p : List JSeg) :
    wfJ (.arr (p.map segToJValue)) = true := by
  show wfL (p.map segToJValue) = true
  induction p with
  | nil => rfl
  | cons s p ih =>
    simp only [List.map_cons, wfL, Bool.and_eq_true]
    refine ⟨?_, ih⟩
    cases s with
    | str s => rfl
    | num n =>
      show wfJ (.num (String.mk (intToDec n))) = true
      show validNumLit (String.mk (intToDec n)).data = true
      exact validNumLit_intToDec n

theorem natToDec_head_not_minus (n : Nat) (r : List Char) :
    ¬ natToDec n = '-' :: r := by
  intro h
  have := natToDec_digits n '-' (by rw [h]; exact List.mem_cons_self _ _)
  simp [isDigitChar] at this

theorem intToDec_inj {a b : Int} (h : intToDec a = intToDec b) : a = b := by
  cases a with
  | ofNat n =>
    cases b with
    | ofNat m =>
      simp only [intToDec] at h
      exact congrArg Int.ofNat (natToDec_inj h)
    | negSucc m =>
      simp only [intToDec] at h
      exact absurd h (natToDec_head_not_minus n _)
  | negSucc n =>
    cases b with
    | ofNat m =>
      simp only [intToDec] at h
      exact absurd h.symm (natToDec_head_not_minus m _)
    | negSucc m =>
      simp only [intToDec, List.cons.injEq, true_and] at h
      have h2 : n + 1 = m + 1 := natToDec_inj h
      have h3 : n = m := by omega
      rw [h3]

theorem segToJValue_inj {a b : JSeg} (h : segToJValue a = segToJValue b) :
    a = b := by
  cases a with
  | str s =>
    cases b with
    | str s2 => simpa [segToJValue] using h
    | num n => simp [segToJValue] at h
  | num n =>
    cases b with
    | str s2 => simp [segToJValue] at h
    | num m =>
      simp only [segToJValue, JValue.num.injEq] at h
      injection h with h2
      rw [intToDec_inj h2]

/-- The stringified path key used by reselection determines the path:
equal keys mean structurally equal paths. -/
theorem pathKey_inj {p q : List JSeg} (h : pathKey p = pathKey q) : p = q := by
  unfold pathKey at h
  have harr := jsonStringify_inj (wf_pathValue p) (wf_pathValue q) h
  have hmap : p.map segToJValue = q.map segToJValue := by
    injection harr
  exact List.map_injective_iff.mpr (fun _ _ hh => segToJValue_inj hh) hmap

/-- C9: after a successful save, the reselection step finds the first
node of the rebuilt set whose path is structurally equal to the captured
path when one exists (the stringified-path comparison coincides with
structural equality), and misses — leaving the selection unchanged, with
no error — exactly when no structurally equal path exists. -/
theorem reconciler_restores_structural_path (nodes : List GraphNode)
    (path : List JSeg) :
    ((∃ n ∈ nodes, n.path = some path) →
      ∃ m, findMatchingNode nodes path = some m ∧ m.path = some path) ∧
    ((¬∃ n ∈ nodes, n.path = some path) →
      findMatchingNode nodes path = none) ∧
    (∀ (patchFn : String → List JSeg → JValue → Option String)
       (rebuildNodes : String → List GraphNode) (s : ModalState)
       (nd : GraphNode) (newJson : String),
      s.selectedNode = some nd →
      patchFn s.jsonText (nd.path.getD [])
        (resolveValueToWrite s.jsonText (nd.path.getD [])
          (editParse s.editedText)) = some newJson →
      findMatchingNode (rebuildNodes newJson) (nd.path.getD []) = none →
      ((handleSave patchFn rebuildNodes s).1).selectedNode =
        s.selectedNode) := by
  refine ⟨?_, ?_, ?_⟩
  · intro ⟨n, hn, hp⟩
    have hsome : (findMatchingNode nodes path).isSome := by
      unfold findMatchingNode
      rw [List.find?_isSome]
      exact ⟨n, hn, by simp [pathKeyOpt, hp]⟩
    obtain ⟨m, hm⟩ := Option.isSome_iff_exists.mp hsome
    refine ⟨m, hm, ?_⟩
    have hpred := List.find?_some (by unfold findMatchingNode at hm; exact hm)
    simp only [decide_eq_true_eq] at hpred
    match hmp : m.path with
    | none => rw [hmp] at hpred; simp [pathKeyOpt] at hpred
    | some q =>
      rw [hmp] at hpred
      simp only [pathKeyOpt, Option.some_inj] at hpred
      rw [pathKey_inj hpred]
  · intro hno
    cases hfind : findMatchingNode nodes path with
    | none => rfl
    | some m =>
      exfalso
      unfold findMatchingNode at hfind
      have hpred := List.find?_some hfind
      have hmem := List.mem_of_find?_eq_some hfind
      simp only [decide_eq_true_eq] at hpred
      match hmp : m.path with
      | none => rw [hmp] at hpred; simp [pathKeyOpt] at hpred
      | some q =>
        rw [hmp] at hpred
        simp only [pathKeyOpt, Option.some_inj] at hpred
        exact hno ⟨m, hmem, by rw [hmp, pathKey_inj hpred]⟩
  · intro patchFn rebuildNodes s nd newJson hsel hpatch hmiss
    unfold handleSave
    rw [hsel]
    simp only [hpatch, hmiss]

theorem reconciler_restores_structural_path_witness :
    (∃ n ∈ [GraphNode.mk "a" (some [JSeg.str "u"]) none,
            GraphNode.mk "b" (some [JSeg.num 0]) none],
      n.path = some [JSeg.num 0]) ∧
    ∃ m, findMatchingNode
        [GraphNode.mk "a" (some [JSeg.str "u"]) none,
         GraphNode.mk "b" (some [JSeg.num 0]) none] [JSeg.num 0] = some m ∧
      m.path = some [JSeg.num 0] :=
  ⟨⟨GraphNode.mk "b" (some [JSeg.num 0]) none, by simp, rfl⟩,
   (reconciler_restores_structural_path _ _).1
     ⟨GraphNode.mk "b" (some [JSeg.num 0]) none, by simp, rfl⟩⟩

/-! ### What the parser consumes is a nonempty prefix -/

theorem map_cons_eq_some {recur : List Char → Option (List Char × List Char)}
    {w : Char} {r2 s rest : List Char}
    (h : (recur r2).map (fun p => (w :: p.1, p.2)) = some (s, rest)) :
    ∃ b, recur r2 = some (b, rest) ∧ s = w :: b := by
  rw [Option.map_eq_some'] at h
  obtain ⟨p, hp, hps⟩ := h
  have h1 : w :: p.1 = s := (Prod.mk.injEq _ _ _ _ ▸ hps).1
  have h2 : p.2 = rest := (Prod.mk.injEq _ _ _ _ ▸ hps).2
  exact ⟨p.1, by rw [← h2]; exact hp, h1.symm⟩

theorem parseStrLow_suffix {recur : List Char → Option (List Char × List Char)}
    (hrec : ∀ cs s rest, recur cs = some (s, rest) → ∃ pre, cs = pre ++ rest)
    (n : Nat) (r s rest : List Char)
    (h : parseStrLow recur n r = some (s, rest)) :
    ∃ pre, 6 ≤ pre.length ∧ r = pre ++ rest := by
  match r with
  | [] => simp [parseStrLow] at h
  | [x1] => simp [parseStrLow] at h
  | [x1, x2] => simp [parseStrLow] at h
  | [x1, x2, x3] => simp [parseStrLow] at h
  | [x1, x2, x3, x4] => simp [parseStrLow] at h
  | [x1, x2, x3, x4, x5] => simp [parseStrLow] at h
  | e2 :: u2 :: a2 :: b2 :: c3 :: d2 :: r3 =>
    simp only [parseStrLow] at h
    by_cases hu : (e2 = '\\' && u2 = 'u') = true
    · rw [if_pos hu] at h
      match hhex : parseHex4 a2 b2 c3 d2 with
      | none => rw [hhex] at h; simp at h
      | some m =>
        simp only [hhex] at h
        by_cases hm : (0xDC00 ≤ m && m < 0xE000) = true
        · rw [if_pos hm] at h
          obtain ⟨b0, hb, _⟩ := map_cons_eq_some h
          obtain ⟨pre2, heq⟩ := hrec r3 b0 rest hb
          exact ⟨e2 :: u2 :: a2 :: b2 :: c3 :: d2 :: pre2, by simp,
            by rw [heq]; rfl⟩
        · rw [if_neg hm] at h
          simp at h
    · rw [if_neg hu] at h
      simp at h

theorem parseStrU_suffix {recur : List Char → Option (List Char × List Char)}
    (hrec : ∀ cs s rest, recur cs = some (s, rest) → ∃ pre, cs = pre ++ rest)
    (r s rest : List Char) (h : parseStrU recur r = some (s, rest)) :
    ∃ pre, 4 ≤ pre.length ∧ r = pre ++ rest := by
  match r with
  | [] => simp [parseStrU] at h
  | [x1] => simp [parseStrU] at h
  | [x1, x2] => simp [parseStrU] at h
  | [x1, x2, x3] => simp [parseStrU] at h
  | a :: b :: c2 :: d :: r2 =>
    simp only [parseStrU] at h
    match hhex : parseHex4 a b c2 d with
    | none => rw [hhex] at h; simp at h
    | some n =>
      simp only [hhex] at h
      by_cases hn1 : (n < 0xD800 || 0xE000 ≤ n) = true
      · rw [if_pos hn1] at h
        obtain ⟨b0, hb, _⟩ := map_cons_eq_some h
        obtain ⟨pre2, heq⟩ := hrec r2 b0 rest hb
        exact ⟨a :: b :: c2 :: d :: pre2, by simp, by rw [heq]; rfl⟩
      · rw [if_neg hn1] at h
        by_cases hn2 : n < 0xDC00
        · rw [if_pos hn2] at h
          obtain ⟨pre2, _, heq⟩ := parseStrLow_suffix hrec n r2 s rest h
          exact ⟨a :: b :: c2 :: d :: pre2, by simp, by rw [heq]; rfl⟩
        · rw [if_neg hn2] at h
          simp at h

theorem parseStrEsc_suffix {recur : List Char → Option (List Char × List Char)}
    (hrec : ∀ cs s rest, recur cs = some (s, rest) → ∃ pre, cs = pre ++ rest)
    (e : Char) (r s rest : List Char)
    (h : parseStrEsc recur e r = some (s, rest)) :
    ∃ pre, r = pre ++ rest := by
  have hmap : ∀ (w : Char),
      (recur r).map (fun p => (w :: p.1, p.2)) = some (s, rest) →
      ∃ pre2, r = pre2 ++ rest := by
    intro w hm
    obtain ⟨b0, hb, _⟩ := map_cons_eq_some hm
    exact hrec r b0 rest hb
  unfold parseStrEsc at h
  by_cases h1 : e = '"'
  · rw [if_pos h1] at h
    exact hmap _ h
  · rw [if_neg h1] at h
    by_cases h2 : e = '\\'
    · rw [if_pos h2] at h
      exact hmap _ h
    · rw [if_neg h2] at h
      by_cases h3 : e = '/'
      · rw [if_pos h3] at h
        exact hmap _ h
      · rw [if_neg h3] at h
        by_cases h4 : e = 'b'
        · rw [if_pos h4] at h
          exact hmap _ h
        · rw [if_neg h4] at h
          by_cases h5 : e = 'f'
          · rw [if_pos h5] at h
            exact hmap _ h
          · rw [if_neg h5] at h
            by_cases h6 : e = 'n'
            · rw [if_pos h6] at h
              exact hmap _ h
            · rw [if_neg h6] at h
              by_cases h7 : e = 'r'
              · rw [if_pos h7] at h
                exact hmap _ h
              · rw [if_neg h7] at h
                by_cases h8 : e = 't'
                · rw [if_pos h8] at h
                  exact hmap _ h
                · rw [if_neg h8] at h
                  by_cases h9 : e = 'u'
                  · rw [if_pos h9] at h
                    exact (parseStrU_suffix hrec r s rest h).imp
                      (fun pre hp => hp.2)
                  · rw [if_neg h9] at h
                    simp at h

theorem parseStrBody_suffix : ∀ (f : Nat) (cs s rest : List Char),
    parseStrBody f cs = some (s, rest) → ∃ pre, pre ≠ [] ∧ cs = pre ++ rest := by
  intro f
  induction f with
  | zero => intro cs s rest h; simp [parseStrBody] at h
  | succ f ih =>
    intro cs s rest h
    match cs with
    | [] => simp [parseStrBody] at h
    | c :: cs1 =>
      simp only [parseStrBody] at h
      by_cases h1 : c = '"'
      · rw [if_pos h1] at h
        simp only [Option.some.injEq, Prod.mk.injEq] at h
        refine ⟨[c], by simp, ?_⟩
        rw [h.2]
        rfl
      · rw [if_neg h1] at h
        by_cases h2 : c = '\\'
        · rw [if_pos h2] at h
          match cs1 with
          | [] => simp at h
          | e :: r =>
            obtain ⟨pre2, heq⟩ := parseStrEsc_suffix
              (fun cs2 s2 r2 hh => (ih cs2 s2 r2 hh).imp
                (fun pre hpre => hpre.2)) e r s rest h
            exact ⟨c :: e :: pre2, by simp, by rw [heq]; rfl⟩
        · rw [if_neg h2] at h
          by_cases h3 : c.toNat < 0x20
          · rw [if_pos h3] at h
            simp at h
          · rw [if_neg h3] at h
            obtain ⟨b0, hb, _⟩ := map_cons_eq_some h
            obtain ⟨pre2, _, heq⟩ := ih cs1 b0 rest hb
            exact ⟨c :: pre2, by simp, by rw [heq]; rfl⟩

/-! ### Whitespace and boundary helpers -/

theorem wsChar_not_num {c : Char} (h : isWsChar c = true) :
    isNumChar c = false := by
  simp only [isWsChar, Bool.or_eq_true, decide_eq_true_eq] at h
  rcases h with ((h | h) | h) | h <;> (subst h; rfl)

theorem skipWs_split (cs : List Char) :
    cs = cs.takeWhile isWsChar ++ skipWs cs ∧
      ∀ c ∈ cs.takeWhile isWsChar, isWsChar c = true := by
  refine ⟨(List.takeWhile_append_dropWhile isWsChar cs).symm, ?_⟩
  intro c hc
  exact List.mem_takeWhile_imp hc

theorem boundaryOk_of_ws {r : List Char}
    (h : ∀ c ∈ r, isWsChar c = true) : boundaryOk r = true := by
  match r with
  | [] => rfl
  | c :: r2 =>
    have := wsChar_not_num (h c (List.mem_cons_self c r2))
    simp [boundaryOk, this]

theorem skipWs_nil_all_ws {r : List Char} (h : skipWs r = []) :
    ∀ c ∈ r, isWsChar c = true := by
  induction r with
  | nil => intro c hc; simp at hc
  | cons a r2 ih =>
    simp only [skipWs, List.dropWhile_cons] at h
    by_cases ha : isWsChar a = true
    · intro c hc
      rcases List.mem_cons.mp hc with hce | hce
      · exact hce ▸ ha
      · exact ih (by rw [if_pos ha] at h; exact h) c hce
    · rw [if_neg ha] at h
      simp at h

theorem boundaryOk_of_skipWs {r r2 : List Char} {c1 : Char}
    (h : skipWs r = c1 :: r2) (hc : isNumChar c1 = false) :
    boundaryOk r = true := by
  match hr : r with
  | [] => rfl
  | c :: rr =>
    simp only [skipWs, List.dropWhile_cons] at h
    by_cases hws : isWsChar c = true
    · simp [boundaryOk, wsChar_not_num hws]
    · rw [if_neg hws] at h
      have : c = c1 := (List.cons.injEq _ _ _ _ ▸ h).1
      simp [boundaryOk, this, hc]

/-! ### The parser consumes a nonempty prefix -/

theorem parse_suffix : ∀ f : Nat,
    (∀ cs t rest, parseVal f cs = some (t, rest) →
      ∃ pre, pre ≠ [] ∧ cs = pre ++ rest) ∧
    (∀ cs acc t rest, parseElems f cs acc = some (t, rest) →
      ∃ pre, pre ≠ [] ∧ cs = pre ++ rest) ∧
    (∀ cs acc t rest, parseFields f cs acc = some (t, rest) →
      ∃ pre, pre ≠ [] ∧ cs = pre ++ rest) := by
  intro f
  induction f with
  | zero =>
    refine ⟨?_, ?_, ?_⟩ <;> (intros cs; intros; simp [parseVal, parseElems, parseFields] at *)
  | succ f ih =>
    refine ⟨?_, ?_, ?_⟩
    · -- parseVal
      intro cs t rest h
      match cs with
      | [] => simp [parseVal] at h
      | c :: cs0 =>
        simp only [parseVal] at h
        by_cases h1 : c = 'n'
        · rw [if_pos h1] at h
          split at h
          · rename_i r
            simp only [Option.some.injEq, Prod.mk.injEq] at h
            exact ⟨[c, 'u', 'l', 'l'], by simp, by simp [h.2]⟩
          · simp at h
        · rw [if_neg h1] at h
          by_cases h2 : c = 't'
          · rw [if_pos h2] at h
            split at h
            · rename_i r
              simp only [Option.some.injEq, Prod.mk.injEq] at h
              exact ⟨[c, 'r', 'u', 'e'], by simp, by simp [h.2]⟩
            · simp at h
          · rw [if_neg h2] at h
            by_cases h3 : c = 'f'
            · rw [if_pos h3] at h
              split at h
              · rename_i r
                simp only [Option.some.injEq, Prod.mk.injEq] at h
                exact ⟨[c, 'a', 'l', 's', 'e'], by simp, by simp [h.2]⟩
              · simp at h
            · rw [if_neg h3] at h
              by_cases h4 : c = '"'
              · rw [if_pos h4] at h
                match hsb : parseStrBody (cs0.length + 1) cs0 with
                | none => simp only [hsb] at h; simp at h
                | some (s, r) =>
                  simp only [hsb, Option.some.injEq, Prod.mk.injEq] at h
                  obtain ⟨pre2, hpre2, heq⟩ := parseStrBody_suffix _ _ _ _ hsb
                  refine ⟨c :: pre2, by simp, ?_⟩
                  rw [← h.2, heq]
                  rfl
              · rw [if_neg h4] at h
                by_cases h5 : c = '['
                · rw [if_pos h5] at h
                  match hsw : skipWs cs0 with
                  | [] => simp only [hsw] at h; simp at h
                  | c1 :: cs1 =>
                    simp only [hsw] at h
                    obtain ⟨hcs0, _⟩ := skipWs_split cs0
                    rw [hsw] at hcs0
                    by_cases h6 : c1 = ']'
                    · rw [if_pos h6] at h
                      simp only [Option.some.injEq, Prod.mk.injEq] at h
                      refine ⟨c :: cs0.takeWhile isWsChar ++ [c1], by simp, ?_⟩
                      simp only [List.append_assoc, List.cons_append,
                        List.singleton_append, List.nil_append]
                      rw [← h.2, ← hcs0]
                    · rw [if_neg h6] at h
                      obtain ⟨pre2, hpre2, heq⟩ := ih.2.1 _ _ _ _ h
                      refine ⟨c :: cs0.takeWhile isWsChar ++ pre2, by simp, ?_⟩
                      simp only [List.append_assoc, List.cons_append]
                      rw [← heq, ← hcs0]
                · rw [if_neg h5] at h
                  by_cases h7 : c = '{'
                  · rw [if_pos h7] at h
                    match hsw : skipWs cs0 with
                    | [] => simp only [hsw] at h; simp at h
                    | c1 :: cs1 =>
                      simp only [hsw] at h
                      obtain ⟨hcs0, _⟩ := skipWs_split cs0
                      rw [hsw] at hcs0
                      by_cases h8 : c1 = '}'
                      · rw [if_pos h8] at h
                        simp only [Option.some.injEq, Prod.mk.injEq] at h
                        refine ⟨c :: cs0.takeWhile isWsChar ++ [c1], by simp, ?_⟩
                        simp only [List.append_assoc, List.cons_append,
                          List.singleton_append, List.nil_append]
                        rw [← h.2, ← hcs0]
                      · rw [if_neg h8] at h
                        obtain ⟨pre2, hpre2, heq⟩ := ih.2.2 _ _ _ _ h
                        refine ⟨c :: cs0.takeWhile isWsChar ++ pre2, by simp, ?_⟩
                        simp only [List.append_assoc, List.cons_append]
                        rw [← heq, ← hcs0]
                  · rw [if_neg h7] at h
                    by_cases h9 : (isDigitChar c || c = '-') = true
                    · rw [if_pos h9] at h
                      by_cases h10 : validNumLit ((c :: cs0).takeWhile isNumChar) = true
                      · rw [if_pos h10] at h
                        simp only [Option.some.injEq, Prod.mk.injEq] at h
                        have hnum : isNumChar c = true := by
                          rcases Bool.or_eq_true _ _ |>.mp h9 with hd | hm
                          · simp [isNumChar, hd]
                          · simp [isNumChar, of_decide_eq_true hm]
                        refine ⟨(c :: cs0).takeWhile isNumChar, ?_, ?_⟩
                        · simp [List.takeWhile_cons, hnum]
                        · rw [← h.2]
                          exact (List.takeWhile_append_dropWhile isNumChar _).symm
                      · rw [if_neg h10] at h
                        simp at h
                    · rw [if_neg h9] at h
                      simp at h
    · -- parseElems
      intro cs acc t rest h
      simp only [parseElems] at h
      match hpv : parseVal f cs with
      | none => simp only [hpv] at h; simp at h
      | some (v, r) =>
        simp only [hpv] at h
        obtain ⟨a, ha, hcs⟩ := ih.1 _ _ _ hpv
        match hsw : skipWs r with
        | [] => simp only [hsw] at h; simp at h
        | c1 :: r2 =>
          simp only [hsw] at h
          obtain ⟨hr, _⟩ := skipWs_split r
          rw [hsw] at hr
          by_cases h1 : c1 = ','
          · rw [if_pos h1] at h
            obtain ⟨b, hb, hr2⟩ := ih.2.1 _ _ _ _ h
            have hr2s := (skipWs_split r2).1
            refine ⟨a ++ r.takeWhile isWsChar ++ c1 :: r2.takeWhile isWsChar ++ b,
              by simp [ha], ?_⟩
            simp only [List.append_assoc, List.cons_append]
            rw [← hr2, ← hr2s, ← hr, ← hcs]
          · rw [if_neg h1] at h
            by_cases h2 : c1 = ']'
            · rw [if_pos h2] at h
              simp only [Option.some.injEq, Prod.mk.injEq] at h
              refine ⟨a ++ r.takeWhile isWsChar ++ [c1], by simp [ha], ?_⟩
              simp only [List.append_assoc, List.cons_append,
                List.singleton_append, List.nil_append]
              rw [← h.2, ← hr, ← hcs]
            · rw [if_neg h2] at h
              simp at h
    · -- parseFields
      intro cs acc t rest h
      match cs with
      | [] => simp [parseFields] at h
      | c0 :: cs1 =>
        simp only [parseFields] at h
        by_cases h0 : c0 = '"'
        · rw [if_pos h0] at h
          match hsb : parseStrBody (cs1.length + 1) cs1 with
          | none => simp only [hsb] at h; simp at h
          | some (ks, r) =>
            simp only [hsb] at h
            obtain ⟨kp, hkp, hcs1⟩ := parseStrBody_suffix _ _ _ _ hsb
            match hsw : skipWs r with
            | [] => simp only [hsw] at h; simp at h
            | c1 :: r2 =>
              simp only [hsw] at h
              obtain ⟨hr, _⟩ := skipWs_split r
              rw [hsw] at hr
              by_cases h1 : c1 = ':'
              · rw [if_pos h1] at h
                match hpv : parseVal f (skipWs r2) with
                | none => simp only [hpv] at h; simp at h
                | some (v, r3) =>
                  simp only [hpv] at h
                  obtain ⟨a, ha, hr2v⟩ := ih.1 _ _ _ hpv
                  have hr2s := (skipWs_split r2).1
                  match hsw3 : skipWs r3 with
                  | [] => simp only [hsw3] at h; simp at h
                  | c2 :: r4 =>
                    simp only [hsw3] at h
                    obtain ⟨hr3, _⟩ := skipWs_split r3
                    rw [hsw3] at hr3
                    by_cases h2 : c2 = ','
                    · rw [if_pos h2] at h
                      obtain ⟨b, hb, hr4⟩ := ih.2.2 _ _ _ _ h
                      have hr4s := (skipWs_split r4).1
                      refine ⟨c0 :: kp ++ r.takeWhile isWsChar ++ c1 ::
                        r2.takeWhile isWsChar ++ a ++ r3.takeWhile isWsChar ++
                        c2 :: r4.takeWhile isWsChar ++ b, by simp, ?_⟩
                      simp only [List.append_assoc, List.cons_append]
                      rw [← hr4, ← hr4s, ← hr3, ← hr2v, ← hr2s, ← hr, ← hcs1]
                    · rw [if_neg h2] at h
                      by_cases h3 : c2 = '}'
                      · rw [if_pos h3] at h
                        simp only [Option.some.injEq, Prod.mk.injEq] at h
                        refine ⟨c0 :: kp ++ r.takeWhile isWsChar ++ c1 ::
                          r2.takeWhile isWsChar ++ a ++ r3.takeWhile isWsChar ++
                          [c2], by simp, ?_⟩
                        simp only [List.append_assoc, List.cons_append,
                          List.singleton_append, List.nil_append]
                        rw [← h.2, ← hr3, ← hr2v, ← hr2s, ← hr, ← hcs1]
                      · rw [if_neg h3] at h
                        simp at h
              · rw [if_neg h1] at h
                simp at h
        · rw [if_neg h0] at h
          simp at h

theorem parseVal_suffix {f : Nat} {cs t rest} (h : parseVal f cs = some (t, rest)) :
    ∃ pre, pre ≠ [] ∧ cs = pre ++ rest := (parse_suffix f).1 _ _ _ h

theorem parseElems_suffix {f : Nat} {cs acc t rest}
    (h : parseElems f cs acc = some (t, rest)) :
    ∃ pre, pre ≠ [] ∧ cs = pre ++ rest := (parse_suffix f).2.1 _ _ _ _ h

theorem parseFields_suffix {f : Nat} {cs acc t rest}
    (h : parseFields f cs acc = some (t, rest)) :
    ∃ pre, pre ≠ [] ∧ cs = pre ++ rest := (parse_suffix f).2.2 _ _ _ _ h

/-! ### Fuel monotonicity and determinism of the parser -/

theorem parse_mono : ∀ f : Nat,
    (∀ g cs x, f ≤ g → parseVal f cs = some x → parseVal g cs = some x) ∧
    (∀ g cs acc x, f ≤ g → parseElems f cs acc = some x →
      parseElems g cs acc = some x) ∧
    (∀ g cs acc x, f ≤ g → parseFields f cs acc = some x →
      parseFields g cs acc = some x) := by
  intro f
  induction f with
  | zero =>
    refine ⟨?_, ?_, ?_⟩ <;>
      (intro g cs; intros; simp [parseVal, parseElems, parseFields] at *)
  | succ f ih =>
    refine ⟨?_, ?_, ?_⟩
    · -- parseVal
      intro g cs x hfg h
      match g, hfg with
      | g + 1, hfg =>
        have hfg2 : f ≤ g := Nat.le_of_succ_le_succ hfg
        match cs with
        | [] => simp [parseVal] at h
        | c :: cs0 =>
          simp only [parseVal] at h ⊢
          by_cases h1 : c = 'n'
          · rw [if_pos h1] at h ⊢; exact h
          · rw [if_neg h1] at h ⊢
            by_cases h2 : c = 't'
            · rw [if_pos h2] at h ⊢; exact h
            · rw [if_neg h2] at h ⊢
              by_cases h3 : c = 'f'
              · rw [if_pos h3] at h ⊢; exact h
              · rw [if_neg h3] at h ⊢
                by_cases h4 : c = '"'
                · rw [if_pos h4] at h ⊢; exact h
                · rw [if_neg h4] at h ⊢
                  by_cases h5 : c = '['
                  · rw [if_pos h5] at h ⊢
                    match hsw : skipWs cs0 with
                    | [] => simp only [hsw] at h; simp at h
                    | c1 :: cs1 =>
                      simp only [hsw] at h ⊢
                      by_cases h6 : c1 = ']'
                      · rw [if_pos h6] at h ⊢; exact h
                      · rw [if_neg h6] at h ⊢
                        exact ih.2.1 _ _ _ _ hfg2 h
                  · rw [if_neg h5] at h ⊢
                    by_cases h7 : c = '{'
                    · rw [if_pos h7] at h ⊢
                      match hsw : skipWs cs0 with
                      | [] => simp only [hsw] at h; simp at h
                      | c1 :: cs1 =>
                        simp only [hsw] at h ⊢
                        by_cases h8 : c1 = '}'
                        · rw [if_pos h8] at h ⊢; exact h
                        · rw [if_neg h8] at h ⊢
                          exact ih.2.2 _ _ _ _ hfg2 h
                    · rw [if_neg h7] at h ⊢; exact h
    · -- parseElems
      intro g cs acc x hfg h
      match g, hfg with
      | g + 1, hfg =>
        have hfg2 : f ≤ g := Nat.le_of_succ_le_succ hfg
        simp only [parseElems] at h ⊢
        match hpv : parseVal f cs with
        | none => simp only [hpv] at h; simp at h
        | some (v, r) =>
          rw [hpv] at h
          rw [ih.1 _ _ _ hfg2 hpv]
          match hsw : skipWs r with
          | [] => simp only [hsw] at h; simp at h
          | c1 :: r2 =>
            simp only [hsw] at h ⊢
            by_cases h1 : c1 = ','
            · rw [if_pos h1] at h ⊢
              exact ih.2.1 _ _ _ _ hfg2 h
            · rw [if_neg h1] at h ⊢; exact h
    · -- parseFields
      intro g cs acc x hfg h
      match g, hfg with
      | g + 1, hfg =>
        have hfg2 : f ≤ g := Nat.le_of_succ_le_succ hfg
        match cs with
        | [] => simp [parseFields] at h
        | c0 :: cs1 =>
          simp only [parseFields] at h ⊢
          by_cases h0 : c0 = '"'
          · rw [if_pos h0] at h ⊢
            match hsb : parseStrBody (cs1.length + 1) cs1 with
            | none => simp only [hsb] at h; simp at h
            | some (ks, r) =>
              simp only [hsb] at h ⊢
              match hsw : skipWs r with
              | [] => simp only [hsw] at h; simp at h
              | c1 :: r2 =>
                simp only [hsw] at h ⊢
                by_cases h1 : c1 = ':'
                · rw [if_pos h1] at h ⊢
                  match hpv : parseVal f (skipWs r2) with
                  | none => simp only [hpv] at h; simp at h
                  | some (v, r3) =>
                    rw [hpv] at h
                    rw [ih.1 _ _ _ hfg2 hpv]
                    match hsw3 : skipWs r3 with
                    | [] => simp only [hsw3] at h; simp at h
                    | c2 :: r4 =>
                      simp only [hsw3] at h ⊢
                      by_cases h2 : c2 = ','
                      · rw [if_pos h2] at h ⊢
                        exact ih.2.2 _ _ _ _ hfg2 h
                      · rw [if_neg h2] at h ⊢; exact h
                · rw [if_neg h1] at h ⊢; exact h
          · rw [if_neg h0] at h ⊢; exact h

theorem parseVal_mono {f g : Nat} {cs x} (hfg : f ≤ g)
    (h : parseVal f cs = some x) : parseVal g cs = some x :=
  (parse_mono f).1 g cs x hfg h

theorem parseElems_mono {f g : Nat} {cs acc x} (hfg : f ≤ g)
    (h : parseElems f cs acc = some x) : parseElems g cs acc = some x :=
  (parse_mono f).2.1 g cs acc x hfg h

theorem parseFields_mono {f g : Nat} {cs acc x} (hfg : f ≤ g)
    (h : parseFields f cs acc = some x) : parseFields g cs acc = some x :=
  (parse_mono f).2.2 g cs acc x hfg h

theorem parseVal_det {f g : Nat} {cs x y} (h1 : parseVal f cs = some x)
    (h2 : parseVal g cs = some y) : x = y := by
  have m1 := parseVal_mono (Nat.le_max_left f g) h1
  have m2 := parseVal_mono (Nat.le_max_right f g) h2
  exact Option.some.inj (m1.symm.trans m2)

theorem parseElems_det {f g : Nat} {cs acc x y}
    (h1 : parseElems f cs acc = some x) (h2 : parseElems g cs acc = some y) :
    x = y := by
  have m1 := parseElems_mono (Nat.le_max_left f g) h1
  have m2 := parseElems_mono (Nat.le_max_right f g) h2
  exact Option.some.inj (m1.symm.trans m2)

theorem parseFields_det {f g : Nat} {cs acc x y}
    (h1 : parseFields f cs acc = some x) (h2 : parseFields g cs acc = some y) :
    x = y := by
  have m1 := parseFields_mono (Nat.le_max_left f g) h1
  have m2 := parseFields_mono (Nat.le_max_right f g) h2
  exact Option.some.inj (m1.symm.trans m2)

/-! ### String-body localization: the consumed span re-parses in front of
any other suffix, with any sufficient fuel -/

theorem append_cancel_len {α : Type} {a b r : List α} (h : a ++ r = b ++ r) :
    a.length = b.length := by
  have := congrArg List.length h
  simp only [List.length_append] at this
  omega

theorem parseStrLow_loc {recur recur2 : List Char → Option (List Char × List Char)}
    {n : Nat} {bb r r2 s : List Char}
    (hsuf : ∀ cs s2 rest, recur cs = some (s2, rest) → ∃ pre, cs = pre ++ rest)
    (hrec : ∀ b2 s2, b2.length ≤ bb.length → recur (b2 ++ r) = some (s2, r) →
      recur2 (b2 ++ r2) = some (s2, r2))
    (h : parseStrLow recur n (bb ++ r) = some (s, r)) :
    parseStrLow recur2 n (bb ++ r2) = some (s, r2) := by
  have hsufL : ∀ cs s2 rest, recur cs = some (s2, rest) →
      ∃ pre, cs = pre ++ rest := hsuf
  obtain ⟨pre, hlen, heq⟩ := parseStrLow_suffix hsufL n _ s r h
  have hbb : bb.length = pre.length := append_cancel_len heq
  match bb, hbb with
  | b1 :: b2 :: b3 :: b4 :: b5 :: b6 :: bb7, _ =>
    simp only [List.cons_append] at h ⊢
    simp only [parseStrLow] at h ⊢
    by_cases hu : (b1 = '\\' && b2 = 'u') = true
    · rw [if_pos hu] at h ⊢
      match hhex : parseHex4 b3 b4 b5 b6 with
      | none => simp only [hhex] at h; simp at h
      | some m =>
        simp only [hhex] at h ⊢
        by_cases hm : (0xDC00 ≤ m && m < 0xE000) = true
        · rw [if_pos hm] at h ⊢
          obtain ⟨b0, hb, hs⟩ := map_cons_eq_some h
          rw [hrec bb7 b0 (by simp only [List.length_cons]; omega) hb]
          simp [hs]
        · rw [if_neg hm] at h
          simp at h
    · rw [if_neg hu] at h
      simp at h
  | [], hl => rw [← hl] at hlen; simp at hlen
  | [x1], hl => rw [← hl] at hlen; simp at hlen
  | [x1, x2], hl => rw [← hl] at hlen; simp at hlen
  | [x1, x2, x3], hl => rw [← hl] at hlen; simp at hlen
  | [x1, x2, x3, x4], hl => rw [← hl] at hlen; simp at hlen
  | [x1, x2, x3, x4, x5], hl => rw [← hl] at hlen; simp at hlen

theorem parseStrU_loc {recur recur2 : List Char → Option (List Char × List Char)}
    {bb r r2 s : List Char}
    (hsuf : ∀ cs s2 rest, recur cs = some (s2, rest) → ∃ pre, cs = pre ++ rest)
    (hrec : ∀ b2 s2, b2.length ≤ bb.length → recur (b2 ++ r) = some (s2, r) →
      recur2 (b2 ++ r2) = some (s2, r2))
    (h : parseStrU recur (bb ++ r) = some (s, r)) :
    parseStrU recur2 (bb ++ r2) = some (s, r2) := by
  obtain ⟨pre, hlen, heq⟩ := parseStrU_suffix hsuf _ s r h
  have hbb : bb.length = pre.length := append_cancel_len heq
  match bb, hbb with
  | a :: b :: c2 :: d :: bb2, _ =>
    simp only [List.cons_append] at h ⊢
    simp only [parseStrU] at h ⊢
    match hhex : parseHex4 a b c2 d with
    | none => simp only [hhex] at h; simp at h
    | some n =>
      simp only [hhex] at h ⊢
      by_cases hn1 : (n < 0xD800 || 0xE000 ≤ n) = true
      · rw [if_pos hn1] at h ⊢
        obtain ⟨b0, hb, hs⟩ := map_cons_eq_some h
        rw [hrec bb2 b0 (by simp only [List.length_cons]; omega) hb]
        simp [hs]
      · rw [if_neg hn1] at h ⊢
        by_cases hn2 : n < 0xDC00
        · rw [if_pos hn2] at h ⊢
          exact parseStrLow_loc hsuf
            (fun b2 s2 hl hr =>
              hrec b2 s2 (by simp only [List.length_cons] at hl ⊢; omega) hr) h
        · rw [if_neg hn2] at h
          simp at h
  | [], hl => rw [← hl] at hlen; simp at hlen
  | [x1], hl => rw [← hl] at hlen; simp at hlen
  | [x1, x2], hl => rw [← hl] at hlen; simp at hlen
  | [x1, x2, x3], hl => rw [← hl] at hlen; simp at hlen

theorem parseStrEsc_loc {recur recur2 : List Char → Option (List Char × List Char)}
    {e : Char} {bb r r2 s : List Char}
    (hsuf : ∀ cs s2 rest, recur cs = some (s2, rest) → ∃ pre, cs = pre ++ rest)
    (hrec : ∀ b2 s2, b2.length ≤ bb.length → recur (b2 ++ r) = some (s2, r) →
      recur2 (b2 ++ r2) = some (s2, r2))
    (h : parseStrEsc recur e (bb ++ r) = some (s, r)) :
    parseStrEsc recur2 e (bb ++ r2) = some (s, r2) := by
  have hmap : ∀ (w : Char),
      (recur (bb ++ r)).map (fun p => (w :: p.1, p.2)) = some (s, r) →
      (recur2 (bb ++ r2)).map (fun p => (w :: p.1, p.2)) = some (s, r2) := by
    intro w hm
    obtain ⟨b0, hb, hs⟩ := map_cons_eq_some hm
    rw [hrec bb b0 (Nat.le_refl _) hb]
    simp [hs]
  unfold parseStrEsc at h ⊢
  by_cases h1 : e = '"'
  · rw [if_pos h1] at h ⊢; exact hmap _ h
  · rw [if_neg h1] at h ⊢
    by_cases h2 : e = '\\'
    · rw [if_pos h2] at h ⊢; exact hmap _ h
    · rw [if_neg h2] at h ⊢
      by_cases h3 : e = '/'
      · rw [if_pos h3] at h ⊢; exact hmap _ h
      · rw [if_neg h3] at h ⊢
        by_cases h4 : e = 'b'
        · rw [if_pos h4] at h ⊢; exact hmap _ h
        · rw [if_neg h4] at h ⊢
          by_cases h5 : e = 'f'
          · rw [if_pos h5] at h ⊢; exact hmap _ h
          · rw [if_neg h5] at h ⊢
            by_cases h6 : e = 'n'
            · rw [if_pos h6] at h ⊢; exact hmap _ h
            · rw [if_neg h6] at h ⊢
              by_cases h7 : e = 'r'
              · rw [if_pos h7] at h ⊢; exact hmap _ h
              · rw [if_neg h7] at h ⊢
                by_cases h8 : e = 't'
                · rw [if_pos h8] at h ⊢; exact hmap _ h
                · rw [if_neg h8] at h ⊢
                  by_cases h9 : e = 'u'
                  · rw [if_pos h9] at h ⊢
                    exact parseStrU_loc hsuf hrec h
                  · rw [if_neg h9] at h
                    simp at h

theorem parseStrBody_loc : ∀ (f : Nat) (b s r r2 : List Char) (g : Nat),
    parseStrBody f (b ++ r) = some (s, r) → b.length ≤ g →
    parseStrBody g (b ++ r2) = some (s, r2) := by
  intro f
  induction f with
  | zero => intro b s r r2 g h; simp [parseStrBody] at h
  | succ f ih =>
    intro b s r r2 g h hg
    match b with
    | [] =>
      obtain ⟨pre, hpre, heq⟩ := parseStrBody_suffix _ _ _ _ h
      have : pre.length = 0 := by
        have := congrArg List.length heq
        simp only [List.length_append, List.nil_append] at this
        omega
      exact absurd (List.eq_nil_of_length_eq_zero this) hpre
    | c :: b1 =>
      have hg1 : 1 ≤ g := by
        simp only [List.length_cons] at hg
        omega
      match g, hg1 with
      | g + 1, _ =>
        simp only [List.cons_append, List.append_eq, parseStrBody] at h ⊢
        by_cases h1 : c = '"'
        · rw [if_pos h1] at h ⊢
          simp only [Option.some.injEq, Prod.mk.injEq] at h
          have hb1 : b1 = [] := by
            have := congrArg List.length h.2
            simp only [List.length_append] at this
            exact List.eq_nil_of_length_eq_zero (by omega)
          subst hb1
          simp [← h.1]
        · rw [if_neg h1] at h ⊢
          by_cases h2 : c = '\\'
          · rw [if_pos h2] at h ⊢
            match b1 with
            | [] =>
              simp only [List.nil_append] at h ⊢
              match r with
              | [] => simp at h
              | e :: rr =>
                have hsuf : ∀ cs s2 rest, parseStrBody f cs = some (s2, rest) →
                    ∃ pre, cs = pre ++ rest :=
                  fun cs s2 rest hh =>
                    (parseStrBody_suffix _ _ _ _ hh).imp (fun p hp => hp.2)
                obtain ⟨pre, heq⟩ := parseStrEsc_suffix hsuf e rr s _ h
                have := congrArg List.length heq
                simp only [List.length_append, List.length_cons] at this
                omega
            | e :: b2 =>
              simp only [List.cons_append] at h ⊢
              have hb2 : ∀ b3 s3, b3.length ≤ b2.length →
                  parseStrBody f (b3 ++ r) = some (s3, r) →
                  parseStrBody g (b3 ++ r2) = some (s3, r2) := by
                intro b3 s3 hl hr
                apply ih b3 s3 r r2 g hr
                simp only [List.length_cons] at hg hl
                omega
              exact parseStrEsc_loc
                (fun cs s2 rest hh =>
                  (parseStrBody_suffix _ _ _ _ hh).imp (fun p hp => hp.2))
                hb2 h
          · rw [if_neg h2] at h ⊢
            by_cases h3 : c.toNat < 0x20
            · rw [if_pos h3] at h
              simp at h
            · rw [if_neg h3] at h ⊢
              obtain ⟨b0, hb, hs⟩ := map_cons_eq_some h
              rw [ih b1 b0 r r2 g hb (by simp only [List.length_cons] at hg; omega)]
              simp [hs]

/-! ### Parser localization: a consumed span re-parses, with any
sufficient fuel, in front of any suffix that cannot extend a token -/

theorem append_cancel_suffix {α : Type} {a b r : List α}
    (h : a ++ r = b ++ r) : a = b :=
  (List.append_inj h (append_cancel_len h)).1

theorem dropWhile_head_false {p : Char → Bool} :
    ∀ {l z : List Char} {c : Char}, l.dropWhile p = c :: z → p c = false := by
  intro l
  induction l with
  | nil => intro z c h; simp at h
  | cons a l2 ih =>
    intro z c h
    rw [List.dropWhile_cons] at h
    by_cases ha : p a = true
    · rw [if_pos ha] at h
      exact ih h
    · rw [if_neg ha] at h
      obtain ⟨h1, _⟩ := List.cons.injEq _ _ _ _ ▸ h
      rw [← h1]
      exact Bool.not_eq_true _ ▸ ha

theorem skipWs_head_not_ws {l z : List Char} {c : Char}
    (h : skipWs l = c :: z) : isWsChar c = false :=
  dropWhile_head_false h

theorem dropWhile_append_eq_suffix {p : Char → Bool} :
    ∀ {x rest : List Char}, (x ++ rest).dropWhile p = rest →
      ∀ c ∈ x, p c = true := by
  intro x
  induction x with
  | nil => intro rest _ c hc; simp at hc
  | cons d x1 ih =>
    intro rest h c hc
    rw [List.cons_append, List.dropWhile_cons] at h
    by_cases hd : p d = true
    · rw [if_pos hd] at h
      rcases List.mem_cons.mp hc with hce | hce
      · exact hce ▸ hd
      · exact ih h c hce
    · rw [if_neg hd] at h
      have := congrArg List.length h
      simp only [List.length_cons, List.length_append] at this
      omega

theorem skipWs_ws_append {w z : List Char} {c1 : Char}
    (hw : ∀ c ∈ w, isWsChar c = true) (hc : isWsChar c1 = false) :
    skipWs (w ++ c1 :: z) = c1 :: z := by
  induction w with
  | nil => exact skipWs_cons_not_ws hc z
  | cons d w2 ih =>
    have hd := hw d (List.mem_cons_self d w2)
    rw [List.cons_append]
    show List.dropWhile isWsChar (d :: (w2 ++ c1 :: z)) = c1 :: z
    rw [List.dropWhile_cons, if_pos hd]
    exact ih (fun c hc2 => hw c (List.mem_cons_of_mem d hc2))

theorem boundaryOk_ws_cons {w z : List Char} {c1 : Char}
    (hw : ∀ c ∈ w, isWsChar c = true) (hc : isNumChar c1 = false) :
    boundaryOk (w ++ c1 :: z) = true := by
  match w with
  | [] => simp [boundaryOk, hc]
  | d :: w2 =>
    have hd := hw d (List.mem_cons_self d w2)
    simp [boundaryOk, wsChar_not_num hd]

theorem skipWs_decomp {r z : List Char} (h : skipWs r = z) :
    ∃ w, r = w ++ z ∧ ∀ x ∈ w, isWsChar x = true := by
  refine ⟨r.takeWhile isWsChar, ?_, (skipWs_split r).2⟩
  conv_lhs => rw [(skipWs_split r).1]
  rw [h]

theorem parse_loc : ∀ f : Nat,
    (∀ a rest t, parseVal f (a ++ rest) = some (t, rest) →
      ∀ rest2 g, boundaryOk rest2 = true → 2 * a.length ≤ g →
        parseVal g (a ++ rest2) = some (t, rest2)) ∧
    (∀ a rest acc t, parseElems f (a ++ rest) acc = some (t, rest) →
      ∀ rest2 g, boundaryOk rest2 = true → 2 * a.length + 1 ≤ g →
        parseElems g (a ++ rest2) acc = some (t, rest2)) ∧
    (∀ a rest acc t, parseFields f (a ++ rest) acc = some (t, rest) →
      ∀ rest2 g, boundaryOk rest2 = true → 2 * a.length + 1 ≤ g →
        parseFields g (a ++ rest2) acc = some (t, rest2)) := by
  intro f
  induction f with
  | zero =>
    refine ⟨?_, ?_, ?_⟩ <;>
      (intro a rest; intros; simp [parseVal, parseElems, parseFields] at *)
  | succ f ih =>
    refine ⟨?_, ?_, ?_⟩
    · -- parseVal
      intro a rest t h rest2 g hb hg
      obtain ⟨pre, hpre, heqp⟩ := parseVal_suffix h
      have ha : a = pre := append_cancel_suffix heqp
      subst ha
      match a, hpre with
      | c :: a1, _ =>
        have hg1 : 1 ≤ g := by simp only [List.length_cons] at hg; omega
        match g, hg1 with
        | g + 1, _ =>
          simp only [List.cons_append, parseVal] at h ⊢
          by_cases h1 : c = 'n'
          · rw [if_pos h1] at h ⊢
            split at h
            · rename_i heqm
              simp only [Option.some.injEq, Prod.mk.injEq] at h
              rw [← h.2] at heqm
              have ha1 : a1 = ['u', 'l', 'l'] := append_cancel_suffix heqm
              subst ha1
              show some (JValue.null, rest2) = some (t, rest2)
              rw [← h.1]
            · simp at h
          · rw [if_neg h1] at h ⊢
            by_cases h2 : c = 't'
            · rw [if_pos h2] at h ⊢
              split at h
              · rename_i heqm
                simp only [Option.some.injEq, Prod.mk.injEq] at h
                rw [← h.2] at heqm
                have ha1 : a1 = ['r', 'u', 'e'] := append_cancel_suffix heqm
                subst ha1
                show some (JValue.bool true, rest2) = some (t, rest2)
                rw [← h.1]
              · simp at h
            · rw [if_neg h2] at h ⊢
              by_cases h3 : c = 'f'
              · rw [if_pos h3] at h ⊢
                split at h
                · rename_i heqm
                  simp only [Option.some.injEq, Prod.mk.injEq] at h
                  rw [← h.2] at heqm
                  have ha1 : a1 = ['a', 'l', 's', 'e'] := append_cancel_suffix heqm
                  subst ha1
                  show some (JValue.bool false, rest2) = some (t, rest2)
                  rw [← h.1]
                · simp at h
              · rw [if_neg h3] at h ⊢
                by_cases h4 : c = '"'
                · rw [if_pos h4] at h ⊢
                  match hsb : parseStrBody ((a1 ++ rest).length + 1) (a1 ++ rest) with
                  | none => simp only [hsb] at h; simp at h
                  | some (s, r) =>
                    simp only [hsb] at h
                    simp only [Option.some.injEq, Prod.mk.injEq] at h
                    rw [h.2] at hsb
                    have hloc := parseStrBody_loc _ a1 s rest rest2
                      ((a1 ++ rest2).length + 1) hsb
                      (by simp only [List.length_append]; omega)
                    simp only [hloc]
                    rw [← h.1]
                · rw [if_neg h4] at h ⊢
                  by_cases h5 : c = '['
                  · rw [if_pos h5] at h ⊢
                    match hsw : skipWs (a1 ++ rest) with
                    | [] => simp only [hsw] at h; simp at h
                    | c1 :: cs1f =>
                      simp only [hsw] at h
                      match hsa : skipWs a1 with
                      | [] =>
                        -- the whole of a1 is whitespace: impossible, the
                        -- bracket body would have to come out of rest
                        exfalso
                        have hall : ∀ c ∈ a1, isWsChar c = true :=
                          skipWs_nil_all_ws hsa
                        have hsw2 : skipWs (a1 ++ rest) = skipWs rest :=
                          List.dropWhile_append_of_pos hall
                        rw [hsw2] at hsw
                        have hlen1 : cs1f.length + 1 ≤ rest.length := by
                          have := congrArg List.length hsw
                          have h2 : (List.dropWhile isWsChar rest).length ≤
                              rest.length :=
                            (List.dropWhile_sublist isWsChar).length_le
                          simp only [skipWs] at this
                          simp only [List.length_cons] at this
                          omega
                        by_cases h6 : c1 = ']'
                        · rw [if_pos h6] at h
                          simp only [Option.some.injEq, Prod.mk.injEq] at h
                          rw [h.2] at hlen1
                          omega
                        · rw [if_neg h6] at h
                          obtain ⟨pe, hpe, heqe⟩ := parseElems_suffix h
                          have := congrArg List.length heqe
                          simp only [List.length_cons, List.length_append] at this
                          have hpel : 1 ≤ pe.length :=
                            List.length_pos.mpr hpe
                          omega
                      | d :: ds =>
                        obtain ⟨w, ha1, hw⟩ :
                            ∃ w, a1 = w ++ (d :: ds) ∧
                              ∀ c ∈ w, isWsChar c = true := by
                          refine ⟨a1.takeWhile isWsChar, ?_, (skipWs_split a1).2⟩
                          conv_lhs => rw [(skipWs_split a1).1]
                          rw [hsa]
                        have hdws : isWsChar d = false := skipWs_head_not_ws hsa
                        have hswa : skipWs (a1 ++ rest) = d :: (ds ++ rest) := by
                          rw [ha1]
                          simp only [List.append_assoc, List.cons_append]
                          exact skipWs_ws_append hw hdws
                        rw [hswa] at hsw
                        injection hsw with hc1 hrest1
                        rw [← hc1, ← hrest1] at h
                        by_cases h6 : d = ']'
                        · rw [if_pos h6] at h
                          simp only [Option.some.injEq, Prod.mk.injEq] at h
                          have hds : ds = [] := by
                            have := congrArg List.length h.2
                            simp only [List.length_append] at this
                            exact List.eq_nil_of_length_eq_zero (by omega)
                          subst hds
                          rw [ha1]
                          simp only [List.append_assoc, List.cons_append,
                            List.nil_append]
                          simp only [skipWs_ws_append hw hdws]
                          rw [if_pos h6, ← h.1]
                        · rw [if_neg h6] at h
                          have h8 : parseElems f ((d :: ds) ++ rest) [] =
                              some (t, rest) := by
                            simpa using h
                          have h9 := ih.2.1 _ _ _ _ h8 rest2 g hb
                            (by
                              have := congrArg List.length ha1
                              simp only [List.length_cons,
                                List.length_append] at this hg ⊢
                              omega)
                          rw [ha1]
                          simp only [List.append_assoc, List.cons_append]
                          simp only [skipWs_ws_append hw hdws]
                          rw [if_neg h6]
                          simpa using h9
                  · rw [if_neg h5] at h ⊢
                    by_cases h7 : c = '{'
                    · rw [if_pos h7] at h ⊢
                      match hsw : skipWs (a1 ++ rest) with
                      | [] => simp only [hsw] at h; simp at h
                      | c1 :: cs1f =>
                        simp only [hsw] at h
                        match hsa : skipWs a1 with
                        | [] =>
                          exfalso
                          have hall : ∀ c ∈ a1, isWsChar c = true :=
                            skipWs_nil_all_ws hsa
                          have hsw2 : skipWs (a1 ++ rest) = skipWs rest :=
                            List.dropWhile_append_of_pos hall
                          rw [hsw2] at hsw
                          have hlen1 : cs1f.length + 1 ≤ rest.length := by
                            have := congrArg List.length hsw
                            have h2 : (List.dropWhile isWsChar rest).length ≤
                              rest.length :=
                            (List.dropWhile_sublist isWsChar).length_le
                            simp only [skipWs] at this
                            simp only [List.length_cons] at this
                            omega
                          by_cases h6 : c1 = '}'
                          · rw [if_pos h6] at h
                            simp only [Option.some.injEq, Prod.mk.injEq] at h
                            rw [h.2] at hlen1
                            omega
                          · rw [if_neg h6] at h
                            obtain ⟨pe, hpe, heqe⟩ := parseFields_suffix h
                            have := congrArg List.length heqe
                            simp only [List.length_cons, List.length_append] at this
                            have hpel : 1 ≤ pe.length :=
                              List.length_pos.mpr hpe
                            omega
                        | d :: ds =>
                          obtain ⟨w, ha1, hw⟩ :
                              ∃ w, a1 = w ++ (d :: ds) ∧
                                ∀ c ∈ w, isWsChar c = true := by
                            refine ⟨a1.takeWhile isWsChar, ?_, (skipWs_split a1).2⟩
                            conv_lhs => rw [(skipWs_split a1).1]
                            rw [hsa]
                          have hdws : isWsChar d = false := skipWs_head_not_ws hsa
                          have hswa : skipWs (a1 ++ rest) = d :: (ds ++ rest) := by
                            rw [ha1]
                            simp only [List.append_assoc, List.cons_append]
                            exact skipWs_ws_append hw hdws
                          rw [hswa] at hsw
                          injection hsw with hc1 hrest1
                          rw [← hc1, ← hrest1] at h
                          by_cases h6 : d = '}'
                          · rw [if_pos h6] at h
                            simp only [Option.some.injEq, Prod.mk.injEq] at h
                            have hds : ds = [] := by
                              have := congrArg List.length h.2
                              simp only [List.length_append] at this
                              exact List.eq_nil_of_length_eq_zero (by omega)
                            subst hds
                            rw [ha1]
                            simp only [List.append_assoc, List.cons_append,
                              List.nil_append]
                            simp only [skipWs_ws_append hw hdws]
                            rw [if_pos h6, ← h.1]
                          · rw [if_neg h6] at h
                            have h8 : parseFields f ((d :: ds) ++ rest) [] =
                                some (t, rest) := by
                              simpa using h
                            have h9 := ih.2.2 _ _ _ _ h8 rest2 g hb
                              (by
                                have := congrArg List.length ha1
                                simp only [List.length_cons,
                                  List.length_append] at this hg ⊢
                                omega)
                            rw [ha1]
                            simp only [List.append_assoc, List.cons_append]
                            simp only [skipWs_ws_append hw hdws]
                            rw [if_neg h6]
                            simpa using h9
                    · rw [if_neg h7] at h ⊢
                      by_cases h9 : (isDigitChar c || c = '-') = true
                      · rw [if_pos h9] at h ⊢
                        by_cases h10 :
                            validNumLit ((c :: (a1 ++ rest)).takeWhile isNumChar)
                              = true
                        · rw [if_pos h10] at h
                          simp only [Option.some.injEq, Prod.mk.injEq] at h
                          have hdrop2 : ((c :: a1) ++ rest).dropWhile isNumChar
                              = rest := by
                            simpa using h.2
                          have hall : ∀ x ∈ c :: a1, isNumChar x = true :=
                            dropWhile_append_eq_suffix hdrop2
                          have hbrest : boundaryOk rest = true := by
                            match hr2 : rest with
                            | [] => rfl
                            | c2 :: z =>
                              simp [boundaryOk, dropWhile_head_false hdrop2]
                          have horig := takeWhile_append_all hall hbrest rfl
                          have hnew := takeWhile_append_all hall hb rfl
                          rw [← List.cons_append, horig.1] at h10
                          have ht : JValue.num ⟨c :: a1⟩ = t := by
                            have := h.1
                            rw [← List.cons_append, horig.1] at this
                            exact this
                          rw [← List.cons_append, hnew.1, hnew.2, if_pos h10,
                            ← ht]
                        · rw [if_neg h10] at h
                          simp at h
                      · rw [if_neg h9] at h
                        simp at h
    · -- parseElems
      intro a rest acc t h rest2 g hb hg
      have hg1 : 1 ≤ g := by omega
      match g, hg1 with
      | g + 1, _ =>
        simp only [parseElems] at h ⊢
        match hpv : parseVal f (a ++ rest) with
        | none => simp only [hpv] at h; simp at h
        | some (v, r) =>
          simp only [hpv] at h
          obtain ⟨av, havne, heqa⟩ := parseVal_suffix hpv
          rw [heqa] at hpv
          match hsw : skipWs r with
          | [] => simp only [hsw] at h; simp at h
          | c1 :: rr2 =>
            simp only [hsw] at h
            obtain ⟨w1, hr, hw1⟩ := skipWs_decomp hsw
            by_cases h1 : c1 = ','
            · rw [if_pos h1] at h
              have hc1w : isWsChar c1 = false := by rw [h1]; rfl
              have hc1n : isNumChar c1 = false := by rw [h1]; rfl
              obtain ⟨b, hbne, hsw2⟩ := parseElems_suffix h
              obtain ⟨w2, hrr2, hw2⟩ := skipWs_decomp hsw2
              match b, hbne with
              | b0 :: b1, _ =>
                have hb0 : isWsChar b0 = false :=
                  skipWs_head_not_ws (by simpa using hsw2)
                have hchain : a ++ rest =
                    (av ++ (w1 ++ c1 :: (w2 ++ (b0 :: b1)))) ++ rest := by
                  rw [heqa, hr, hrr2]
                  simp only [List.append_assoc, List.cons_append]
                have ha2 : a = av ++ (w1 ++ c1 :: (w2 ++ (b0 :: b1))) :=
                  append_cancel_suffix hchain
                subst ha2
                have hpv2 := ih.1 av r v hpv
                  (w1 ++ c1 :: (w2 ++ (b0 :: (b1 ++ rest2)))) g
                  (boundaryOk_ws_cons hw1 hc1n)
                  (by simp only [List.length_append, List.length_cons] at hg ⊢
                      omega)
                simp only [List.append_assoc, List.cons_append]
                simp only [hpv2]
                simp only [skipWs_ws_append hw1 hc1w]
                rw [if_pos h1]
                simp only [skipWs_ws_append hw2 hb0]
                rw [hsw2] at h
                have h9 := ih.2.1 (b0 :: b1) rest (v :: acc) t h rest2 g hb
                  (by simp only [List.length_append, List.length_cons] at hg ⊢
                      omega)
                simpa using h9
            · rw [if_neg h1] at h
              by_cases h2 : c1 = ']'
              · rw [if_pos h2] at h
                have hc1w : isWsChar c1 = false := by rw [h2]; rfl
                have hc1n : isNumChar c1 = false := by rw [h2]; rfl
                simp only [Option.some.injEq, Prod.mk.injEq] at h
                rw [h.2] at hr
                have hchain : a ++ rest = (av ++ (w1 ++ [c1])) ++ rest := by
                  rw [heqa, hr]
                  simp only [List.append_assoc, List.cons_append,
                    List.singleton_append, List.nil_append]
                have ha2 : a = av ++ (w1 ++ [c1]) :=
                  append_cancel_suffix hchain
                subst ha2
                have hpv2 := ih.1 av r v hpv (w1 ++ c1 :: rest2) g
                  (boundaryOk_ws_cons hw1 hc1n)
                  (by simp only [List.length_append, List.length_cons] at hg ⊢
                      omega)
                simp only [List.append_assoc, List.cons_append,
                  List.singleton_append, List.nil_append]
                simp only [hpv2]
                simp only [skipWs_ws_append hw1 hc1w]
                rw [if_neg h1, if_pos h2, ← h.1]
              · rw [if_neg h2] at h
                simp at h
    · -- parseFields
      intro a rest acc t h rest2 g hb hg
      have hg1 : 1 ≤ g := by omega
      match g, hg1 with
      | g + 1, _ =>
        obtain ⟨pre0, hpre0, heq0⟩ := parseFields_suffix h
        match a with
        | [] =>
          exact absurd (append_cancel_suffix heq0).symm hpre0
        | c0 :: a1 =>
          simp only [List.cons_append, parseFields] at h ⊢
          by_cases h0 : c0 = '"'
          · rw [if_pos h0] at h ⊢
            match hsb : parseStrBody ((a1 ++ rest).length + 1) (a1 ++ rest) with
            | none => simp only [hsb] at h; simp at h
            | some (ks, r) =>
              simp only [hsb] at h
              obtain ⟨kp, hkpne, hkp⟩ := parseStrBody_suffix _ _ _ _ hsb
              rw [hkp] at hsb
              match hsw : skipWs r with
              | [] => simp only [hsw] at h; simp at h
              | c1 :: rr2 =>
                simp only [hsw] at h
                obtain ⟨w1, hr, hw1⟩ := skipWs_decomp hsw
                by_cases h1 : c1 = ':'
                · rw [if_pos h1] at h
                  have hc1w : isWsChar c1 = false := by rw [h1]; rfl
                  match hpv : parseVal f (skipWs rr2) with
                  | none => simp only [hpv] at h; simp at h
                  | some (v, r3) =>
                    simp only [hpv] at h
                    obtain ⟨av, havne, hav⟩ := parseVal_suffix hpv
                    rw [hav] at hpv
                    obtain ⟨w2, hrr2, hw2⟩ := skipWs_decomp hav
                    match av, havne with
                    | a0 :: av1, _ =>
                      have ha0 : isWsChar a0 = false :=
                        skipWs_head_not_ws (by simpa using hav)
                      match hsw3 : skipWs r3 with
                      | [] => simp only [hsw3] at h; simp at h
                      | c2 :: r4 =>
                        simp only [hsw3] at h
                        obtain ⟨w3, hr3, hw3⟩ := skipWs_decomp hsw3
                        by_cases h2 : c2 = ','
                        · rw [if_pos h2] at h
                          have hc2w : isWsChar c2 = false := by rw [h2]; rfl
                          have hc2n : isNumChar c2 = false := by rw [h2]; rfl
                          obtain ⟨b, hbne, hsw4⟩ := parseFields_suffix h
                          obtain ⟨w4, hr4, hw4⟩ := skipWs_decomp hsw4
                          match b, hbne with
                          | b0 :: b1, _ =>
                            have hb0 : isWsChar b0 = false :=
                              skipWs_head_not_ws (by simpa using hsw4)
                            have hchain : a1 ++ rest =
                                (kp ++ (w1 ++ c1 :: (w2 ++ ((a0 :: av1) ++
                                  (w3 ++ c2 :: (w4 ++ (b0 :: b1))))))) ++
                                  rest := by
                              rw [hkp, hr, hrr2, hr3, hr4]
                              simp only [List.append_assoc, List.cons_append]
                            have ha2 : a1 = kp ++ (w1 ++ c1 :: (w2 ++
                                ((a0 :: av1) ++ (w3 ++ c2 :: (w4 ++
                                  (b0 :: b1)))))) :=
                              append_cancel_suffix hchain
                            subst ha2
                            have hsb2 := parseStrBody_loc _ kp ks r
                              (w1 ++ c1 :: (w2 ++ ((a0 :: av1) ++ (w3 ++
                                c2 :: (w4 ++ (b0 :: (b1 ++ rest2)))))))
                              (((kp ++ (w1 ++ c1 :: (w2 ++ ((a0 :: av1) ++
                                (w3 ++ c2 :: (w4 ++ (b0 :: b1))))))) ++
                                rest2).length + 1) hsb
                              (by simp only [List.length_append,
                                    List.length_cons]
                                  omega)
                            simp only [List.append_assoc, List.cons_append]
                              at hsb2 ⊢
                            simp only [hsb2]
                            simp only [skipWs_ws_append hw1 hc1w]
                            rw [if_pos h1]
                            simp only [skipWs_ws_append hw2 ha0]
                            have hpv2 := ih.1 (a0 :: av1) r3 v hpv
                              (w3 ++ c2 :: (w4 ++ (b0 :: (b1 ++ rest2)))) g
                              (boundaryOk_ws_cons hw3 hc2n)
                              (by simp only [List.length_append,
                                    List.length_cons] at hg ⊢
                                  omega)
                            simp only [List.cons_append, List.append_assoc]
                              at hpv2
                            simp only [hpv2]
                            simp only [skipWs_ws_append hw3 hc2w]
                            rw [if_pos h2]
                            simp only [skipWs_ws_append hw4 hb0]
                            rw [hsw4] at h
                            have h9 := ih.2.2 (b0 :: b1) rest _ t h rest2 g hb
                              (by simp only [List.length_append,
                                    List.length_cons] at hg ⊢
                                  omega)
                            simpa using h9
                        · rw [if_neg h2] at h
                          by_cases h3 : c2 = '}'
                          · rw [if_pos h3] at h
                            have hc2w : isWsChar c2 = false := by rw [h3]; rfl
                            have hc2n : isNumChar c2 = false := by rw [h3]; rfl
                            simp only [Option.some.injEq, Prod.mk.injEq] at h
                            rw [h.2] at hr3
                            have hchain : a1 ++ rest =
                                (kp ++ (w1 ++ c1 :: (w2 ++ ((a0 :: av1) ++
                                  (w3 ++ [c2]))))) ++ rest := by
                              rw [hkp, hr, hrr2, hr3]
                              simp only [List.append_assoc, List.cons_append,
                                List.singleton_append, List.nil_append]
                            have ha2 : a1 = kp ++ (w1 ++ c1 :: (w2 ++
                                ((a0 :: av1) ++ (w3 ++ [c2])))) :=
                              append_cancel_suffix hchain
                            subst ha2
                            have hsb2 := parseStrBody_loc _ kp ks r
                              (w1 ++ c1 :: (w2 ++ ((a0 :: av1) ++ (w3 ++
                                c2 :: rest2))))
                              (((kp ++ (w1 ++ c1 :: (w2 ++ ((a0 :: av1) ++
                                (w3 ++ [c2]))))) ++ rest2).length + 1) hsb
                              (by simp only [List.length_append,
                                    List.length_cons]
                                  omega)
                            simp only [List.append_assoc, List.cons_append,
                              List.singleton_append, List.nil_append] at hsb2 ⊢
                            simp only [hsb2]
                            simp only [skipWs_ws_append hw1 hc1w]
                            rw [if_pos h1]
                            simp only [skipWs_ws_append hw2 ha0]
                            have hpv2 := ih.1 (a0 :: av1) r3 v hpv
                              (w3 ++ c2 :: rest2) g
                              (boundaryOk_ws_cons hw3 hc2n)
                              (by simp only [List.length_append,
                                    List.length_cons] at hg ⊢
                                  omega)
                            simp only [List.cons_append, List.append_assoc]
                              at hpv2
                            simp only [hpv2]
                            simp only [skipWs_ws_append hw3 hc2w]
                            rw [if_neg h2, if_pos h3, ← h.1]
                          · rw [if_neg h3] at h
                            simp at h
                · rw [if_neg h1] at h
                  simp at h
          · rw [if_neg h0] at h
            simp at h

/-! ### Localization corollaries and member extraction -/

theorem parseVal_loc {f : Nat} {a rest t : _} {rest2 : List Char} {g : Nat}
    (h : parseVal f (a ++ rest) = some (t, rest))
    (hb : boundaryOk rest2 = true) (hg : 2 * a.length ≤ g) :
    parseVal g (a ++ rest2) = some (t, rest2) :=
  (parse_loc f).1 a rest t h rest2 g hb hg

theorem parseVal_suff {f : Nat} {cs t rest} {g : Nat}
    (h : parseVal f cs = some (t, rest)) (hb : boundaryOk rest = true)
    (hg : 2 * (cs.length - rest.length) ≤ g) :
    parseVal g cs = some (t, rest) := by
  obtain ⟨pre, hpre, heq⟩ := parseVal_suffix h
  rw [heq] at h ⊢
  have hl : pre.length = cs.length - rest.length := by
    have := congrArg List.length heq
    simp only [List.length_append] at this
    omega
  exact (parse_loc f).1 pre rest t h rest g hb (by omega)

theorem parseElems_suff {f : Nat} {cs acc t rest} {g : Nat}
    (h : parseElems f cs acc = some (t, rest)) (hb : boundaryOk rest = true)
    (hg : 2 * (cs.length - rest.length) + 1 ≤ g) :
    parseElems g cs acc = some (t, rest) := by
  obtain ⟨pre, hpre, heq⟩ := parseElems_suffix h
  rw [heq] at h ⊢
  have hl : pre.length = cs.length - rest.length := by
    have := congrArg List.length heq
    simp only [List.length_append] at this
    omega
  exact (parse_loc f).2.1 pre rest acc t h rest g hb (by omega)

theorem parseFields_suff {f : Nat} {cs acc t rest} {g : Nat}
    (h : parseFields f cs acc = some (t, rest)) (hb : boundaryOk rest = true)
    (hg : 2 * (cs.length - rest.length) + 1 ≤ g) :
    parseFields g cs acc = some (t, rest) := by
  obtain ⟨pre, hpre, heq⟩ := parseFields_suffix h
  rw [heq] at h ⊢
  have hl : pre.length = cs.length - rest.length := by
    have := congrArg List.length heq
    simp only [List.length_append] at this
    omega
  exact (parse_loc f).2.2 pre rest acc t h rest g hb (by omega)

theorem parseElems_members : ∀ (f : Nat) (cs : List Char)
    (acc : List JValue) (t : JValue) (rest : List Char),
    parseElems f cs acc = some (t, rest) →
    ∃ vs, vs ≠ [] ∧ t = .arr (acc.reverse ++ vs) ∧
      ∀ acc2 g, 2 * (cs.length - rest.length) + 1 ≤ g →
        boundaryOk rest = true →
        parseElems g cs acc2 = some (.arr (acc2.reverse ++ vs), rest) := by
  intro f
  induction f with
  | zero => intro cs acc t rest h; simp [parseElems] at h
  | succ f ih =>
    intro cs acc t rest h
    simp only [parseElems] at h
    match hpv : parseVal f cs with
    | none => simp only [hpv] at h; simp at h
    | some (v, r) =>
      simp only [hpv] at h
      obtain ⟨av, havne, heqa⟩ := parseVal_suffix hpv
      match hsw : skipWs r with
      | [] => simp only [hsw] at h; simp at h
      | c1 :: rr2 =>
        simp only [hsw] at h
        obtain ⟨w1, hr, hw1⟩ := skipWs_decomp hsw
        by_cases h1 : c1 = ','
        · rw [if_pos h1] at h
          obtain ⟨vs', hne', ht', hall'⟩ := ih _ _ _ _ h
          obtain ⟨b, hbne, hsw2⟩ := parseElems_suffix h
          obtain ⟨w2, hrr2, hw2⟩ := skipWs_decomp hsw2
          have hbr : boundaryOk r = true :=
            boundaryOk_of_skipWs hsw (by rw [h1]; rfl)
          have l1 := congrArg List.length heqa
          have l2 := congrArg List.length hr
          have l3 := congrArg List.length hrr2
          have l4 := congrArg List.length hsw2
          have l5 : 1 ≤ av.length := List.length_pos.mpr havne
          have l6 : 1 ≤ b.length := List.length_pos.mpr hbne
          simp only [List.length_append, List.length_cons] at l1 l2 l3 l4
          refine ⟨v :: vs', by simp, ?_, ?_⟩
          · rw [ht']
            simp
          · intro acc2 g hg hbrest
            have hg1 : 1 ≤ g := by omega
            match g, hg1 with
            | g + 1, _ =>
              simp only [parseElems]
              rw [parseVal_suff hpv hbr (by omega)]
              simp only [hsw]
              rw [if_pos h1]
              have h9 := hall' (v :: acc2) g (by omega) hbrest
              simpa using h9
        · rw [if_neg h1] at h
          by_cases h2 : c1 = ']'
          · rw [if_pos h2] at h
            simp only [Option.some.injEq, Prod.mk.injEq] at h
            have hbr : boundaryOk r = true :=
              boundaryOk_of_skipWs hsw (by rw [h2]; rfl)
            have l1 := congrArg List.length heqa
            have l2 := congrArg List.length hr
            have l5 : 1 ≤ av.length := List.length_pos.mpr havne
            simp only [List.length_append, List.length_cons] at l1 l2
            rw [h.2] at l2
            refine ⟨[v], by simp, ?_, ?_⟩
            · rw [← h.1]
              simp
            · intro acc2 g hg hbrest
              have hg1 : 1 ≤ g := by omega
              match g, hg1 with
              | g + 1, _ =>
                simp only [parseElems]
                rw [parseVal_suff hpv hbr (by omega)]
                simp only [hsw]
                rw [if_neg h1, if_pos h2, h.2]
                simp
          · rw [if_neg h2] at h
            simp at h

theorem parseFields_members : ∀ (f : Nat) (cs : List Char)
    (acc : List (String × JValue)) (t : JValue) (rest : List Char),
    parseFields f cs acc = some (t, rest) →
    ∃ ms : List (String × JValue), ms ≠ [] ∧
      t = .obj (ms.foldl (fun a kv => objInsert a kv.1 kv.2) acc) ∧
      ∀ acc2 g, 2 * (cs.length - rest.length) + 1 ≤ g →
        boundaryOk rest = true →
        parseFields g cs acc2 =
          some (.obj (ms.foldl (fun a kv => objInsert a kv.1 kv.2) acc2),
            rest) := by
  intro f
  induction f with
  | zero => intro cs acc t rest h; simp [parseFields] at h
  | succ f ih =>
    intro cs acc t rest h
    match cs with
    | [] => simp [parseFields] at h
    | c0 :: cs1 =>
      simp only [parseFields] at h
      by_cases h0 : c0 = '"'
      · rw [if_pos h0] at h
        match hsb : parseStrBody (cs1.length + 1) cs1 with
        | none => simp only [hsb] at h; simp at h
        | some (ks, r) =>
          simp only [hsb] at h
          obtain ⟨kp, hkpne, hkp⟩ := parseStrBody_suffix _ _ _ _ hsb
          match hsw : skipWs r with
          | [] => simp only [hsw] at h; simp at h
          | c1 :: rr2 =>
            simp only [hsw] at h
            obtain ⟨w1, hr, hw1⟩ := skipWs_decomp hsw
            by_cases h1 : c1 = ':'
            · rw [if_pos h1] at h
              match hpv : parseVal f (skipWs rr2) with
              | none => simp only [hpv] at h; simp at h
              | some (v, r3) =>
                simp only [hpv] at h
                obtain ⟨av, havne, hav⟩ := parseVal_suffix hpv
                obtain ⟨w2, hrr2, hw2⟩ := skipWs_decomp hav
                match hsw3 : skipWs r3 with
                | [] => simp only [hsw3] at h; simp at h
                | c2 :: r4 =>
                  simp only [hsw3] at h
                  obtain ⟨w3, hr3, hw3⟩ := skipWs_decomp hsw3
                  by_cases h2 : c2 = ','
                  · rw [if_pos h2] at h
                    obtain ⟨ms', hne', ht', hall'⟩ := ih _ _ _ _ h
                    obtain ⟨b, hbne, hsw4⟩ := parseFields_suffix h
                    obtain ⟨w4, hr4, hw4⟩ := skipWs_decomp hsw4
                    have hbr3 : boundaryOk r3 = true :=
                      boundaryOk_of_skipWs hsw3 (by rw [h2]; rfl)
                    have l1 := congrArg List.length hkp
                    have l2 := congrArg List.length hr
                    have l3 := congrArg List.length hrr2
                    have l4 := congrArg List.length hr3
                    have l5 := congrArg List.length hr4
                    have l6 := congrArg List.length hav
                    have k1 : 1 ≤ kp.length := List.length_pos.mpr hkpne
                    have k2 : 1 ≤ av.length := List.length_pos.mpr havne
                    have k3 : 1 ≤ b.length := List.length_pos.mpr hbne
                    have k4 := congrArg List.length hsw4
                    simp only [List.length_append, List.length_cons]
                      at l1 l2 l3 l4 l5 l6 k4
                    refine ⟨(⟨ks⟩, v) :: ms', by simp, ?_, ?_⟩
                    · rw [ht']
                      simp
                    · intro acc2 g hg hbrest
                      have hg1 : 1 ≤ g := by
                        simp only [List.length_cons] at hg
                        omega
                      match g, hg1 with
                      | g + 1, _ =>
                        simp only [List.length_cons] at hg
                        simp only [parseFields]
                        rw [if_pos h0]
                        simp only [hsb, hsw]
                        rw [if_pos h1]
                        rw [parseVal_suff hpv hbr3 (by omega)]
                        simp only [hsw3]
                        rw [if_pos h2]
                        have h9 := hall' (objInsert acc2 ⟨ks⟩ v) g
                          (by omega) hbrest
                        simpa using h9
                  · rw [if_neg h2] at h
                    by_cases h3 : c2 = '}'
                    · rw [if_pos h3] at h
                      simp only [Option.some.injEq, Prod.mk.injEq] at h
                      have hbr3 : boundaryOk r3 = true :=
                        boundaryOk_of_skipWs hsw3 (by rw [h3]; rfl)
                      have l1 := congrArg List.length hkp
                      have l2 := congrArg List.length hr
                      have l3 := congrArg List.length hrr2
                      have l4 := congrArg List.length hr3
                      have l6 := congrArg List.length hav
                      have k1 : 1 ≤ kp.length := List.length_pos.mpr hkpne
                      have k2 : 1 ≤ av.length := List.length_pos.mpr havne
                      simp only [List.length_append, List.length_cons]
                        at l1 l2 l3 l4 l6
                      rw [h.2] at l4
                      refine ⟨[(⟨ks⟩, v)], by simp, ?_, ?_⟩
                      · rw [← h.1]
                        simp
                      · intro acc2 g hg hbrest
                        have hg1 : 1 ≤ g := by
                          simp only [List.length_cons] at hg
                          omega
                        match g, hg1 with
                        | g + 1, _ =>
                          simp only [List.length_cons] at hg
                          simp only [parseFields]
                          rw [if_pos h0]
                          simp only [hsb, hsw]
                          rw [if_pos h1]
                          rw [parseVal_suff hpv hbr3 (by omega)]
                          simp only [hsw3]
                          rw [if_neg h2, if_pos h3, h.2]
                          simp
                    · rw [if_neg h3] at h
                      simp at h
            · rw [if_neg h1] at h
              simp at h
      · rw [if_neg h0] at h
        simp at h

/-! ### Lemmas about the tree update -/

theorem objLookup_setKey_self : ∀ (m : List (String × JValue)) (k : String)
    (v u : JValue), objLookup m k = some u →
    objLookup (setKey m k v) k = some v := by
  intro m
  induction m with
  | nil => intro k v u h; simp [objLookup] at h
  | cons hd tl ih =>
    obtain ⟨k0, v0⟩ := hd
    intro k v u h
    simp only [objLookup] at h
    by_cases hk : k0 = k
    · simp [setKey, hk, objLookup]
    · simp only [setKey, if_neg hk, objLookup]
      rw [if_neg hk] at h
      exact ih k v u h

theorem setKey_objInsert_self (acc : List (String × JValue)) (k : String)
    (u v : JValue) : setKey (objInsert acc k u) k v = objInsert acc k v := by
  induction acc with
  | nil => simp [objInsert, setKey]
  | cons hd tl ih =>
    obtain ⟨k0, v0⟩ := hd
    by_cases hk : k0 = k
    · simp [objInsert, setKey, hk]
    · simp [objInsert, setKey, hk, ih]

theorem setKey_objInsert_other (acc : List (String × JValue))
    (k k2 : String) (v2 v : JValue) (h : ¬k2 = k) :
    setKey (objInsert acc k2 v2) k v = objInsert (setKey acc k v) k2 v2 := by
  induction acc with
  | nil => simp [objInsert, setKey, h]
  | cons hd tl ih =>
    obtain ⟨k0, v0⟩ := hd
    by_cases hk2 : k0 = k2
    · subst hk2
      simp [objInsert, setKey, h]
    · have h2 : ¬k = k2 := fun he => h he.symm
      by_cases hk : k0 = k
      · simp [objInsert, setKey, hk2, hk, h2]
      · simp [objInsert, setKey, hk2, hk, ih]

theorem setKey_foldl : ∀ (ms : List (String × JValue))
    (C : List (String × JValue)) (k : String) (v : JValue),
    (∀ kv ∈ ms, ¬kv.1 = k) →
    setKey (ms.foldl (fun a kv => objInsert a kv.1 kv.2) C) k v =
      ms.foldl (fun a kv => objInsert a kv.1 kv.2) (setKey C k v) := by
  intro ms
  induction ms with
  | nil => intro C k v _; rfl
  | cons hd tl ih =>
    intro C k v hnone
    simp only [List.foldl_cons]
    rw [ih _ k v (fun kv hkv => hnone kv (List.mem_cons_of_mem hd hkv))]
    rw [setKey_objInsert_other _ _ _ _ _ (hnone hd (List.mem_cons_self hd tl))]

theorem getAt_setAt : ∀ (P : List JSeg) (t V t2 : JValue),
    setAt t P V = some t2 → getAtPath t2 P = some V := by
  intro P
  induction P with
  | nil =>
    intro t V t2 h
    simp only [setAt, Option.some.injEq] at h
    rw [← h]
    rfl
  | cons seg p ih =>
    intro t V t2 h
    match t, seg with
    | .obj m, .str k =>
      simp only [setAt] at h
      match hlk : objLookup m k with
      | none => simp only [hlk] at h; simp at h
      | some u =>
        simp only [hlk] at h
        match hset : setAt u p V with
        | none => simp only [hset] at h; simp at h
        | some u2 =>
          simp only [hset, Option.some.injEq] at h
          rw [← h]
          simp only [getAtPath, jsIndex, segKey]
          simp only [objLookup_setKey_self m k u2 u hlk]
          exact ih u V u2 hset
    | .arr xs, .num i =>
      simp only [setAt] at h
      by_cases hi : (0:Int) ≤ i
      · rw [if_pos hi] at h
        match hget : xs.get? i.toNat with
        | none => simp only [hget] at h; simp at h
        | some u =>
          simp only [hget] at h
          match hset : setAt u p V with
          | none => simp only [hset] at h; simp at h
          | some u2 =>
            simp only [hset, Option.some.injEq] at h
            rw [← h]
            simp only [getAtPath, jsIndex, natIndexOf]
            rw [if_pos hi]
            have hlt : i.toNat < xs.length := by
              have := List.get?_eq_some.mp hget
              exact this.1
            have hgs : (xs.set i.toNat u2).get? i.toNat = some u2 := by
              rw [List.get?_eq_getElem?]
              exact List.getElem?_set_self (by simpa using hlt)
            simp only [hgs]
            exact ih u V u2 hset
      · rw [if_neg hi] at h
        exact absurd h (by simp)
    | .null, _ => simp [setAt] at h
    | .bool b, _ => simp [setAt] at h
    | .num l, _ => simp [setAt] at h
    | .str s, _ => simp [setAt] at h
    | .obj m, .num i => simp [setAt] at h
    | .arr xs, .str s => simp [setAt] at h

/-! ### Remaining members after a failed key descent: the key is never
bound again, and the member list re-parses over any accumulator -/

theorem objLookup_foldl_not_mem : ∀ (ms : List (String × JValue))
    (C : List (String × JValue)) (k : String),
    (∀ kv ∈ ms, ¬kv.1 = k) →
    objLookup (ms.foldl (fun a kv => objInsert a kv.1 kv.2) C) k =
      objLookup C k := by
  intro ms
  induction ms with
  | nil => intro C k _; rfl
  | cons hd tl ih =>
    intro C k hfree
    simp only [List.foldl_cons]
    rw [ih _ k (fun kv hkv => hfree kv (List.mem_cons_of_mem hd hkv))]
    exact objLookup_objInsert_other C hd.1 k hd.2
      (fun he => hfree hd (List.mem_cons_self hd tl) he.symm)

theorem descendF_none : ∀ (f2 f F : Nat) (cs : List Char)
    (acc : List (String × JValue)) (t : JValue) (rest : List Char)
    (k : String),
    2 * cs.length ≤ F →
    f ≤ f2 →
    parseFields f cs acc = some (t, rest) →
    descendF F f2 cs k = none →
    ∃ ms : List (String × JValue),
      (∀ kv ∈ ms, ¬kv.1 = k) ∧
      t = .obj (ms.foldl (fun a kv => objInsert a kv.1 kv.2) acc) ∧
      ∀ acc2 g, 2 * (cs.length - rest.length) + 1 ≤ g →
        boundaryOk rest = true →
        parseFields g cs acc2 =
          some (.obj (ms.foldl (fun a kv => objInsert a kv.1 kv.2) acc2),
            rest) := by
  intro f2
  induction f2 with
  | zero =>
    intro f F cs acc t rest k hF hf h hd
    match f, hf with
    | 0, _ => simp [parseFields] at h
  | succ f2 ih =>
    intro f F cs acc t rest k hF hf h hd
    match f with
    | 0 => simp [parseFields] at h
    | f + 1 =>
      have hff2 : f ≤ f2 := by omega
      match cs with
      | [] => simp [parseFields] at h
      | c0 :: cs1 =>
        simp only [parseFields] at h
        simp only [descendF] at hd
        by_cases h0 : c0 = '"'
        · rw [if_pos h0] at h hd
          match hsb : parseStrBody (cs1.length + 1) cs1 with
          | none => simp only [hsb] at h; simp at h
          | some (ks, r) =>
            simp only [hsb] at h hd
            obtain ⟨kp, hkpne, hkp⟩ := parseStrBody_suffix _ _ _ _ hsb
            match hsw : skipWs r with
            | [] => simp only [hsw] at h; simp at h
            | c1 :: rr2 =>
              simp only [hsw] at h hd
              obtain ⟨w1, hr, hw1⟩ := skipWs_decomp hsw
              by_cases h1 : c1 = ':'
              · rw [if_pos h1] at h hd
                match hpv : parseVal f (skipWs rr2) with
                | none => simp only [hpv] at h; simp at h
                | some (v, r3) =>
                  simp only [hpv] at h
                  obtain ⟨av, havne, hav⟩ := parseVal_suffix hpv
                  obtain ⟨w2, hrr2, hw2⟩ := skipWs_decomp hav
                  match hsw3 : skipWs r3 with
                  | [] => simp only [hsw3] at h; simp at h
                  | c2 :: r4 =>
                    simp only [hsw3] at h
                    obtain ⟨w3, hr3, hw3⟩ := skipWs_decomp hsw3
                    have hlsw : (skipWs rr2).length ≤ rr2.length :=
                      (List.dropWhile_sublist _).length_le
                    have l1 := congrArg List.length hkp
                    have l2 := congrArg List.length hr
                    have l3 := congrArg List.length hrr2
                    have l4 := congrArg List.length hr3
                    have l6 := congrArg List.length hav
                    have k2 : 1 ≤ av.length := List.length_pos.mpr havne
                    have k1 : 1 ≤ kp.length := List.length_pos.mpr hkpne
                    simp only [List.length_append, List.length_cons]
                      at l1 l2 l3 l4 l6
                    by_cases h2 : c2 = ','
                    · have hbr3 : boundaryOk r3 = true :=
                        boundaryOk_of_skipWs hsw3 (by rw [h2]; rfl)
                      have hpvF : parseVal F (skipWs rr2) = some (v, r3) :=
                        parseVal_suff hpv hbr3
                          (by simp only [List.length_cons] at hF; omega)
                      rw [if_pos h2] at h
                      simp only [hpvF, hsw3] at hd
                      rw [if_pos h2] at hd
                      match hdr : descendF F f2 (skipWs r4) k with
                      | some sub => simp only [hdr] at hd; simp at hd
                      | none =>
                        simp only [hdr] at hd
                        by_cases hkk : String.mk ks = k
                        · rw [if_pos hkk] at hd
                          simp at hd
                        · have hF2 : 2 * (skipWs r4).length ≤ F := by
                            have h4 : (skipWs r4).length ≤ r4.length :=
                              (List.dropWhile_sublist _).length_le
                            simp only [List.length_cons] at hF
                            omega
                          obtain ⟨ms2, hfree2, ht2, hall2⟩ := ih f F
                            (skipWs r4) (objInsert acc ⟨ks⟩ v) t rest k
                            hF2 hff2 h hdr
                          obtain ⟨b, hbne, hsw4⟩ := parseFields_suffix h
                          obtain ⟨w4, hr4, hw4⟩ := skipWs_decomp hsw4
                          have l5 := congrArg List.length hr4
                          have k3 : 1 ≤ b.length := List.length_pos.mpr hbne
                          have k4 := congrArg List.length hsw4
                          simp only [List.length_append, List.length_cons]
                            at l5 k4
                          refine ⟨(⟨ks⟩, v) :: ms2, ?_, ?_, ?_⟩
                          · intro kv hkv
                            rcases List.mem_cons.mp hkv with hkv | hkv
                            · rw [hkv]
                              exact hkk
                            · exact hfree2 kv hkv
                          · rw [ht2]
                            simp
                          · intro acc2 g hg hbrest
                            have hg1 : 1 ≤ g := by
                              simp only [List.length_cons] at hg
                              omega
                            match g, hg1 with
                            | g + 1, _ =>
                              simp only [List.length_cons] at hg
                              simp only [parseFields]
                              rw [if_pos h0]
                              simp only [hsb, hsw]
                              rw [if_pos h1]
                              rw [parseVal_suff hpv hbr3 (by omega)]
                              simp only [hsw3]
                              rw [if_pos h2]
                              have h9 := hall2 (objInsert acc2 ⟨ks⟩ v) g
                                (by omega) hbrest
                              simpa using h9
                    · by_cases h3 : c2 = '}'
                      · have hbr3 : boundaryOk r3 = true :=
                          boundaryOk_of_skipWs hsw3 (by rw [h3]; rfl)
                        have hpvF : parseVal F (skipWs rr2) = some (v, r3) :=
                          parseVal_suff hpv hbr3
                            (by simp only [List.length_cons] at hF; omega)
                        rw [if_neg h2, if_pos h3] at h
                        simp only [hpvF, hsw3] at hd
                        rw [if_neg h2, if_pos h3] at hd
                        by_cases hkk : String.mk ks = k
                        · rw [if_pos hkk] at hd
                          simp at hd
                        · simp only [Option.some.injEq, Prod.mk.injEq] at h
                          have l7 : r4.length = rest.length :=
                            congrArg List.length h.2
                          refine ⟨[(⟨ks⟩, v)], ?_, ?_, ?_⟩
                          · intro kv hkv
                            rcases List.mem_cons.mp hkv with hkv | hkv
                            · rw [hkv]
                              exact hkk
                            · simp at hkv
                          · rw [← h.1]
                            simp
                          · intro acc2 g hg hbrest
                            have hg1 : 1 ≤ g := by
                              simp only [List.length_cons] at hg
                              omega
                            match g, hg1 with
                            | g + 1, _ =>
                              simp only [parseFields]
                              rw [if_pos h0]
                              simp only [hsb, hsw]
                              rw [if_pos h1]
                              rw [parseVal_suff hpv hbr3
                                (by simp only [List.length_cons] at hg; omega)]
                              simp only [hsw3]
                              rw [if_neg h2, if_pos h3, h.2]
                              simp
                      · rw [if_neg h2, if_neg h3] at h
                        simp at h
              · rw [if_neg h1] at h
                simp at h
        · rw [if_neg h0] at h
          simp at h

/-! ### Substitution through the array element loop -/

theorem substE (V : JValue) (P : List JSeg) (hwfV : wfJ V = true)
    (hGood : SubstGood V P) :
    ∀ (f2 f F : Nat) (cs : List Char) (acc : List JValue) (i : Nat)
      (t : JValue) (rest sub0 sub : List Char),
      2 * cs.length ≤ F →
      parseElems f cs acc = some (t, rest) →
      boundaryOk rest = true →
      descendE F f2 cs i = some sub0 →
      descendVal F sub0 P = some sub →
      ∃ preE postD uel u tel2 vs,
        t = .arr (acc.reverse ++ vs) ∧
        vs.get? i = some uel ∧
        getAtPath uel P = some u ∧
        setAt uel P V = some tel2 ∧
        cs = preE ++ sub ∧
        (∃ mid, sub = mid ++ postD) ∧
        (∃ midp, postD = midp ++ rest) ∧
        (∃ fu, parseVal fu sub = some (u, postD)) ∧
        ∀ g, 2 * (preE.length + (serialize V).length +
            (postD.length - rest.length)) + 1 ≤ g →
          parseElems g (preE ++ (serialize V ++ postD)) acc =
            some (.arr (acc.reverse ++ vs.set i tel2), rest) := by
  intro f2
  induction f2 with
  | zero =>
    intro f F cs acc i t rest sub0 sub hF h hbrest hd hsubV
    simp [descendE] at hd
  | succ f2 ih =>
    intro f F cs acc i t rest sub0 sub hF h hbrest hd hsubV
    match f with
    | 0 => simp [parseElems] at h
    | f + 1 =>
      simp only [parseElems] at h
      simp only [descendE] at hd
      match hpv : parseVal f cs with
      | none => simp only [hpv] at h; simp at h
      | some (v, rv) =>
        simp only [hpv] at h
        match hpvF : parseVal F cs with
        | none => simp only [hpvF] at hd; simp at hd
        | some (vF, rF) =>
          simp only [hpvF] at hd
          have hvr := parseVal_det hpvF hpv
          simp only [Prod.mk.injEq] at hvr
          rw [hvr.2] at hd
          obtain ⟨av, havne, heqa⟩ := parseVal_suffix hpv
          match hsw : skipWs rv with
          | [] =>
            simp only [hsw] at h
            simp at h
          | c1 :: rr2 =>
            simp only [hsw] at h
            obtain ⟨w1, hrv, hw1⟩ := skipWs_decomp hsw
            have hserne : 1 ≤ (serialize V).length := by
              obtain ⟨c0, cs0, hc0, _, _⟩ := serialize_head V hwfV
              rw [hc0]
              simp
            match i with
            | 0 =>
              rw [if_pos rfl] at hd
              simp only [Option.some.injEq] at hd
              subst hd
              have hbrv : boundaryOk rv = true := by
                by_cases h1 : c1 = ','
                · exact boundaryOk_of_skipWs hsw (by rw [h1]; rfl)
                · by_cases h2 : c1 = ']'
                  · exact boundaryOk_of_skipWs hsw (by rw [h2]; rfl)
                  · rw [if_neg h1, if_neg h2] at h
                    simp at h
              obtain ⟨preA, postD, u, t2el, hcspre, ⟨mid, hmid⟩,
                ⟨midp, hmidp⟩, ⟨fu, hfu⟩, hget, hset, hfin⟩ :=
                hGood F f cs v rv sub hF hpv hbrv hsubV
              by_cases h1 : c1 = ','
              · rw [if_pos h1] at h
                obtain ⟨vs', hne', ht', hall'⟩ :=
                  parseElems_members f _ _ _ _ h
                obtain ⟨b, hbne, hsw2⟩ := parseElems_suffix h
                obtain ⟨w2, hrr2, hw2⟩ := skipWs_decomp hsw2
                have l1 := congrArg List.length heqa
                have l2 := congrArg List.length hrv
                have l3 := congrArg List.length hrr2
                have l4 := congrArg List.length hsw2
                have l5 := congrArg List.length hmidp
                have k2 : 1 ≤ av.length := List.length_pos.mpr havne
                have k3 : 1 ≤ b.length := List.length_pos.mpr hbne
                simp only [List.length_append, List.length_cons]
                  at l1 l2 l3 l4 l5
                refine ⟨preA, postD, v, u, t2el, v :: vs', ?_, rfl, hget,
                  hset, hcspre, ⟨mid, hmid⟩,
                  ⟨midp ++ (w1 ++ c1 :: w2 ++ b), ?_⟩,
                  ⟨fu, hfu⟩, ?_⟩
                · rw [ht']
                  simp
                · rw [hmidp, hrv, hrr2]
                  simp only [List.append_assoc, List.cons_append]
                · intro g hg
                  have hg1 : 1 ≤ g := by omega
                  match g, hg1 with
                  | g + 1, _ =>
                    simp only [parseElems]
                    rw [hfin g (by omega)]
                    simp only [hsw]
                    rw [if_pos h1]
                    have h9 := hall' (t2el :: acc) g (by omega) hbrest
                    simpa [List.reverse_cons, List.append_assoc] using h9
              · rw [if_neg h1] at h
                by_cases h2 : c1 = ']'
                · rw [if_pos h2] at h
                  simp only [Option.some.injEq, Prod.mk.injEq] at h
                  rw [h.2] at hrv hsw
                  have l1 := congrArg List.length heqa
                  have l2 := congrArg List.length hrv
                  have l5 := congrArg List.length hmidp
                  have k2 : 1 ≤ av.length := List.length_pos.mpr havne
                  simp only [List.length_append, List.length_cons]
                    at l1 l2 l5
                  refine ⟨preA, postD, v, u, t2el, [v], ?_, rfl, hget,
                    hset, hcspre, ⟨mid, hmid⟩,
                    ⟨midp ++ (w1 ++ [c1]), ?_⟩, ⟨fu, hfu⟩, ?_⟩
                  · rw [← h.1]
                    simp
                  · rw [hmidp, hrv]
                    simp only [List.append_assoc, List.cons_append,
                      List.singleton_append, List.nil_append]
                  · intro g hg
                    have hg1 : 1 ≤ g := by omega
                    match g, hg1 with
                    | g + 1, _ =>
                      simp only [parseElems]
                      rw [hfin g (by omega)]
                      simp only [hsw]
                      rw [if_neg h1, if_pos h2]
                      simp
                · rw [if_neg h2] at h
                  simp at h
            | j + 1 =>
              rw [if_neg (by simp)] at hd
              simp only [hsw] at hd
              by_cases h1 : c1 = ','
              · rw [if_pos h1] at h hd
                have hc1w : isWsChar c1 = false := by rw [h1]; rfl
                have hc1n : isNumChar c1 = false := by rw [h1]; rfl
                have hF2 : 2 * (skipWs rr2).length ≤ F := by
                  have h4 : (skipWs rr2).length ≤ rr2.length :=
                    (List.dropWhile_sublist _).length_le
                  have l1 := congrArg List.length heqa
                  have l2 := congrArg List.length hrv
                  simp only [List.length_append, List.length_cons] at l1 l2
                  omega
                have hdj : descendE F f2 (skipWs rr2) j = some sub0 := by
                  simpa using hd
                obtain ⟨preE', postD, uel, u, tel2, vs', ht', hgetv,
                  hget, hset, hpre', ⟨mid, hmid⟩, ⟨midp, hmidp⟩,
                  ⟨fu, hfu⟩, hfin'⟩ :=
                  ih f F (skipWs rr2) (v :: acc) j t rest sub0 sub
                    hF2 h hbrest hdj hsubV
                rw [heqa] at hpv
                obtain ⟨w2, hrr2, hw2⟩ := skipWs_decomp
                  (rfl : skipWs rr2 = skipWs rr2)
                have hXred : skipWs (w2 ++ (preE' ++ (serialize V ++ postD)))
                    = preE' ++ (serialize V ++ postD) := by
                  match preE', hpre' with
                  | [], hpre' =>
                    obtain ⟨c0, cs0, hc0, hws0, _⟩ := serialize_head V hwfV
                    rw [hc0]
                    simp only [List.nil_append, List.cons_append]
                    exact skipWs_ws_append hw2 hws0
                  | p0 :: pE, hpre' =>
                    have hp0 : isWsChar p0 = false :=
                      skipWs_head_not_ws (by simpa using hpre')
                    simp only [List.cons_append]
                    exact skipWs_ws_append hw2 hp0
                have l1 := congrArg List.length heqa
                have l2 := congrArg List.length hrv
                have l3 := congrArg List.length hrr2
                have l5 := congrArg List.length hmidp
                have l6 := congrArg List.length hpre'
                have k2 : 1 ≤ av.length := List.length_pos.mpr havne
                simp only [List.length_append, List.length_cons]
                  at l1 l2 l3 l5 l6
                refine ⟨av ++ (w1 ++ c1 :: (w2 ++ preE')), postD, uel, u,
                  tel2, v :: vs', ?_, ?_, hget, hset, ?_, ⟨mid, hmid⟩,
                  ⟨midp, hmidp⟩, ⟨fu, hfu⟩, ?_⟩
                · rw [ht']
                  simp
                · simpa using hgetv
                · rw [heqa, hrv]
                  conv_lhs => rw [hrr2]
                  rw [hpre']
                  simp only [List.append_assoc, List.cons_append]
                · intro g hg
                  simp only [List.length_append, List.length_cons] at hg
                  have hg1 : 1 ≤ g := by omega
                  match g, hg1 with
                  | g + 1, _ =>
                    simp only [parseElems, List.append_assoc,
                      List.cons_append]
                    rw [parseVal_loc hpv (boundaryOk_ws_cons hw1 hc1n)
                      (show 2 * av.length ≤ g by omega)]
                    simp only [skipWs_ws_append hw1 hc1w]
                    rw [if_pos h1, hXred]
                    have h9 := hfin' g (by omega)
                    simpa [List.reverse_cons, List.append_assoc] using h9
              · rw [if_neg h1] at hd
                simp at hd

/-! ### Substitution through the object member loop -/

theorem substF (V : JValue) (P : List JSeg) (hwfV : wfJ V = true)
    (hGood : SubstGood V P) :
    ∀ (f2 f F : Nat) (cs : List Char) (acc : List (String × JValue))
      (k : String) (t : JValue) (rest sub0 sub : List Char),
      2 * cs.length ≤ F →
      f ≤ f2 →
      parseFields f cs acc = some (t, rest) →
      boundaryOk rest = true →
      descendF F f2 cs k = some sub0 →
      descendVal F sub0 P = some sub →
      ∃ preE postD m uel u tel2,
        t = .obj m ∧
        objLookup m k = some uel ∧
        getAtPath uel P = some u ∧
        setAt uel P V = some tel2 ∧
        cs = preE ++ sub ∧
        (∃ mid, sub = mid ++ postD) ∧
        (∃ midp, postD = midp ++ rest) ∧
        (∃ fu, parseVal fu sub = some (u, postD)) ∧
        ∀ g, 2 * (preE.length + (serialize V).length +
            (postD.length - rest.length)) + 1 ≤ g →
          parseFields g (preE ++ (serialize V ++ postD)) acc =
            some (.obj (setKey m k tel2), rest) := by
  intro f2
  induction f2 with
  | zero =>
    intro f F cs acc k t rest sub0 sub hF hf h hbrest hd hsubV
    simp [descendF] at hd
  | succ f2 ih =>
    intro f F cs acc k t rest sub0 sub hF hf h hbrest hd hsubV
    match f with
    | 0 => simp [parseFields] at h
    | f + 1 =>
      have hff2 : f ≤ f2 := by omega
      match cs with
      | [] => simp [parseFields] at h
      | c0 :: cs1 =>
        simp only [List.length_cons] at hF
        simp only [parseFields] at h
        simp only [descendF] at hd
        by_cases h0 : c0 = '"'
        · rw [if_pos h0] at h hd
          match hsb : parseStrBody (cs1.length + 1) cs1 with
          | none => simp only [hsb] at h; simp at h
          | some (ks, r) =>
            simp only [hsb] at h hd
            obtain ⟨kp, hkpne, hkp⟩ := parseStrBody_suffix _ _ _ _ hsb
            rw [hkp] at hsb
            match hsw : skipWs r with
            | [] => simp only [hsw] at h; simp at h
            | c1 :: rr2 =>
              simp only [hsw] at h hd
              obtain ⟨w1, hr, hw1⟩ := skipWs_decomp hsw
              by_cases h1 : c1 = ':'
              · rw [if_pos h1] at h hd
                have hc1w : isWsChar c1 = false := by rw [h1]; rfl
                match hpv : parseVal f (skipWs rr2) with
                | none => simp only [hpv] at h; simp at h
                | some (v, r3) =>
                  simp only [hpv] at h
                  obtain ⟨av, havne, hav⟩ := parseVal_suffix hpv
                  obtain ⟨w2, hrr2, hw2⟩ := skipWs_decomp hav
                  obtain ⟨a0, av1, havc⟩ : ∃ a0 av1, av = a0 :: av1 := by
                    match av, havne with
                    | a0 :: av1, _ => exact ⟨a0, av1, rfl⟩
                  subst havc
                  have ha0 : isWsChar a0 = false :=
                    skipWs_head_not_ws (by simpa using hav)
                  have hpvA : parseVal f ((a0 :: av1) ++ r3) = some (v, r3) :=
                    by rw [← hav]; exact hpv
                  match hsw3 : skipWs r3 with
                  | [] => simp only [hsw3] at h; simp at h
                  | c2 :: r4 =>
                    simp only [hsw3] at h
                    obtain ⟨w3, hr3, hw3⟩ := skipWs_decomp hsw3
                    have hserne : 1 ≤ (serialize V).length := by
                      obtain ⟨c0x, cs0x, hc0x, _, _⟩ := serialize_head V hwfV
                      rw [hc0x]
                      simp
                    have hlsw : (skipWs rr2).length ≤ rr2.length :=
                      (List.dropWhile_sublist _).length_le
                    have l1 := congrArg List.length hkp
                    have l2 := congrArg List.length hr
                    have l3 := congrArg List.length hrr2
                    have l4 := congrArg List.length hr3
                    have l6 := congrArg List.length hav
                    have k1 : 1 ≤ kp.length := List.length_pos.mpr hkpne
                    simp only [List.length_append, List.length_cons]
                      at l1 l2 l3 l4 l6
                    by_cases h2 : c2 = ','
                    · have hc2w : isWsChar c2 = false := by rw [h2]; rfl
                      have hc2n : isNumChar c2 = false := by rw [h2]; rfl
                      have hbr3 : boundaryOk r3 = true :=
                        boundaryOk_of_skipWs hsw3 hc2n
                      have hpvF : parseVal F (skipWs rr2) = some (v, r3) :=
                        parseVal_suff hpv hbr3 (by omega)
                      rw [if_pos h2] at h
                      simp only [hpvF, hsw3] at hd
                      rw [if_pos h2] at hd
                      obtain ⟨w4, hr4, hw4⟩ := skipWs_decomp
                        (rfl : skipWs r4 = skipWs r4)
                      have l5 := congrArg List.length hr4
                      simp only [List.length_append, List.length_cons] at l5
                      match hdr : descendF F f2 (skipWs r4) k with
                      | some subR =>
                        simp only [hdr, Option.some.injEq] at hd
                        subst hd
                        have hF2 : 2 * (skipWs r4).length ≤ F := by
                          have h4 : (skipWs r4).length ≤ r4.length :=
                            (List.dropWhile_sublist _).length_le
                          omega
                        obtain ⟨preE', postD, m', uel, u, tel2, ht', hlk',
                          hget, hset, hpre', ⟨mid, hmid⟩, ⟨midp, hmidp⟩,
                          ⟨fu, hfu⟩, hfin'⟩ :=
                          ih f F (skipWs r4) (objInsert acc ⟨ks⟩ v) k t rest
                            subR sub hF2 hff2 h hbrest hdr hsubV
                        have hXred : skipWs (w4 ++ (preE' ++
                            (serialize V ++ postD))) =
                            preE' ++ (serialize V ++ postD) := by
                          match preE', hpre' with
                          | [], hpre' =>
                            obtain ⟨c0x, cs0x, hc0x, hws0x, _⟩ :=
                              serialize_head V hwfV
                            rw [hc0x]
                            simp only [List.nil_append, List.cons_append]
                            exact skipWs_ws_append hw4 hws0x
                          | p0 :: pE, hpre' =>
                            have hp0 : isWsChar p0 = false :=
                              skipWs_head_not_ws (by simpa using hpre')
                            simp only [List.cons_append]
                            exact skipWs_ws_append hw4 hp0
                        have l7 := congrArg List.length hpre'
                        have l8 := congrArg List.length hmidp
                        simp only [List.length_append, List.length_cons]
                          at l7 l8
                        refine ⟨c0 :: (kp ++ (w1 ++ c1 :: (w2 ++
                          ((a0 :: av1) ++ (w3 ++ c2 :: (w4 ++ preE')))))),
                          postD, m', uel, u, tel2, ht', hlk', hget, hset,
                          ?_, ⟨mid, hmid⟩, ⟨midp, hmidp⟩, ⟨fu, hfu⟩, ?_⟩
                        · show c0 :: cs1 = _
                          rw [hkp, hr]
                          conv_lhs => rw [hrr2]
                          rw [hr3]
                          conv_lhs => rw [hr4]
                          rw [hpre']
                          simp only [List.append_assoc, List.cons_append]
                        · intro g hg
                          simp only [List.length_append, List.length_cons]
                            at hg
                          have hg1 : 1 ≤ g := by omega
                          match g, hg1 with
                          | g + 1, _ =>
                            simp only [parseFields, List.cons_append,
                              List.append_assoc]
                            rw [if_pos h0]
                            have hsb2 := parseStrBody_loc _ kp ks r
                              (w1 ++ c1 :: (w2 ++ (a0 :: (av1 ++ (w3 ++
                                c2 :: (w4 ++ (preE' ++ (serialize V ++
                                  postD))))))))
                              ((kp ++ (w1 ++ c1 :: (w2 ++ (a0 :: (av1 ++
                                (w3 ++ c2 :: (w4 ++ (preE' ++
                                  (serialize V ++ postD))))))))).length + 1)
                              hsb (by
                                simp only [List.length_append,
                                  List.length_cons]
                                omega)
                            simp only [List.append_assoc, List.cons_append]
                              at hsb2
                            simp only [hsb2]
                            simp only [skipWs_ws_append hw1 hc1w]
                            rw [if_pos h1]
                            simp only [skipWs_ws_append hw2 ha0]
                            have hpv2 := @parseVal_loc f (a0 :: av1) r3 v
                              (w3 ++ c2 :: (w4 ++ (preE' ++
                                (serialize V ++ postD)))) g hpvA
                              (boundaryOk_ws_cons hw3 hc2n)
                              (by simp only [List.length_cons]; omega)
                            simp only [List.cons_append, List.append_assoc]
                              at hpv2
                            simp only [hpv2]
                            simp only [skipWs_ws_append hw3 hc2w]
                            rw [if_pos h2, hXred]
                            exact hfin' g (by omega)
                      | none =>
                        simp only [hdr] at hd
                        by_cases hkk : String.mk ks = k
                        · rw [if_pos hkk] at hd
                          simp only [Option.some.injEq] at hd
                          subst hd
                          have hF3 : 2 * (skipWs rr2).length ≤ F := by omega
                          obtain ⟨preA, postD, u, tel2, hpreA, ⟨mid, hmid⟩,
                            ⟨midp, hmidp⟩, ⟨fu, hfu⟩, hget, hset, hfin⟩ :=
                            hGood F f (skipWs rr2) v r3 sub hF3 hpv hbr3
                              hsubV
                          have hF2 : 2 * (skipWs r4).length ≤ F := by
                            have h4 : (skipWs r4).length ≤ r4.length :=
                              (List.dropWhile_sublist _).length_le
                            omega
                          obtain ⟨ms2, hfree2, ht2, hall2⟩ :=
                            descendF_none f2 f F (skipWs r4)
                              (objInsert acc ⟨ks⟩ v) t rest k hF2 hff2 h hdr
                          obtain ⟨b2, hb2ne, hsw4⟩ := parseFields_suffix h
                          obtain ⟨w4b, hr4b, hw4b⟩ := skipWs_decomp hsw4
                          have hX2red : skipWs (w2 ++ (preA ++
                              (serialize V ++ postD))) =
                              preA ++ (serialize V ++ postD) := by
                            match preA, hpreA with
                            | [], hpreA =>
                              obtain ⟨c0x, cs0x, hc0x, hws0x, _⟩ :=
                                serialize_head V hwfV
                              rw [hc0x]
                              simp only [List.nil_append, List.cons_append]
                              exact skipWs_ws_append hw2 hws0x
                            | p0 :: pE, hpreA =>
                              have hp0 : isWsChar p0 = false :=
                                skipWs_head_not_ws (by simpa using hpreA)
                              simp only [List.cons_append]
                              exact skipWs_ws_append hw2 hp0
                          have l5b := congrArg List.length hr4b
                          have l7 := congrArg List.length hpreA
                          have l8 := congrArg List.length hmidp
                          have k4 := congrArg List.length hsw4
                          have k3 : 1 ≤ b2.length := List.length_pos.mpr hb2ne
                          simp only [List.length_append, List.length_cons]
                            at l5b l7 l8 k4
                          have hm : t = .obj (ms2.foldl
                              (fun a kv => objInsert a kv.1 kv.2)
                              (objInsert acc k v)) := by
                            rw [ht2, hkk]
                          have hlkm : objLookup (ms2.foldl
                              (fun a kv => objInsert a kv.1 kv.2)
                              (objInsert acc k v)) k = some v := by
                            rw [objLookup_foldl_not_mem ms2 _ k hfree2]
                            exact objLookup_objInsert_self acc k v
                          have hkey : setKey (ms2.foldl
                              (fun a kv => objInsert a kv.1 kv.2)
                              (objInsert acc k v)) k tel2 =
                              ms2.foldl (fun a kv => objInsert a kv.1 kv.2)
                                (objInsert acc k tel2) := by
                            rw [setKey_foldl ms2 _ k tel2 hfree2,
                              setKey_objInsert_self]
                          refine ⟨c0 :: (kp ++ (w1 ++ c1 :: (w2 ++ preA))),
                            postD, _, v, u, tel2, hm, hlkm, hget, hset, ?_,
                            ⟨mid, hmid⟩,
                            ⟨midp ++ (w3 ++ c2 :: (w4b ++ b2)), ?_⟩,
                            ⟨fu, hfu⟩, ?_⟩
                          · show c0 :: cs1 = _
                            rw [hkp, hr]
                            conv_lhs => rw [hrr2]
                            rw [← hav, hpreA]
                            simp only [List.append_assoc, List.cons_append]
                          · rw [hmidp, hr3, hr4b]
                            simp only [List.append_assoc, List.cons_append]
                          · intro g hg
                            simp only [List.length_append, List.length_cons]
                              at hg
                            have hg1 : 1 ≤ g := by omega
                            match g, hg1 with
                            | g + 1, _ =>
                              simp only [parseFields, List.cons_append,
                                List.append_assoc]
                              rw [if_pos h0]
                              have hsb2 := parseStrBody_loc _ kp ks r
                                (w1 ++ c1 :: (w2 ++ (preA ++
                                  (serialize V ++ postD))))
                                ((kp ++ (w1 ++ c1 :: (w2 ++ (preA ++
                                  (serialize V ++ postD))))).length + 1)
                                hsb (by
                                  simp only [List.length_append,
                                    List.length_cons]
                                  omega)
                              simp only [List.append_assoc, List.cons_append]
                                at hsb2
                              simp only [hsb2]
                              simp only [skipWs_ws_append hw1 hc1w]
                              rw [if_pos h1, hX2red]
                              rw [hfin g (by omega)]
                              simp only [hsw3]
                              rw [if_pos h2]
                              rw [hkey, hkk]
                              exact hall2 (objInsert acc k tel2) g
                                (by omega) hbrest
                        · rw [if_neg hkk] at hd
                          simp at hd
                    · by_cases h3 : c2 = '}'
                      · have hc2w : isWsChar c2 = false := by rw [h3]; rfl
                        have hc2n : isNumChar c2 = false := by rw [h3]; rfl
                        have hbr3 : boundaryOk r3 = true :=
                          boundaryOk_of_skipWs hsw3 hc2n
                        have hpvF : parseVal F (skipWs rr2) = some (v, r3) :=
                          parseVal_suff hpv hbr3 (by omega)
                        rw [if_neg h2, if_pos h3] at h
                        simp only [hpvF, hsw3] at hd
                        rw [if_neg h2, if_pos h3] at hd
                        by_cases hkk : String.mk ks = k
                        · rw [if_pos hkk] at hd
                          simp only [Option.some.injEq] at hd
                          subst hd
                          simp only [Option.some.injEq, Prod.mk.injEq] at h
                          have hF3 : 2 * (skipWs rr2).length ≤ F := by omega
                          obtain ⟨preA, postD, u, tel2, hpreA, ⟨mid, hmid⟩,
                            ⟨midp, hmidp⟩, ⟨fu, hfu⟩, hget, hset, hfin⟩ :=
                            hGood F f (skipWs rr2) v r3 sub hF3 hpv hbr3
                              hsubV
                          have hX2red : skipWs (w2 ++ (preA ++
                              (serialize V ++ postD))) =
                              preA ++ (serialize V ++ postD) := by
                            match preA, hpreA with
                            | [], hpreA =>
                              obtain ⟨c0x, cs0x, hc0x, hws0x, _⟩ :=
                                serialize_head V hwfV
                              rw [hc0x]
                              simp only [List.nil_append, List.cons_append]
                              exact skipWs_ws_append hw2 hws0x
                            | p0 :: pE, hpreA =>
                              have hp0 : isWsChar p0 = false :=
                                skipWs_head_not_ws (by simpa using hpreA)
                              simp only [List.cons_append]
                              exact skipWs_ws_append hw2 hp0
                          have l7 := congrArg List.length hpreA
                          have l8 := congrArg List.length hmidp
                          have l9 : r4.length = rest.length :=
                            congrArg List.length h.2
                          simp only [List.length_append, List.length_cons]
                            at l7 l8
                          refine ⟨c0 :: (kp ++ (w1 ++ c1 :: (w2 ++ preA))),
                            postD, objInsert acc k v, v, u, tel2, ?_,
                            objLookup_objInsert_self acc k v, hget, hset,
                            ?_, ⟨mid, hmid⟩, ⟨midp ++ (w3 ++ [c2]), ?_⟩,
                            ⟨fu, hfu⟩, ?_⟩
                          · rw [← h.1, hkk]
                          · show c0 :: cs1 = _
                            rw [hkp, hr]
                            conv_lhs => rw [hrr2]
                            rw [← hav, hpreA]
                            simp only [List.append_assoc, List.cons_append]
                          · rw [hmidp, hr3, h.2]
                            simp only [List.append_assoc, List.cons_append,
                              List.singleton_append, List.nil_append]
                          · intro g hg
                            simp only [List.length_append, List.length_cons]
                              at hg
                            have hg1 : 1 ≤ g := by omega
                            match g, hg1 with
                            | g + 1, _ =>
                              simp only [parseFields, List.cons_append,
                                List.append_assoc]
                              rw [if_pos h0]
                              have hsb2 := parseStrBody_loc _ kp ks r
                                (w1 ++ c1 :: (w2 ++ (preA ++
                                  (serialize V ++ postD))))
                                ((kp ++ (w1 ++ c1 :: (w2 ++ (preA ++
                                  (serialize V ++ postD))))).length + 1)
                                hsb (by
                                  simp only [List.length_append,
                                    List.length_cons]
                                  omega)
                              simp only [List.append_assoc, List.cons_append]
                                at hsb2
                              simp only [hsb2]
                              simp only [skipWs_ws_append hw1 hc1w]
                              rw [if_pos h1, hX2red]
                              rw [hfin g (by omega)]
                              simp only [hsw3]
                              rw [if_neg h2, if_pos h3]
                              rw [hkk, h.2, setKey_objInsert_self]
                        · rw [if_neg hkk] at hd
                          simp at hd
                      · rw [if_neg h2, if_neg h3] at h
                        simp at h
              · rw [if_neg h1] at h
                simp at h
        · rw [if_neg h0] at h
          simp at h

/-! ### The substitution invariant holds along every path -/

theorem serialize_head_brace (v : JValue) (hwf : wfJ v = true) :
    ∃ c cs, serialize v = c :: cs ∧ isWsChar c = false ∧ ¬c = ']' ∧
      ¬c = '}' := by
  cases v with
  | null => exact ⟨'n', ['u', 'l', 'l'], rfl, by decide, by decide, by decide⟩
  | bool b =>
    cases b with
    | true => exact ⟨'t', ['r', 'u', 'e'], rfl, by decide, by decide, by decide⟩
    | false =>
      exact ⟨'f', ['a', 'l', 's', 'e'], rfl, by decide, by decide, by decide⟩
  | num lit =>
    simp only [wfJ] at hwf
    match hlit : lit.data with
    | [] => rw [hlit] at hwf; simp [validNumLit] at hwf
    | c :: r =>
      rw [hlit] at hwf
      have hh := validNumLit_head hwf
      have hfacts := numStart_facts hh
      refine ⟨c, r, ?_, hfacts.1, hfacts.2.1, ?_⟩
      · show lit.data = c :: r
        exact hlit
      · rcases hh with hh | hh
        · subst hh; decide
        · obtain ⟨h1, h2⟩ := digit_toNat_bounds hh
          apply char_ne_of_toNat_ne
          intro hc
          rw [hc] at h1 h2
          simp_all
  | str s =>
    exact ⟨'"', (s.data.map escapeChar).flatten ++ ['"'], rfl, by decide,
      by decide, by decide⟩
  | arr es => exact ⟨'[', serArr es ++ [']'], rfl, by decide, by decide,
      by decide⟩
  | obj fs => exact ⟨'{', serObj fs ++ ['}'], rfl, by decide, by decide,
      by decide⟩

theorem substVal (V : JValue) (hwfV : wfJ V = true) :
    ∀ P, SubstGood V P := by
  intro P
  induction P with
  | nil =>
    intro F f cs t rest sub hF hpv hbrest hdesc
    simp only [descendVal] at hdesc
    by_cases hx : (parseVal F cs).isSome = true
    · rw [if_pos hx] at hdesc
      simp only [Option.some.injEq] at hdesc
      subst hdesc
      obtain ⟨pre, hpre, heq⟩ := parseVal_suffix hpv
      refine ⟨[], rest, t, V, by simp, ⟨pre, heq⟩, ⟨[], rfl⟩, ⟨f, hpv⟩,
        rfl, by cases t <;> rfl, ?_⟩
      intro g hg
      simp only [List.length_nil, Nat.sub_self, Nat.add_zero, Nat.zero_add]
        at hg
      simp only [List.nil_append]
      exact serializeParse V g rest hwfV hbrest
        (by have := serFuel_bound V hwfV; omega)
    · rw [if_neg hx] at hdesc
      simp at hdesc
  | cons seg p ihP =>
    intro F f cs t rest sub hF hpv hbrest hdesc
    match cs with
    | [] => simp [descendVal] at hdesc
    | c :: cs0 =>
      simp only [List.length_cons] at hF
      match f with
      | 0 => simp [parseVal] at hpv
      | f + 1 =>
        by_cases hc : c = '['
        · subst hc
          match seg with
          | .str s => simp [descendVal] at hdesc
          | .num i =>
            simp only [descendVal, reduceIte] at hdesc
            by_cases hi : (0:Int) ≤ i
            · rw [if_pos hi] at hdesc
              match hsw0 : skipWs cs0 with
              | [] => simp only [hsw0] at hdesc; simp at hdesc
              | c1 :: cs1 =>
                simp only [hsw0] at hdesc
                by_cases hbr : c1 = ']'
                · rw [if_pos hbr] at hdesc
                  simp at hdesc
                · rw [if_neg hbr] at hdesc
                  match hde : descendE F F (c1 :: cs1) i.toNat with
                  | none => simp only [hde] at hdesc; simp at hdesc
                  | some sub0 =>
                    simp only [hde] at hdesc
                    simp only [parseVal, reduceIte] at hpv
                    simp only [hsw0] at hpv
                    rw [if_neg hbr] at hpv
                    have hc1w : isWsChar c1 = false := skipWs_head_not_ws hsw0
                    have hswlen : (skipWs cs0).length ≤ cs0.length :=
                      (List.dropWhile_sublist _).length_le
                    have hswlen2 := congrArg List.length hsw0
                    simp only [List.length_cons] at hswlen2
                    have hFE : 2 * (c1 :: cs1).length ≤ F := by
                      simp only [List.length_cons]
                      omega
                    obtain ⟨preE, postD, uel, u, tel2, vs, ht, hgetv, hget,
                      hset, hcs, ⟨mid, hmid⟩, ⟨midp, hmidp⟩, ⟨fu, hfu⟩,
                      hfin⟩ :=
                      substE V p hwfV ihP F f F (c1 :: cs1) [] i.toNat t
                        rest sub0 sub hFE hpv hbrest hde hdesc
                    obtain ⟨w0, hcs0, hw0⟩ := skipWs_decomp hsw0
                    have htv : t = .arr vs := by simpa using ht
                    have l1 := congrArg List.length hcs0
                    have l2 := congrArg List.length hcs
                    have l3 := congrArg List.length hmidp
                    simp only [List.length_append, List.length_cons]
                      at l1 l2 l3
                    refine ⟨'[' :: (w0 ++ preE), postD, u,
                      .arr (vs.set i.toNat tel2), ?_, ⟨mid, hmid⟩,
                      ⟨midp, hmidp⟩, ⟨fu, hfu⟩, ?_, ?_, ?_⟩
                    · show '[' :: cs0 = _
                      conv_lhs => rw [hcs0]
                      rw [hcs]
                      simp only [List.append_assoc, List.cons_append]
                    · rw [htv]
                      simp only [getAtPath, jsIndex, natIndexOf]
                      rw [if_pos hi]
                      simp only [hgetv]
                      exact hget
                    · rw [htv]
                      simp only [setAt]
                      rw [if_pos hi]
                      simp only [hgetv, hset]
                    · intro g hg
                      simp only [List.length_append, List.length_cons] at hg
                      have hg1 : 1 ≤ g := by omega
                      match g, hg1 with
                      | g + 1, _ =>
                        simp only [parseVal, List.cons_append,
                          List.append_assoc, reduceIte]
                        match preE, hcs, hfin with
                        | [], hcs, hfin =>
                          obtain ⟨ch, ct, hch, hchws, hchbr, _⟩ :=
                            serialize_head_brace V hwfV
                          rw [hch]
                          simp only [List.nil_append, List.cons_append]
                          simp only [skipWs_ws_append hw0 hchws]
                          rw [if_neg hchbr]
                          have h9 := hfin g (by omega)
                          rw [hch] at h9
                          simpa using h9
                        | p0 :: pE, hcs, hfin =>
                          have hp0 : p0 = c1 := by
                            have := hcs
                            simp only [List.cons_append] at this
                            exact ((List.cons.injEq _ _ _ _).mp this).1.symm
                          simp only [List.cons_append]
                          simp only [skipWs_ws_append hw0 (hp0 ▸ hc1w)]
                          have hbr2 : ¬p0 = ']' := by rw [hp0]; exact hbr
                          rw [if_neg hbr2]
                          have h9 := hfin g (by omega)
                          simpa using h9
            · rw [if_neg hi] at hdesc
              simp at hdesc
        · by_cases hc2 : c = '{'
          · subst hc2
            match seg with
            | .num i => simp [descendVal] at hdesc
            | .str k =>
              simp only [descendVal, reduceIte] at hdesc
              match hsw0 : skipWs cs0 with
              | [] => simp only [hsw0] at hdesc; simp at hdesc
              | c1 :: cs1 =>
                simp only [hsw0] at hdesc
                by_cases hbr : c1 = '}'
                · rw [if_pos hbr] at hdesc
                  simp at hdesc
                · rw [if_neg hbr] at hdesc
                  match hde : descendF F F (c1 :: cs1) k with
                  | none => simp only [hde] at hdesc; simp at hdesc
                  | some sub0 =>
                    simp only [hde] at hdesc
                    simp only [parseVal, reduceIte] at hpv
                    simp only [hsw0] at hpv
                    rw [if_neg hbr] at hpv
                    have hc1w : isWsChar c1 = false := skipWs_head_not_ws hsw0
                    have hswlen : (skipWs cs0).length ≤ cs0.length :=
                      (List.dropWhile_sublist _).length_le
                    have hswlen2 := congrArg List.length hsw0
                    simp only [List.length_cons] at hswlen2
                    have hFE : 2 * (c1 :: cs1).length ≤ F := by
                      simp only [List.length_cons]
                      omega
                    have hbrest2 := hbrest
                    have hpvX := parseFields_suff hpv hbrest
                      (Nat.le_refl (2 * ((c1 :: cs1).length - rest.length)
                        + 1))
                    have hfX : 2 * ((c1 :: cs1).length - rest.length) + 1
                        ≤ F := by
                      simp only [List.length_cons]
                      omega
                    obtain ⟨preE, postD, m, uel, u, tel2, ht, hlk, hget,
                      hset, hcs, ⟨mid, hmid⟩, ⟨midp, hmidp⟩, ⟨fu, hfu⟩,
                      hfin⟩ :=
                      substF V p hwfV ihP F
                        (2 * ((c1 :: cs1).length - rest.length) + 1) F
                        (c1 :: cs1) [] k t rest sub0 sub hFE hfX hpvX
                        hbrest hde hdesc
                    obtain ⟨w0, hcs0, hw0⟩ := skipWs_decomp hsw0
                    have l1 := congrArg List.length hcs0
                    have l2 := congrArg List.length hcs
                    have l3 := congrArg List.length hmidp
                    simp only [List.length_append, List.length_cons]
                      at l1 l2 l3
                    refine ⟨'{' :: (w0 ++ preE), postD, u,
                      .obj (setKey m k tel2), ?_, ⟨mid, hmid⟩,
                      ⟨midp, hmidp⟩, ⟨fu, hfu⟩, ?_, ?_, ?_⟩
                    · show '{' :: cs0 = _
                      conv_lhs => rw [hcs0]
                      rw [hcs]
                      simp only [List.append_assoc, List.cons_append]
                    · rw [ht]
                      simp only [getAtPath, jsIndex, segKey]
                      simp only [hlk]
                      exact hget
                    · rw [ht]
                      simp only [setAt]
                      simp only [hlk, hset]
                    · intro g hg
                      simp only [List.length_append, List.length_cons] at hg
                      have hg1 : 1 ≤ g := by omega
                      match g, hg1 with
                      | g + 1, _ =>
                        simp only [parseVal, List.cons_append,
                          List.append_assoc, reduceIte]
                        match preE, hcs, hfin with
                        | [], hcs, hfin =>
                          obtain ⟨ch, ct, hch, hchws, _, hchbr⟩ :=
                            serialize_head_brace V hwfV
                          rw [hch]
                          simp only [List.nil_append, List.cons_append]
                          simp only [skipWs_ws_append hw0 hchws]
                          rw [if_neg hchbr]
                          have h9 := hfin g (by omega)
                          rw [hch] at h9
                          simpa using h9
                        | p0 :: pE, hcs, hfin =>
                          have hp0 : p0 = c1 := by
                            have := hcs
                            simp only [List.cons_append] at this
                            exact ((List.cons.injEq _ _ _ _).mp this).1.symm
                          simp only [List.cons_append]
                          simp only [skipWs_ws_append hw0 (hp0 ▸ hc1w)]
                          have hbr2 : ¬p0 = '}' := by rw [hp0]; exact hbr
                          rw [if_neg hbr2]
                          have h9 := hfin g (by omega)
                          simpa using h9
          · simp only [descendVal] at hdesc
            rw [if_neg hc, if_neg hc2] at hdesc
            simp at hdesc

/-! ### C2: the patch is minimal, local and round-trips -/

/-- C2: when the spec-modelled patcher succeeds on document `D` at path
`P` with well-formed value `V`, the new text differs from `D` only on the
byte span of the value addressed by `P` (everything before and after that
span — in particular, every sibling path's text — is byte-identical), and
the new text parses to exactly the old tree with the value at `P` replaced
by `V`, so re-resolving `P` yields `V`. -/
theorem document_patcher_round_trip (D : String) (P : List JSeg) (V : JValue)
    (D2 : String) (hwfV : wfJ V = true)
    (hp : jsoncPatch D P V = some D2) :
    ∃ pre mid post t t2,
      D.data = pre ++ mid ++ post ∧
      D2.data = pre ++ serialize V ++ post ∧
      parseJson D = some t ∧
      parseJson D2 = some t2 ∧
      setAt t P V = some t2 ∧
      getAtPath t2 P = some V := by
  simp only [jsoncPatch] at hp
  match hpj : parseJson D with
  | none => simp only [hpj] at hp; simp at hp
  | some t0 =>
    simp only [hpj] at hp
    match hde : descendVal (2 * D.data.length + 2) (skipWs D.data) P with
    | none => simp only [hde] at hp; simp at hp
    | some sub =>
      simp only [hde] at hp
      match hpv0 : parseVal (2 * D.data.length + 2) sub with
      | none => simp only [hpv0] at hp; simp at hp
      | some (u0, post0) =>
        simp only [hpv0, Option.some.injEq] at hp
        have hpj2 := hpj
        simp only [parseJson] at hpj2
        match hpv : parseVal (2 * D.data.length + 2) (skipWs D.data) with
        | none => simp only [hpv] at hpj2; simp at hpj2
        | some (t1, rest0) =>
          simp only [hpv] at hpj2
          by_cases hre : (skipWs rest0).isEmpty = true
          · rw [if_pos hre] at hpj2
            simp only [Option.some.injEq] at hpj2
            subst hpj2
            have hrest0 : skipWs rest0 = [] :=
              List.isEmpty_iff.mp hre
            have hbrest : boundaryOk rest0 = true :=
              boundaryOk_of_ws (skipWs_nil_all_ws hrest0)
            have hswlen : (skipWs D.data).length ≤ D.data.length :=
              (List.dropWhile_sublist _).length_le
            have hF : 2 * (skipWs D.data).length ≤
                2 * D.data.length + 2 := by omega
            obtain ⟨preA, postD, u, t2, hcs, ⟨mid0, hmid⟩, ⟨midp, hmidp⟩,
              ⟨fu, hfu⟩, hget, hset, hfin⟩ :=
              substVal V hwfV P (2 * D.data.length + 2)
                (2 * D.data.length + 2) (skipWs D.data) t1 rest0 sub hF
                hpv hbrest hde
            have hdet := parseVal_det hpv0 hfu
            have hpost0 : post0 = postD := congrArg Prod.snd hdet
            subst hpost0
            obtain ⟨w0, hw0eq, hw0ws⟩ := skipWs_decomp
              (rfl : skipWs D.data = skipWs D.data)
            have hD : D.data = (w0 ++ preA) ++ (mid0 ++ post0) := by
              conv_lhs => rw [hw0eq, hcs, hmid]
              simp only [List.append_assoc]
            have hD2 : D.data = (w0 ++ preA) ++ sub := by
              conv_lhs => rw [hw0eq, hcs]
              exact (List.append_assoc _ _ _).symm
            have hchop : chop D.data sub = w0 ++ preA := by
              have hlen : D.data.length - sub.length =
                  (w0 ++ preA).length := by
                have := congrArg List.length hD2
                simp only [List.length_append] at this ⊢
                omega
              simp only [chop]
              rw [hlen]
              conv_lhs => rw [hD2]
              exact List.take_left _ _
            have hD2data : D2.data = (w0 ++ preA) ++
                (serialize V ++ post0) := by
              rw [← hp, hchop]
              simp only [List.append_assoc]
            obtain ⟨chV, ctV, hchV, hchVws, _, _⟩ :=
              serialize_head_brace V hwfV
            have hl1 := congrArg List.length hD
            have hl2 := congrArg List.length hD2data
            have hl3 := congrArg List.length hmidp
            have hl4 := congrArg List.length hchV
            simp only [List.length_append, List.length_cons] at hl1 hl2 hl3
            refine ⟨w0 ++ preA, mid0, post0, t1, t2, ?_, ?_, rfl,
              ?_, hset, getAt_setAt P t1 V t2 hset⟩
            · rw [hD]
              simp only [List.append_assoc]
            · rw [hD2data]
              simp only [List.append_assoc]
            simp only [parseJson]
            have hsw2 : skipWs D2.data = preA ++ (serialize V ++ post0) := by
              rw [hD2data]
              match hpa : preA with
              | [] =>
                simp only [List.append_nil, List.nil_append]
                rw [hchV]
                simp only [List.cons_append]
                rw [skipWs_ws_append hw0ws hchVws]
              | p0 :: pA =>
                have hp0 : isWsChar p0 = false := by
                  have hsw0 : skipWs D.data = p0 :: (pA ++ sub) := by
                    rw [hcs]; simp only [List.cons_append]
                  exact skipWs_head_not_ws hsw0
                simp only [List.append_assoc, List.cons_append]
                rw [skipWs_ws_append hw0ws hp0]
            rw [hsw2]
            have hg : 2 * (preA.length + (serialize V).length +
                (post0.length - rest0.length)) ≤
                2 * D2.data.length + 2 := by omega
            have h9 := hfin (2 * D2.data.length + 2) hg
            simp only [List.append_assoc] at h9
            simp only [h9]
            rw [hrest0]
            rfl
          · rw [if_neg hre] at hpj2
            simp at hpj2

/-- Concrete run of the patcher: replacing the value at key `a` inside
a two-key object rewrites only that value's span and round-trips. -/
theorem document_patcher_round_trip_witness :
    wfJ (.num (String.mk ['2'])) = true ∧
    ∃ pre mid post t t2,
      (String.mk ['{', '"', 'a', '"', ':', '1', ',', '"', 'b', '"', ':',
        '[', '3', ']', '}']).data = pre ++ mid ++ post ∧
      (String.mk ['{', '"', 'a', '"', ':', '2', ',', '"', 'b', '"', ':',
        '[', '3', ']', '}']).data =
        pre ++ serialize (.num (String.mk ['2'])) ++ post ∧
      parseJson (String.mk ['{', '"', 'a', '"', ':', '1', ',', '"', 'b',
        '"', ':', '[', '3', ']', '}']) = some t ∧
      parseJson (String.mk ['{', '"', 'a', '"', ':', '2', ',', '"', 'b',
        '"', ':', '[', '3', ']', '}']) = some t2 ∧
      setAt t [.str "a"] (.num (String.mk ['2'])) = some t2 ∧
      getAtPath t2 [.str "a"] = some (.num (String.mk ['2'])) :=
  ⟨rfl, document_patcher_round_trip
    (String.mk ['{', '"', 'a', '"', ':', '1', ',', '"', 'b', '"', ':',
      '[', '3', ']', '}'])
    [.str "a"] (.num (String.mk ['2']))
    (String.mk ['{', '"', 'a', '"', ':', '2', ',', '"', 'b', '"', ':',
      '[', '3', ']', '}']) rfl rfl⟩
